import Mathlib

/-!
# Verification of the PicoGRAM AS-Waksman permutation subsystem

This file gives a shallow embedding of the AS-Waksman routing code of the
PicoGRAM repository and proves the testable properties stated for it.

The repository ships the driver `waksman_permute_vector` (src/utils/waksman.hpp,
namespace PicoGRAM) together with declarations of the libsnark routing
primitives `as_waksman_num_columns`, `generate_as_waksman_topology`,
`get_as_waksman_routing`, `valid_as_waksman_routing` and the class
`integer_permutation`.  The driver's body is embedded here directly from the
source; the routing primitives are only declared in the sources at hand, so
they are modelled from the specification (each such definition carries a
doc comment starting with "Modelled from the spec:").

Conventions.
* A permutation of size n is a `List ℕ` p of length n with `p.getD i 0` the
  destination of the packet entering row i; bijectivity is expressed as
  `perm_is_valid` (the list is a permutation of `List.range n`).
* A topology column is a `List (ℕ × ℕ)` of length n whose entry at row r is
  the pair (straight destination, cross destination); a pass-through row has
  both components equal, exactly as in the source.
* A routing column is an association list from canonical (top) rows to the
  switch's cross bit; absent entries read as false, matching the defaulting
  behaviour of `std::map::operator[]` used by the driver.
* C++ `Assert` failures and the driver's `throw` are modelled as `Except.error`
  values, so that the theorems can speak about which inputs fail and where.
-/

/-- Fuel-driven ceiling base-2 logarithm; with fuel at least n it agrees with
`Nat.clog 2 n`.  The fuel keeps the recursion structural so that the kernel
can evaluate it. -/
def clog2F : ℕ → ℕ → ℕ
  | 0, _ => 0
  | f + 1, n => if n ≤ 1 then 0 else clog2F f ((n + 1) / 2) + 1

theorem clog2F_eq_clog (f n : ℕ) (h : n ≤ f) : clog2F f n = Nat.clog 2 n := by
  induction f generalizing n with
  | zero =>
    have : n = 0 := by omega
    simp [this, clog2F]
  | succ f ih =>
    by_cases h1 : n ≤ 1
    · match n, h1 with
      | 0, _ => simp [clog2F]
      | 1, _ => simp [clog2F]
    · have h2 : 2 ≤ n := by omega
      rw [clog2F, if_neg h1, ih _ (by omega),
        Nat.clog_of_two_le (by norm_num) h2,
        show n + 2 - 1 = n + 1 from by omega]

/-- `Modelled from the spec:` the number of switch columns
`as_waksman_num_columns` (declared in src/utils/waksman.hpp, implementation not
in the sources).  The spec gives the closed formula 2 * ceil(log2 N) - 1 for
N at least 2, and 0 for N = 1. -/
def as_waksman_num_columns (n : ℕ) : ℕ :=
  if n ≤ 1 then 0 else 2 * clog2F n n - 1

theorem as_waksman_num_columns_one : as_waksman_num_columns 1 = 0 := rfl

/-- The closed formula via `Nat.clog`. -/
theorem as_waksman_num_columns_eq (n : ℕ) (h : 2 ≤ n) :
    as_waksman_num_columns n = 2 * Nat.clog 2 n - 1 := by
  rw [as_waksman_num_columns, if_neg (by omega), clog2F_eq_clog n n le_rfl]

theorem as_waksman_num_columns_rec (n : ℕ) (h : 3 ≤ n) :
    as_waksman_num_columns n = as_waksman_num_columns ((n + 1) / 2) + 2 := by
  have hhalf : 2 ≤ (n + 1) / 2 := by omega
  rw [as_waksman_num_columns_eq n (by omega), as_waksman_num_columns_eq _ hhalf,
    Nat.clog_of_two_le (by norm_num) (show 2 ≤ n by omega),
    show n + 2 - 1 = n + 1 from by omega]
  have hpos : 0 < Nat.clog 2 ((n + 1) / 2) := Nat.clog_pos (by norm_num) hhalf
  omega

theorem as_waksman_num_columns_pos (n : ℕ) (h : 2 ≤ n) :
    1 ≤ as_waksman_num_columns n := by
  rw [as_waksman_num_columns_eq n h]
  have := Nat.clog_pos (b := 2) (n := n) (by norm_num) h
  omega

theorem as_waksman_num_columns_odd (n : ℕ) (h : 2 ≤ n) :
    Odd (as_waksman_num_columns n) := by
  rw [as_waksman_num_columns_eq n h]
  have := Nat.clog_pos (b := 2) (n := n) (by norm_num) h
  exact ⟨Nat.clog 2 n - 1, by omega⟩

theorem as_waksman_num_columns_le_one (n : ℕ) (h : n ≤ 1) :
    as_waksman_num_columns n = 0 := by
  rw [as_waksman_num_columns, if_pos h]

theorem as_waksman_num_columns_monotone : Monotone as_waksman_num_columns := by
  intro a b hab
  rcases Nat.lt_or_ge a 2 with ha | ha
  · rw [as_waksman_num_columns_le_one a (by omega)]
    exact Nat.zero_le _
  · rw [as_waksman_num_columns_eq a ha, as_waksman_num_columns_eq b (le_trans ha hab)]
    have := Nat.clog_mono_right 2 hab
    omega

/-! ## Label algebra: the test harness re-encoding (src/tests/test_emp_interface.cpp) -/

/-- A Bit label is the list of its LAMBDA_BYTES bytes (each below 256; the
byte bound is irrelevant to the XOR algebra and is not imposed here). -/
abbrev BitType := List ℕ

/-- Byte-wise XOR of two labels, as the loop in `compute_encoding` does. -/
def xorBytes (a b : BitType) : BitType := List.zipWith (fun x y => x ^^^ y) a b

/-- `compute_encoding` for a Bit (src/tests/test_emp_interface.cpp lines 5-16):
value 0 returns the zero-label unchanged, otherwise the byte-wise XOR with
Delta. -/
def compute_encoding (bit : BitType) (val : ℕ) (Delta : BitType) : BitType :=
  if val = 0 then bit else xorBytes bit Delta

/-- `compute_encoding` for a Word (src/tests/test_emp_interface.cpp lines
18-27): bit i of the word is encoded with bit i of the value, least
significant bit first, mirroring `val & 1` and `val >>= 1`. -/
def compute_encoding_word (bits : List BitType) (val : ℕ) (Delta : BitType) :
    List BitType :=
  match bits with
  | [] => []
  | b :: rest => compute_encoding b (val &&& 1) Delta ::
      compute_encoding_word rest (val >>> 1) Delta

theorem compute_encoding_word_length (bits : List BitType) (val : ℕ)
    (Delta : BitType) :
    (compute_encoding_word bits val Delta).length = bits.length := by
  induction bits generalizing val with
  | nil => rfl
  | cons b rest ih => simp [compute_encoding_word, ih]

/-! ## Network data model

Topology columns, routing columns and the row loop of the driver. -/

/-- One topology column: entry at row r is the (straight, cross) destination
pair, `as_waksman_topology` restricted to a single column. -/
abbrev Col := List (ℕ × ℕ)

/-- One routing column: canonical top row to cross bit, `as_waksman_routing`
restricted to a single column. -/
abbrev RCol := List (ℕ × Bool)

/-- Reading a switch bit from a routing column; a missing canonical entry
reads as false, matching `std::map::operator[]` default construction. -/
def bitOf (rcol : RCol) (r : ℕ) : Bool :=
  ((rcol.find? (fun q => q.1 == r)).map Prod.snd).getD false

/-- The control bit consumed by the driver at column cIdx, row r:
`!routing.empty() ? routing[column_idx][top_idx] : false`. -/
def bitAt (routing : List RCol) (cIdx r : ℕ) : Bool :=
  if routing.isEmpty then false else bitOf (routing.getD cIdx []) r

/-- The row loop of `waksman_permute_vector` (src/utils/waksman.hpp lines
179-198) on one column, walking the column and the current vector together.
r is the absolute row index of the head entry (used as the canonical switch
key).  It returns the list of writes (destination, value) performed on the
next vector, in order, together with the trace of control bits passed to
`cond_swap`, with `cond_swap` given the plaintext conditional-swap semantics
of the spec's section 6.  A row is a pass-through when it is the last row or
its two destinations coincide; otherwise it is the top of a switch consuming
also the following row, whose topology entry the source never reads.  The
source's `Assert_eq` in the pass-through branch is commented on where the
generated topologies are proved to satisfy it. -/
def rowPassT (bits : ℕ → Bool) : ℕ → Col → List α → List (ℕ × α) × List Bool
  | _, [], _ => ([], [])
  | _, _ :: _, [] => ([], [])
  | r, (d1, d2) :: rest, x :: xs =>
    if rest.isEmpty || d1 == d2 then
      let t := rowPassT bits (r + 1) rest xs
      ((d1, x) :: t.1, t.2)
    else
      match rest, xs with
      | _ :: rest2, y :: xs2 =>
        let b := bits r
        let t := rowPassT bits (r + 2) rest2 xs2
        ((d1, if b then y else x) :: (d2, if b then x else y) :: t.1, b :: t.2)
      | _ :: _, [] => ([(d1, x)], [])
      | [], _ => ([(d1, x)], [])

/-- The writes of one column. -/
def rowPass (bits : ℕ → Bool) (r : ℕ) (c : Col) (v : List α) : List (ℕ × α) :=
  (rowPassT bits r c v).1

/-- Performing the writes `next_vector[d] = value` in order. -/
def writeDeps (ds : List (ℕ × α)) (next : List α) : List α :=
  ds.foldl (fun acc q => acc.set q.1 q.2) next

/-- The column loop of `waksman_permute_vector` (src/utils/waksman.hpp lines
177-201): process each column, write into the next vector, swap the two
vectors.  The stale content of the next vector is the previous current
vector, exactly as after `std::swap`. -/
def execNetGo (routing : List RCol) : List Col → ℕ → List α → List α → List α
  | [], _, cur, _ => cur
  | c :: rest, cIdx, cur, next =>
    execNetGo routing rest (cIdx + 1)
      (writeDeps (rowPass (bitAt routing cIdx) 0 c cur) next) cur

/-- Network execution: the driver's loop started on the input vector with a
default-initialised next vector (`std::vector<T> next_vector(N)`). -/
def execNet (topo : List Col) (routing : List RCol) (dflt : α)
    (input : List α) : List α :=
  execNetGo routing topo 0 input (List.replicate input.length dflt)

/-- The concatenated trace of control bits passed to `cond_swap`, column by
column, during `execNet`. -/
def execNetGoT (routing : List RCol) : List Col → ℕ → List α → List α → List Bool
  | [], _, _, _ => []
  | c :: rest, cIdx, cur, next =>
    (rowPassT (bitAt routing cIdx) 0 c cur).2 ++
      execNetGoT routing rest (cIdx + 1)
        (writeDeps (rowPass (bitAt routing cIdx) 0 c cur) next) cur

def execNetT (topo : List Col) (routing : List RCol) (dflt : α)
    (input : List α) : List Bool :=
  execNetGoT routing topo 0 input (List.replicate input.length dflt)

/-! ## Topology construction -/

/-- Identity destinations for rows lo..lo+n-1. -/
def identDests (n lo : ℕ) : List ℕ := (List.range n).map (fun j => lo + j)

/-- A column of pass-through wires sending row lo+j straight to row lo+j. -/
def passCol (n lo : ℕ) : Col := (List.range n).map (fun j => (lo + j, lo + j))

/-- A column of pass-through wires sending row number j (of n) to dests[j]. -/
def passColD (dests : List ℕ) : Col := dests.map (fun d => (d, d))

/-- The left switch column of a size-n sub-network whose rows start at lo:
switch k occupies rows lo+2k (top) and lo+2k+1; straight sends the top to row
k of the upper half and the bottom to row k of the lower half, cross swaps
them; for odd n the last row passes through to the last row of the lower
half. -/
def switchColL (n lo : ℕ) : Col :=
  ((List.range (n / 2)).flatMap fun k =>
    [(lo + k, lo + n / 2 + k), (lo + n / 2 + k, lo + k)]) ++
    (if n % 2 = 1 then [(lo + n - 1, lo + n - 1)] else [])

/-- The right switch column: switch m occupies rows lo+2m and lo+2m+1 and
sends them to dests[2m] / dests[2m+1] according to its setting; for odd n the
last row passes through to dests[n-1]. -/
def switchColR (n : ℕ) (dests : List ℕ) : Col :=
  ((List.range (n / 2)).flatMap fun m =>
    [(dests.getD (2 * m) 0, dests.getD (2 * m + 1) 0),
     (dests.getD (2 * m + 1) 0, dests.getD (2 * m) 0)]) ++
    (if n % 2 = 1 then [(dests.getD (n - 1) 0, dests.getD (n - 1) 0)] else [])

/-- Destinations handed to the upper sub-network: its output k feeds the top
port of right switch k, i.e. row lo+2k. -/
def upDests (n lo : ℕ) : List ℕ := (List.range (n / 2)).map (fun k => lo + 2 * k)

/-- Destinations handed to the lower sub-network: its output k feeds the
bottom port of right switch k (row lo+2k+1), and for odd n its last output
feeds the pass-through row lo+n-1. -/
def loDests (n lo : ℕ) : List ℕ :=
  (List.range (n - n / 2)).map fun k =>
    if 2 * k + 1 < n then lo + 2 * k + 1 else lo + 2 * k

/-- `Modelled from the spec:` the recursive topology construction behind
`generate_as_waksman_topology` (declared in src/utils/waksman.hpp,
implementation not in the sources), following the spec's section 4.1.  The
first argument is the number of columns allocated to the sub-network (the
recursion is structural in it); n is the sub-network's size, lo its first
row, and dests maps its final outputs to rows of the enclosing network.  When
the allocated span exceeds the sub-network's own width, a column of
pass-through wires is added on both sides (the right one carrying dests), as
the libsnark layout the spec describes does. -/
def buildTopo : ℕ → ℕ → ℕ → List ℕ → List Col
  | 0, _, _, _ => []
  | 1, n, _, dests =>
    if n = 2 then
      [[(dests.getD 0 0, dests.getD 1 0), (dests.getD 1 0, dests.getD 0 0)]]
    else [passColD dests]
  | (s + 2), n, lo, dests =>
    if as_waksman_num_columns n < s + 2 then
      passCol n lo :: (buildTopo s n lo (identDests n lo) ++ [passColD dests])
    else
      switchColL n lo ::
        (List.zipWith (· ++ ·) (buildTopo s (n / 2) lo (upDests n lo))
            (buildTopo s (n - n / 2) (lo + n / 2) (loDests n lo)) ++
          [switchColR n dests])

/-- `Modelled from the spec:` `generate_as_waksman_topology` itself. -/
def generate_as_waksman_topology (n : ℕ) : List Col :=
  buildTopo (as_waksman_num_columns n) n 0 (List.range n)

/-! ## Routing construction -/

/-- The inverse of a permutation list: entry j is the row whose destination
is j (`integer_permutation::inverse`).  For a valid permutation of size n
this is its inverse. -/
def invL (n : ℕ) (p : List ℕ) : List ℕ :=
  (List.range n).map (fun j => List.indexOf j p)

/-- All bit vectors of a given length, the search space for one level's
switch settings. -/
def allBoolLists : ℕ → List (List Bool)
  | 0 => [[]]
  | n + 1 => (allBoolLists n).flatMap (fun l => [false :: l, true :: l])

/-- The row through which input-pair k enters the upper sub-network: the one
of rows 2k, 2k+1 that the colouring sends up (colour false). -/
def iUp (S : List Bool) (k : ℕ) : ℕ :=
  if S.getD (2 * k) false then 2 * k + 1 else 2 * k

/-- The row through which pair k enters the lower sub-network; for odd n the
last input row n-1 is hardwired to the lower sub-network. -/
def iLo (n : ℕ) (S : List Bool) (k : ℕ) : ℕ :=
  if 2 * k + 1 < n then (if S.getD (2 * k) false then 2 * k else 2 * k + 1)
  else 2 * k

/-- The constraints on one level's sub-network assignment S (true = lower):
the two rows of each left switch split between the halves, the two sources
of each right switch split between the halves, and for odd n both the last
input row and the source of the last output are pinned to the lower half.
sig is the inverse permutation. -/
def levelOK (n : ℕ) (sig : List ℕ) (S : List Bool) : Bool :=
  ((List.range (n / 2)).all fun k =>
    S.getD (2 * k) false != S.getD (2 * k + 1) false) &&
  ((List.range (n / 2)).all fun k =>
    S.getD (sig.getD (2 * k) 0) false != S.getD (sig.getD (2 * k + 1) 0) false) &&
  (if n % 2 = 1 then
    S.getD (n - 1) false && S.getD (sig.getD (n - 1) 0) false
  else true)

/-- One level's assignment of packets to the two sub-networks: the first
bit vector satisfying the 2-colouring constraints.  The spec's depth-first
2-colouring produces one particular such assignment; which satisfying
assignment is chosen does not affect any property proved here, since every
satisfying assignment routes the permutation. -/
def levelColor (n : ℕ) (sig : List ℕ) : List Bool :=
  ((allBoolLists n).find? (levelOK n sig)).getD (List.replicate n false)

/-- `Modelled from the spec:` the recursive routing solver behind
`get_as_waksman_routing` (declared in src/utils/waksman.hpp, implementation
not in the sources), following the spec's section 4.2: at each level choose
switch settings so that each packet reaches its destination through exactly
one of the two sub-networks (a 2-colouring of the switch constraint graph),
derive the two induced sub-permutations and recurse.  Arguments are as in
`buildTopo` with p the sub-permutation to realise (row i of the sub-network
must exit at its output p[i]).  A left switch crosses when its top row is
assigned to the lower half; a right switch crosses when the source of its
top output lies in the lower half. -/
def routeBuild : ℕ → ℕ → ℕ → List ℕ → List RCol
  | 0, _, _, _ => []
  | 1, n, lo, p => if n = 2 then [[(lo, p.getD 0 0 == 1)]] else [[]]
  | (s + 2), n, lo, p =>
    if as_waksman_num_columns n < s + 2 then
      [] :: (routeBuild s n lo p ++ [[]])
    else
      let n1 := n / 2
      let n2 := n - n1
      let sig := invL n p
      let S := levelColor n sig
      let pU := (List.range n1).map (fun k => p.getD (iUp S k) 0 / 2)
      let pL := (List.range n2).map (fun k => p.getD (iLo n S k) 0 / 2)
      let lb := (List.range n1).map (fun k => (lo + 2 * k, S.getD (2 * k) false))
      let rb := (List.range n1).map
        (fun m => (lo + 2 * m, S.getD (sig.getD (2 * m) 0) false))
      lb :: (List.zipWith (· ++ ·) (routeBuild s n1 lo pU)
          (routeBuild s n2 (lo + n1) pL) ++ [rb])

/-- `Modelled from the spec:` `get_as_waksman_routing` itself. -/
def get_as_waksman_routing (p : List ℕ) : List RCol :=
  routeBuild (as_waksman_num_columns p.length) p.length 0 p

/-! ## Validation and the driver -/

/-- `Modelled from the spec:` `integer_permutation::is_valid` (the class
integer_permutation.hpp is not in the sources); per the spec's section 3 a
permutation is valid when every index appears exactly once as an image. -/
def perm_is_valid (p : List ℕ) : Bool :=
  (List.range p.length).all (fun j => p.count j == 1)

/-- `Modelled from the spec:` `valid_as_waksman_routing` (declared in
src/utils/waksman.hpp, implementation not in the sources).  Per the spec's
section 4.3 it simulates the network on the identity vector over the routing
and accepts when the realised permutation is p; the packet starting at row i
must end at row p[i], i.e. the simulated vector (entry d holds the origin of
the packet arriving at d) must be the inverse of p. -/
def valid_as_waksman_routing (p : List ℕ) (R : List RCol) : Bool :=
  execNet (generate_as_waksman_topology p.length) R 0 (List.range p.length)
    == invL p.length p

/-- The failure modes of the driver: the two `Assert`s at lines 146-147 and
162 of src/utils/waksman.hpp and the `throw std::runtime_error` at line 168.
All three are modelled as error results (an `Assert` failure and an uncaught
exception both abort the run without producing a permuted vector). -/
inductive WaksmanError
  | sizeMismatch
  | permutationInvalid
  | routingInvalid
deriving DecidableEq

/-- `waksman_permute_vector` (src/utils/waksman.hpp lines 140-204) with the
plaintext conditional swap of the spec's section 6 as `cond_swap`:
assert the permutation is empty or matches the input's length; for a
non-empty permutation assert its validity, solve the routing and throw if
the self-check rejects it; then run the network column by column (with an
all-false control stream when the permutation is empty) and return the final
vector.  dflt is the default-constructed element value of
`std::vector<T> next_vector(N)`. -/
def waksman_permute_vector (input : List α) (perm : List ℕ) (dflt : α) :
    Except WaksmanError (List α) :=
  if ¬(input.length = perm.length ∨ perm = []) then .error .sizeMismatch
  else if perm.isEmpty then
    .ok (execNet (generate_as_waksman_topology input.length) [] dflt input)
  else if ¬ perm_is_valid perm then .error .permutationInvalid
  else if ¬ valid_as_waksman_routing perm (get_as_waksman_routing perm) then
    .error .routingInvalid
  else
    .ok (execNet (generate_as_waksman_topology input.length)
      (get_as_waksman_routing perm) dflt input)

/-- The same control flow, returning the trace of control bits passed to
`cond_swap` instead of the permuted vector. -/
def waksman_permute_trace (input : List α) (perm : List ℕ) (dflt : α) :
    Except WaksmanError (List Bool) :=
  if ¬(input.length = perm.length ∨ perm = []) then .error .sizeMismatch
  else if perm.isEmpty then
    .ok (execNetT (generate_as_waksman_topology input.length) [] dflt input)
  else if ¬ perm_is_valid perm then .error .permutationInvalid
  else if ¬ valid_as_waksman_routing perm (get_as_waksman_routing perm) then
    .error .routingInvalid
  else
    .ok (execNetT (generate_as_waksman_topology input.length)
      (get_as_waksman_routing perm) dflt input)

/-! ## Column blocks

Every generated column is a concatenation of pass-through rows and complete
switches; the row loop processes such a column block by block. -/

/-- A block of one column: a pass-through row or a complete switch. -/
inductive ColBlk
  | pass (d : ℕ)
  | sw (d1 d2 : ℕ)

/-- The column rows of a block. -/
def blkEntries : ColBlk → Col
  | .pass d => [(d, d)]
  | .sw d1 d2 => [(d1, d2), (d2, d1)]

/-- The destinations a block writes to. -/
def blkDests : ColBlk → List ℕ
  | .pass d => [d]
  | .sw d1 d2 => [d1, d2]

/-- A switch block must have two distinct destinations (pass-through rows are
exactly the rows with equal destinations). -/
def blkWF : ColBlk → Prop
  | .pass _ => True
  | .sw d1 d2 => d1 ≠ d2

def colOfBlks (bs : List ColBlk) : Col := bs.flatMap blkEntries

theorem colOfBlks_nil : colOfBlks [] = [] := rfl

theorem colOfBlks_cons (b : ColBlk) (bs : List ColBlk) :
    colOfBlks (b :: bs) = blkEntries b ++ colOfBlks bs := rfl

theorem colOfBlks_append (bs cs : List ColBlk) :
    colOfBlks (bs ++ cs) = colOfBlks bs ++ colOfBlks cs := by
  simp [colOfBlks]

/-- Processing a pass-through head block. -/
theorem rowPassT_pass (bits : ℕ → Bool) (r d : ℕ) (bs : List ColBlk)
    (x : α) (v : List α) :
    rowPassT bits r (colOfBlks (.pass d :: bs)) (x :: v) =
      ((d, x) :: (rowPassT bits (r + 1) (colOfBlks bs) v).1,
        (rowPassT bits (r + 1) (colOfBlks bs) v).2) := by
  show rowPassT bits r ((d, d) :: colOfBlks bs) (x :: v) = _
  rw [rowPassT.eq_def]
  simp

/-- Processing a switch head block. -/
theorem rowPassT_sw (bits : ℕ → Bool) (r d1 d2 : ℕ) (hne : d1 ≠ d2)
    (bs : List ColBlk) (x y : α) (v : List α) :
    rowPassT bits r (colOfBlks (.sw d1 d2 :: bs)) (x :: y :: v) =
      ((d1, if bits r then y else x) :: (d2, if bits r then x else y) ::
          (rowPassT bits (r + 2) (colOfBlks bs) v).1,
        bits r :: (rowPassT bits (r + 2) (colOfBlks bs) v).2) := by
  show rowPassT bits r ((d1, d2) :: (d2, d1) :: colOfBlks bs) (x :: y :: v) = _
  rw [rowPassT.eq_def]
  simp [hne]

def colBlkWF (bs : List ColBlk) : Prop := ∀ b ∈ bs, blkWF b

/-- Looking a destination up in a write list (first write wins; the generated
columns write each destination at most once). -/
def depLookup (ds : List (ℕ × α)) (j : ℕ) : Option α :=
  (ds.find? (fun q => q.1 == j)).map Prod.snd

theorem depLookup_nil (j : ℕ) : depLookup ([] : List (ℕ × α)) j = none := rfl

theorem depLookup_cons (k : ℕ) (x : α) (ds : List (ℕ × α)) (j : ℕ) :
    depLookup ((k, x) :: ds) j = if k = j then some x else depLookup ds j := by
  by_cases h : k = j <;> simp [depLookup, List.find?_cons, h]

theorem depLookup_append (ds es : List (ℕ × α)) (j : ℕ) :
    depLookup (ds ++ es) j =
      ((depLookup ds j).map some).getD (depLookup es j) := by
  induction ds with
  | nil => simp [depLookup]
  | cons q ds ih =>
    obtain ⟨k, x⟩ := q
    by_cases h : k = j <;> simp [depLookup_cons, h, ih]

theorem depLookup_eq_some_of_mem (ds : List (ℕ × α)) (j : ℕ) (x : α)
    (hmem : (j, x) ∈ ds) (hnd : (ds.map Prod.fst).Nodup) :
    depLookup ds j = some x := by
  induction ds with
  | nil => simp at hmem
  | cons q ds ih =>
    obtain ⟨k, y⟩ := q
    rw [List.map_cons, List.nodup_cons] at hnd
    rcases List.mem_cons.1 hmem with h | h
    · rw [Prod.ext_iff] at h
      obtain ⟨h1, h2⟩ := h
      simp only at h1 h2
      subst h1
      subst h2
      rw [depLookup_cons, if_pos rfl]
    · have hk : k ≠ j := by
        intro hkj
        subst hkj
        exact hnd.1 (List.mem_map.2 ⟨(k, x), h, rfl⟩)
      rw [depLookup_cons, if_neg hk]
      exact ih h hnd.2

theorem rowPassT_nil (bits : ℕ → Bool) (r : ℕ) (v : List α) :
    rowPassT bits r [] v = ([], []) := by
  rw [rowPassT.eq_def]

/-- Splitting the row loop at a block boundary. -/
theorem rowPassT_blocks_append (bits : ℕ → Bool) (bs cs : List ColBlk)
    (v w : List α) (hwf : colBlkWF bs) (hv : v.length = (colOfBlks bs).length) :
    ∀ r, rowPassT bits r (colOfBlks (bs ++ cs)) (v ++ w) =
      ((rowPassT bits r (colOfBlks bs) v).1 ++
          (rowPassT bits (r + v.length) (colOfBlks cs) w).1,
        (rowPassT bits r (colOfBlks bs) v).2 ++
          (rowPassT bits (r + v.length) (colOfBlks cs) w).2) := by
  induction bs generalizing v with
  | nil =>
    intro r
    have hv0 : v = [] := List.length_eq_zero.1 (by simpa [colOfBlks] using hv)
    subst hv0
    simp [colOfBlks, rowPassT_nil]
  | cons b bs ih =>
    intro r
    have hwfb : blkWF b := hwf b (by simp)
    have hwf' : colBlkWF bs := fun c hc => hwf c (by simp [hc])
    cases b with
    | pass d =>
      match v, hv with
      | x :: v, hv =>
        have hv' : v.length = (colOfBlks bs).length := by
          simpa [colOfBlks_cons, blkEntries] using hv
        have hrec := ih v hwf' hv' (r + 1)
        show rowPassT bits r (colOfBlks (ColBlk.pass d :: (bs ++ cs)))
            (x :: (v ++ w)) = _
        rw [rowPassT_pass, hrec, rowPassT_pass]
        have hoff : r + 1 + v.length = r + (x :: v).length := by
          simp
          omega
        rw [hoff]
        simp
    | sw d1 d2 =>
      match v, hv with
      | [x], hv => simp [colOfBlks_cons, blkEntries] at hv
      | [], hv => simp [colOfBlks_cons, blkEntries] at hv
      | x :: y :: v, hv =>
        have hv' : v.length = (colOfBlks bs).length := by
          simpa [colOfBlks_cons, blkEntries] using hv
        have hne : d1 ≠ d2 := hwfb
        have hrec := ih v hwf' hv' (r + 2)
        show rowPassT bits r (colOfBlks (ColBlk.sw d1 d2 :: (bs ++ cs)))
            (x :: y :: (v ++ w)) = _
        rw [rowPassT_sw _ _ _ _ hne, hrec, rowPassT_sw _ _ _ _ hne]
        have hoff : r + 2 + v.length = r + (x :: y :: v).length := by
          simp
          omega
        rw [hoff]
        simp

/-- The number of switches (canonical switch positions) of one column, by
the driver's own pairing rule. -/
def swCnt : Col → ℕ
  | [] => 0
  | (d1, d2) :: rest =>
    if rest.isEmpty || d1 == d2 then swCnt rest
    else
      match rest with
      | _ :: rest2 => swCnt rest2 + 1
      | [] => 0

/-- The number of canonical switch positions of a topology. -/
def numSwitches (topo : List Col) : ℕ := (topo.map swCnt).sum

def blkSw : ColBlk → ℕ
  | .pass _ => 0
  | .sw _ _ => 1

theorem swCnt_blocks (bs : List ColBlk) (hwf : colBlkWF bs) :
    swCnt (colOfBlks bs) = (bs.map blkSw).sum := by
  induction bs with
  | nil => rfl
  | cons b bs ih =>
    have hwf' : colBlkWF bs := fun c hc => hwf c (by simp [hc])
    cases b with
    | pass d =>
      show swCnt ((d, d) :: colOfBlks bs) = _
      rw [swCnt.eq_def]
      simp [blkSw, ih hwf']
    | sw d1 d2 =>
      have hne : d1 ≠ d2 := hwf (ColBlk.sw d1 d2) (by simp)
      show swCnt ((d1, d2) :: (d2, d1) :: colOfBlks bs) = _
      rw [swCnt.eq_def]
      simp [blkSw, hne, ih hwf']
      omega

/-- The destinations written by one column are the block destinations, in
order, independently of the control bits and the values. -/
theorem rowPassT_keys (bits : ℕ → Bool) (bs : List ColBlk) (v : List α)
    (hwf : colBlkWF bs) (hv : v.length = (colOfBlks bs).length) :
    ∀ r, (rowPassT bits r (colOfBlks bs) v).1.map Prod.fst =
      bs.flatMap blkDests := by
  induction bs generalizing v with
  | nil =>
    intro r
    have hv0 : v = [] := List.length_eq_zero.1 (by simpa [colOfBlks] using hv)
    subst hv0
    simp [colOfBlks, rowPassT_nil]
  | cons b bs ih =>
    intro r
    have hwf' : colBlkWF bs := fun c hc => hwf c (by simp [hc])
    cases b with
    | pass d =>
      match v, hv with
      | x :: v, hv =>
        have hv' : v.length = (colOfBlks bs).length := by
          simpa [colOfBlks_cons, blkEntries] using hv
        rw [rowPassT_pass]
        simp [blkDests, ih v hwf' hv' (r + 1)]
    | sw d1 d2 =>
      match v, hv with
      | [], hv => simp [colOfBlks_cons, blkEntries] at hv
      | [x], hv => simp [colOfBlks_cons, blkEntries] at hv
      | x :: y :: v, hv =>
        have hv' : v.length = (colOfBlks bs).length := by
          simpa [colOfBlks_cons, blkEntries] using hv
        have hne : d1 ≠ d2 := hwf (ColBlk.sw d1 d2) (by simp)
        rw [rowPassT_sw _ _ _ _ hne]
        simp [blkDests, ih v hwf' hv' (r + 2)]

/-- The number of writes of one column is the number of rows. -/
theorem rowPassT_deps_length (bits : ℕ → Bool) (bs : List ColBlk) (v : List α)
    (hwf : colBlkWF bs) (hv : v.length = (colOfBlks bs).length) :
    ∀ r, (rowPassT bits r (colOfBlks bs) v).1.length = (bs.flatMap blkDests).length := by
  intro r
  rw [← rowPassT_keys bits bs v hwf hv r]
  simp

/-- The trace of one column has one bit per switch. -/
theorem rowPassT_trace_length (bits : ℕ → Bool) (bs : List ColBlk) (v : List α)
    (hwf : colBlkWF bs) (hv : v.length = (colOfBlks bs).length) :
    ∀ r, (rowPassT bits r (colOfBlks bs) v).2.length = (bs.map blkSw).sum := by
  induction bs generalizing v with
  | nil =>
    intro r
    have hv0 : v = [] := List.length_eq_zero.1 (by simpa [colOfBlks] using hv)
    subst hv0
    simp [colOfBlks, rowPassT_nil]
  | cons b bs ih =>
    intro r
    have hwf' : colBlkWF bs := fun c hc => hwf c (by simp [hc])
    cases b with
    | pass d =>
      match v, hv with
      | x :: v, hv =>
        have hv' : v.length = (colOfBlks bs).length := by
          simpa [colOfBlks_cons, blkEntries] using hv
        rw [rowPassT_pass]
        simp [blkSw, ih v hwf' hv' (r + 1)]
    | sw d1 d2 =>
      match v, hv with
      | [], hv => simp [colOfBlks_cons, blkEntries] at hv
      | [x], hv => simp [colOfBlks_cons, blkEntries] at hv
      | x :: y :: v, hv =>
        have hv' : v.length = (colOfBlks bs).length := by
          simpa [colOfBlks_cons, blkEntries] using hv
        have hne : d1 ≠ d2 := hwf (ColBlk.sw d1 d2) (by simp)
        rw [rowPassT_sw _ _ _ _ hne]
        simp [blkSw, ih v hwf' hv' (r + 2)]
        omega

/-- With an empty routing every control bit handed to cond_swap is false. -/
theorem rowPassT_trace_false (r : ℕ) (c : List (ℕ × ℕ)) (v : List α) :
    ∀ b ∈ (rowPassT (fun _ => false) r c v).2, b = false := by
  induction r, c, v using rowPassT.induct (fun _ => false) with
  | case1 x xs => intro b hb; rw [rowPassT.eq_def] at hb; simp at hb
  | case2 x hd tl => intro b hb; rw [rowPassT.eq_def] at hb; simp at hb
  | case3 r d1 d2 rest x xs hcond ih =>
    intro b hb
    rw [rowPassT.eq_def] at hb
    simp only [hcond] at hb
    simp at hb
    exact ih b hb
  | case4 r d1 d2 x hd rest2 y xs2 hcond ih =>
    intro b hb
    have hc : ((hd :: rest2).isEmpty || d1 == d2) = false := by simpa using hcond
    rw [rowPassT.eq_def] at hb
    simp only [hc] at hb
    simp at hb
    rcases hb with h | h
    · exact h
    · exact ih b h
  | case5 r d1 d2 x hd tl hcond =>
    intro b hb
    have hc : ((hd :: tl).isEmpty || d1 == d2) = false := by simpa using hcond
    rw [rowPassT.eq_def] at hb
    simp only [hc] at hb
    simp at hb
  | case6 r d1 d2 x xs hcond => simp at hcond

theorem writeDeps_length (ds : List (ℕ × α)) (next : List α) :
    (writeDeps ds next).length = next.length := by
  induction ds generalizing next with
  | nil => rfl
  | cons q ds ih =>
    rw [writeDeps, List.foldl_cons]
    have := ih (next.set q.1 q.2)
    rw [writeDeps] at this
    rw [this, List.length_set]

theorem writeDeps_cons (q : ℕ × α) (ds : List (ℕ × α)) (next : List α) :
    writeDeps (q :: ds) next = writeDeps ds (next.set q.1 q.2) := rfl

theorem depLookup_eq_none (ds : List (ℕ × α)) (j : ℕ)
    (h : j ∉ ds.map Prod.fst) : depLookup ds j = none := by
  induction ds with
  | nil => rfl
  | cons q ds ih =>
    obtain ⟨k, x⟩ := q
    simp only [List.map_cons, List.mem_cons, not_or] at h
    rw [depLookup_cons, if_neg (fun hh => h.1 hh.symm)]
    exact ih h.2

theorem depLookup_isSome (ds : List (ℕ × α)) (j : ℕ)
    (h : j ∈ ds.map Prod.fst) : (depLookup ds j).isSome := by
  induction ds with
  | nil => simp at h
  | cons q ds ih =>
    obtain ⟨k, x⟩ := q
    rw [depLookup_cons]
    by_cases hkj : k = j
    · simp [hkj]
    · rw [if_neg hkj]
      apply ih
      simp only [List.map_cons, List.mem_cons] at h
      rcases h with h | h
      · exact absurd h.symm hkj
      · exact h

/-- A write list with distinct in-range destinations acts like its lookup
function. -/
theorem writeDeps_getD (ds : List (ℕ × α)) (next : List α)
    (hb : ∀ q ∈ ds, q.1 < next.length)
    (hnd : (ds.map Prod.fst).Nodup) (j : ℕ) (d0 : α) :
    (writeDeps ds next).getD j d0 =
      (depLookup ds j).getD (next.getD j d0) := by
  induction ds generalizing next with
  | nil => simp [writeDeps, depLookup]
  | cons q ds ih =>
    obtain ⟨k, x⟩ := q
    rw [List.map_cons, List.nodup_cons] at hnd
    rw [writeDeps_cons, depLookup_cons]
    have hb' : ∀ q ∈ ds, q.1 < (next.set k x).length := by
      intro q hq
      rw [List.length_set]
      exact hb q (by simp [hq])
    rw [ih (next.set k x) hb' hnd.2]
    by_cases hkj : k = j
    · subst hkj
      rw [if_pos rfl, depLookup_eq_none ds k hnd.1]
      have hk : k < next.length := hb (k, x) (by simp)
      simp only [Option.getD_none, Option.getD_some]
      rw [List.getD_eq_getElem _ _ (by simpa using hk), List.getElem_set]
      simp
    · rw [if_neg hkj]
      congr 1
      by_cases hj : j < next.length
      · rw [List.getD_eq_getElem _ _ (by simpa using hj),
          List.getD_eq_getElem _ _ hj, List.getElem_set, if_neg hkj]
      · rw [List.getD_eq_default _ _ (by simpa using Nat.le_of_not_lt hj),
          List.getD_eq_default _ _ (Nat.le_of_not_lt hj)]

/-- Materialising a write list into the local vector of a sub-network whose
rows are lo..lo+n-1. -/
def matLoc (n lo : ℕ) (dflt : α) (ds : List (ℕ × α)) : List α :=
  (List.range n).map (fun j => (depLookup ds (lo + j)).getD dflt)

theorem matLoc_length (n lo : ℕ) (dflt : α) (ds : List (ℕ × α)) :
    (matLoc n lo dflt ds).length = n := by simp [matLoc]

theorem matLoc_getD (n lo : ℕ) (dflt : α) (ds : List (ℕ × α)) (j : ℕ)
    (hj : j < n) (d0 : α) :
    (matLoc n lo dflt ds).getD j d0 = (depLookup ds (lo + j)).getD dflt := by
  rw [List.getD_eq_getElem _ _ (by simp [matLoc, hj])]
  simp [matLoc]

/-- When a column covers each slot of [0, N) exactly once, writing its
deposits over any stale length-N vector materialises its lookup function. -/
theorem writeDeps_eq_matLoc (ds : List (ℕ × α)) (next : List α) (num : ℕ)
    (dflt : α) (hlen : next.length = num)
    (hperm : (ds.map Prod.fst).Perm (List.range num)) :
    writeDeps ds next = matLoc num 0 dflt ds := by
  have hnd : (ds.map Prod.fst).Nodup := hperm.nodup_iff.2 (List.nodup_range num)
  have hmemkeys : ∀ j, j < num → j ∈ ds.map Prod.fst := by
    intro j hj
    exact hperm.mem_iff.2 (List.mem_range.2 hj)
  have hb : ∀ q ∈ ds, q.1 < next.length := by
    intro q hq
    rw [hlen]
    have : q.1 ∈ ds.map Prod.fst := List.mem_map.2 ⟨q, hq, rfl⟩
    exact List.mem_range.1 (hperm.mem_iff.1 this)
  apply List.ext_getElem
  · rw [writeDeps_length, hlen, matLoc_length]
  · intro j h1 h2
    rw [writeDeps_length, hlen] at h1
    rw [← List.getD_eq_getElem _ dflt, ← List.getD_eq_getElem _ dflt,
      writeDeps_getD ds next hb hnd j dflt, matLoc_getD num 0 dflt ds j h1]
    obtain ⟨y, hy⟩ := Option.isSome_iff_exists.1 (depLookup_isSome ds j (hmemkeys j h1))
    simp [hy]

/-- The per-level execution of a sub-network: all columns but the last write
into the local rows lo..lo+n-1 and are materialised there; the final column's
writes (which go to the enclosing network's rows) are returned. -/
def subExecD (lo n : ℕ) (dflt : α) : List Col → List RCol → List α → List (ℕ × α)
  | [], _, _ => []
  | [c], rts, v => rowPass (bitOf (rts.headD [])) lo c v
  | c :: c2 :: rest, rts, v =>
    subExecD lo n dflt (c2 :: rest) rts.tail
      (matLoc n lo dflt (rowPass (bitOf (rts.headD [])) lo c v))

theorem bitAt_eq_bitOf (routing : List RCol) (cIdx : ℕ) :
    bitAt routing cIdx = bitOf (routing.getD cIdx []) := by
  funext r
  rw [bitAt]
  by_cases h : routing.isEmpty
  · have : routing = [] := by
      cases routing with
      | nil => rfl
      | cons a l => simp at h
    subst this
    simp [bitOf]
  · rw [if_neg h]

theorem drop_headD_eq_getD (l : List RCol) (n : ℕ) :
    (l.drop n).headD [] = l.getD n [] := by
  rw [List.headD_eq_head?_getD, List.head?_drop, List.getD_eq_getElem?_getD]

/-- A column shape hypothesis: a well-formed block decomposition of the right
width whose destinations cover [0, num) exactly once. -/
def goodCol (num : ℕ) (c : Col) : Prop :=
  ∃ bs, colBlkWF bs ∧ c = colOfBlks bs ∧ (colOfBlks bs).length = num ∧
    (bs.flatMap blkDests).Perm (List.range num)

/-- The driver's stale-buffer column loop computes the clean materialised
semantics, for columns that cover every slot exactly once. -/
theorem execNetGo_eq_subExecD (num : ℕ) (dflt : α) :
    ∀ (cols : List Col) (routing : List RCol) (cIdx : ℕ)
      (cur next : List α), cur.length = num → next.length = num →
      (∀ c ∈ cols, goodCol num c) → cols ≠ [] →
      execNetGo routing cols cIdx cur next =
        matLoc num 0 dflt (subExecD 0 num dflt cols (routing.drop cIdx) cur) := by
  intro cols
  induction cols with
  | nil => intro _ _ _ _ _ _ _ h; exact absurd rfl h
  | cons c cols ih =>
    intro routing cIdx cur next hcur hnext hgood _
    obtain ⟨bs, hwf, hc, hlen, hperm⟩ := hgood c (by simp)
    subst hc
    have hbits : bitAt routing cIdx = bitOf ((routing.drop cIdx).headD []) := by
      rw [bitAt_eq_bitOf, drop_headD_eq_getD]
    have hkeys : ((rowPass (bitAt routing cIdx) 0 (colOfBlks bs) cur).map
        Prod.fst).Perm (List.range num) := by
      rw [rowPass, rowPassT_keys (bitAt routing cIdx) bs cur hwf (by omega)]
      exact hperm
    have hwd : writeDeps (rowPass (bitAt routing cIdx) 0 (colOfBlks bs) cur) next =
        matLoc num 0 dflt (rowPass (bitAt routing cIdx) 0 (colOfBlks bs) cur) :=
      writeDeps_eq_matLoc _ next num dflt hnext hkeys
    cases cols with
    | nil =>
      show execNetGo routing [] (cIdx + 1)
          (writeDeps (rowPass (bitAt routing cIdx) 0 (colOfBlks bs) cur) next) cur = _
      rw [execNetGo, hwd, subExecD, hbits]
    | cons c2 rest =>
      show execNetGo routing (c2 :: rest) (cIdx + 1)
          (writeDeps (rowPass (bitAt routing cIdx) 0 (colOfBlks bs) cur) next) cur = _
      rw [hwd, ih routing (cIdx + 1) _ cur (by rw [matLoc_length]) hcur
        (fun cc hcc => hgood cc (by simp [hcc])) (by simp)]
      rw [subExecD, List.tail_drop, hbits]

/-! ## Structural facts about the generated columns -/

theorem getD_enum (l : List ℕ) :
    (List.range l.length).map (fun i => l.getD i 0) = l := by
  apply List.ext_getElem
  · simp
  · intro i h1 h2
    simp only [List.getElem_map, List.getElem_range]
    rw [List.getD_eq_getElem _ _ h2]

theorem range_two_mul_flatMap (m : ℕ) :
    List.range (2 * m) = (List.range m).flatMap (fun k => [2 * k, 2 * k + 1]) := by
  induction m with
  | zero => rfl
  | succ m ih =>
    rw [show 2 * (m + 1) = (2 * m) + 1 + 1 from by omega, List.range_succ,
      List.range_succ, List.range_succ, List.flatMap_append, ← ih]
    simp

theorem append_pair_perm (A B : List ℕ) (a b : ℕ) :
    ((A ++ B) ++ [a, b]).Perm ((A ++ [a]) ++ (B ++ [b])) := by
  have h1 : (A ++ B) ++ [a, b] = A ++ (B ++ a :: [b]) := by simp
  have h2 : (A ++ [a]) ++ (B ++ [b]) = A ++ (a :: (B ++ [b])) := by simp
  rw [h1, h2]
  exact List.Perm.append_left A List.perm_middle

theorem flatMap_pair_perm (f g : ℕ → ℕ) (m : ℕ) :
    ((List.range m).flatMap (fun k => [f k, g k])).Perm
      ((List.range m).map f ++ (List.range m).map g) := by
  induction m with
  | zero => rfl
  | succ m ih =>
    rw [List.range_succ, List.flatMap_append, List.map_append, List.map_append]
    refine ((ih.append (List.Perm.refl _)).trans ?_)
    simp only [List.flatMap_cons, List.flatMap_nil, List.map_cons, List.map_nil,
      List.append_nil]
    exact append_pair_perm _ _ _ _

theorem identDests_length (n lo : ℕ) : (identDests n lo).length = n := by
  simp [identDests]

theorem identDests_nodup (n lo : ℕ) : (identDests n lo).Nodup := by
  refine List.Nodup.map_on ?_ (List.nodup_range n)
  intro x _ y _ h
  omega

theorem identDests_append (n1 n2 lo : ℕ) :
    identDests n1 lo ++ identDests n2 (lo + n1) = identDests (n1 + n2) lo := by
  rw [identDests, identDests, identDests, List.range_add, List.map_append,
    List.map_map]
  congr 1
  apply List.map_congr_left
  intro a _
  simp
  omega

/-- The block decompositions of the generated columns. -/
def blksPassD (dests : List ℕ) : List ColBlk := dests.map ColBlk.pass

def blksPass (n lo : ℕ) : List ColBlk := (identDests n lo).map ColBlk.pass

def blksL (n lo : ℕ) : List ColBlk :=
  (List.range (n / 2)).map (fun k => ColBlk.sw (lo + k) (lo + n / 2 + k)) ++
    (if n % 2 = 1 then [ColBlk.pass (lo + n - 1)] else [])

def blksR (n : ℕ) (dests : List ℕ) : List ColBlk :=
  (List.range (n / 2)).map
      (fun m => ColBlk.sw (dests.getD (2 * m) 0) (dests.getD (2 * m + 1) 0)) ++
    (if n % 2 = 1 then [ColBlk.pass (dests.getD (n - 1) 0)] else [])

theorem colOfBlks_map_pass (l : List ℕ) :
    colOfBlks (l.map ColBlk.pass) = l.map (fun d => (d, d)) := by
  rw [colOfBlks, List.flatMap_map]
  induction l with
  | nil => rfl
  | cons d l ih => simpa [blkEntries] using ih

theorem passColD_blocks (dests : List ℕ) :
    passColD dests = colOfBlks (blksPassD dests) := by
  rw [passColD, blksPassD, colOfBlks_map_pass]

theorem passCol_blocks (n lo : ℕ) : passCol n lo = colOfBlks (blksPass n lo) := by
  rw [blksPass, colOfBlks_map_pass, passCol, identDests, List.map_map]
  rfl

theorem colOfBlks_map_sw (f g : ℕ → ℕ) (l : List ℕ) :
    colOfBlks (l.map (fun k => ColBlk.sw (f k) (g k))) =
      l.flatMap (fun k => [(f k, g k), (g k, f k)]) := by
  rw [colOfBlks, List.flatMap_map]
  rfl

theorem switchColL_blocks (n lo : ℕ) :
    switchColL n lo = colOfBlks (blksL n lo) := by
  rw [switchColL, blksL, colOfBlks_append, colOfBlks_map_sw]
  congr 1
  by_cases h : n % 2 = 1 <;> simp [h, colOfBlks, blkEntries]

theorem switchColR_blocks (n : ℕ) (dests : List ℕ) :
    switchColR n dests = colOfBlks (blksR n dests) := by
  rw [switchColR, blksR, colOfBlks_append, colOfBlks_map_sw]
  congr 1
  by_cases h : n % 2 = 1 <;> simp [h, colOfBlks, blkEntries]

theorem blkDests_map_pass (l : List ℕ) :
    (l.map ColBlk.pass).flatMap blkDests = l := by
  induction l with
  | nil => rfl
  | cons d l ih => simpa [blkDests] using ih

theorem blkDests_map_sw (f g : ℕ → ℕ) (l : List ℕ) :
    (l.map (fun k => ColBlk.sw (f k) (g k))).flatMap blkDests =
      l.flatMap (fun k => [f k, g k]) := by
  rw [List.flatMap_map]
  rfl

theorem colOfBlks_length_map_pass (l : List ℕ) :
    (colOfBlks (l.map ColBlk.pass)).length = l.length := by
  rw [colOfBlks_map_pass]
  simp

theorem blksPassD_wf (dests : List ℕ) : colBlkWF (blksPassD dests) := by
  intro b hb
  rw [blksPassD] at hb
  obtain ⟨d, _, rfl⟩ := List.mem_map.1 hb
  trivial

theorem blksPass_wf (n lo : ℕ) : colBlkWF (blksPass n lo) := blksPassD_wf _

theorem blksPassD_dests (dests : List ℕ) :
    (blksPassD dests).flatMap blkDests = dests := blkDests_map_pass dests

theorem blksPass_dests (n lo : ℕ) :
    (blksPass n lo).flatMap blkDests = identDests n lo := blkDests_map_pass _

theorem blksL_wf (n lo : ℕ) : colBlkWF (blksL n lo) := by
  intro b hb
  rw [blksL] at hb
  rcases List.mem_append.1 hb with h | h
  · obtain ⟨k, hk, rfl⟩ := List.mem_map.1 h
    have : k < n / 2 := List.mem_range.1 hk
    show lo + k ≠ lo + n / 2 + k
    omega
  · by_cases ho : n % 2 = 1
    · rw [if_pos ho] at h
      simp at h
      subst h
      trivial
    · rw [if_neg ho] at h
      simp at h

theorem blksR_wf (n : ℕ) (dests : List ℕ) (hlen : dests.length = n)
    (hnd : dests.Nodup) : colBlkWF (blksR n dests) := by
  intro b hb
  rw [blksR] at hb
  rcases List.mem_append.1 hb with h | h
  · obtain ⟨m, hm, rfl⟩ := List.mem_map.1 h
    have hm' : m < n / 2 := List.mem_range.1 hm
    show dests.getD (2 * m) 0 ≠ dests.getD (2 * m + 1) 0
    have h1 : 2 * m < dests.length := by omega
    have h2 : 2 * m + 1 < dests.length := by omega
    rw [List.getD_eq_getElem _ _ h1, List.getD_eq_getElem _ _ h2]
    intro he
    have := (hnd.getElem_inj_iff).1 he
    omega
  · by_cases ho : n % 2 = 1
    · rw [if_pos ho] at h
      simp at h
      subst h
      trivial
    · rw [if_neg ho] at h
      simp at h

theorem length_flatMap_pairs (f g : ℕ → ℕ) (m : ℕ) :
    ((List.range m).flatMap fun k => [(f k, g k), (g k, f k)]).length = 2 * m := by
  rw [List.length_flatMap]
  induction m with
  | zero => rfl
  | succ m ih => rw [List.range_succ]; simp at ih ⊢; omega

theorem blksL_length (n lo : ℕ) : (colOfBlks (blksL n lo)).length = n := by
  rw [blksL, colOfBlks_append, List.length_append, colOfBlks_map_sw,
    length_flatMap_pairs]
  by_cases ho : n % 2 = 1 <;> simp [ho, colOfBlks, blkEntries] <;> omega

theorem blksR_length (n : ℕ) (dests : List ℕ) :
    (colOfBlks (blksR n dests)).length = n := by
  rw [blksR, colOfBlks_append, List.length_append, colOfBlks_map_sw,
    length_flatMap_pairs]
  by_cases ho : n % 2 = 1 <;> simp [ho, colOfBlks, blkEntries] <;> omega

theorem flatMap_pair_shift (lo : ℕ) (m : ℕ) :
    ((List.range m).flatMap fun k => [lo + 2 * k, lo + 2 * k + 1]) =
      identDests (2 * m) lo := by
  rw [identDests, range_two_mul_flatMap, List.map_flatMap]
  rfl

theorem identDests_one (lo : ℕ) : identDests 1 lo = [lo] := rfl

/-- The destinations of the left switch column cover the sub-network's rows
exactly once. -/
theorem blksL_dests_perm (n lo : ℕ) :
    ((blksL n lo).flatMap blkDests).Perm (identDests n lo) := by
  rw [blksL, List.flatMap_append, blkDests_map_sw]
  have hperm := flatMap_pair_perm (fun k => lo + k) (fun k => lo + n / 2 + k) (n / 2)
  have hup : (List.range (n / 2)).map (fun k => lo + k) = identDests (n / 2) lo := rfl
  have hlo : (List.range (n / 2)).map (fun k => lo + n / 2 + k) =
      identDests (n / 2) (lo + n / 2) := rfl
  rw [hup, hlo] at hperm
  have htail : ((if n % 2 = 1 then [ColBlk.pass (lo + n - 1)] else []).flatMap
      blkDests) = identDests (n % 2) (lo + 2 * (n / 2)) := by
    by_cases ho : n % 2 = 1
    · rw [if_pos ho, ho, identDests_one]
      simp [blkDests]
      omega
    · rw [if_neg ho]
      have : n % 2 = 0 := by omega
      rw [this]
      rfl
  rw [htail]
  refine (hperm.append (List.Perm.refl _)).trans ?_
  rw [List.append_assoc]
  have e : lo + 2 * (n / 2) = lo + n / 2 + (n / 2) := by omega
  rw [e, identDests_append, identDests_append]
  have : n / 2 + (n / 2 + n % 2) = n := by omega
  rw [this]

theorem upDests_length (n lo : ℕ) : (upDests n lo).length = n / 2 := by
  simp [upDests]

theorem loDests_length (n lo : ℕ) : (loDests n lo).length = n - n / 2 := by
  simp [loDests]

theorem upDests_nodup (n lo : ℕ) : (upDests n lo).Nodup := by
  refine List.Nodup.map_on ?_ (List.nodup_range _)
  intro x _ y _ h
  omega

theorem loDests_nodup (n lo : ℕ) : (loDests n lo).Nodup := by
  refine List.Nodup.map_on ?_ (List.nodup_range _)
  intro x _ y _ h
  split_ifs at h <;> omega

theorem loDests_eq (n lo : ℕ) :
    loDests n lo = (List.range (n / 2)).map (fun k => lo + 2 * k + 1) ++
      (if n % 2 = 1 then [lo + 2 * (n / 2)] else []) := by
  rw [loDests]
  by_cases ho : n % 2 = 1
  · rw [if_pos ho]
    have hn : n - n / 2 = n / 2 + 1 := by omega
    rw [hn, List.range_succ, List.map_append]
    congr 1
    · apply List.map_congr_left
      intro k hk
      have : k < n / 2 := List.mem_range.1 hk
      rw [if_pos (by omega)]
    · simp only [List.map_cons, List.map_nil]
      rw [if_neg (by omega)]
  · rw [if_neg ho]
    have hn : n - n / 2 = n / 2 := by omega
    rw [hn, List.append_nil]
    apply List.map_congr_left
    intro k hk
    have : k < n / 2 := List.mem_range.1 hk
    rw [if_pos (by omega)]

/-- The interleaved destinations handed to the two sub-networks cover the
sub-network's rows exactly once. -/
theorem upLo_dests_perm (n lo : ℕ) :
    (upDests n lo ++ loDests n lo).Perm (identDests n lo) := by
  rw [loDests_eq, upDests, ← List.append_assoc]
  have hperm := (flatMap_pair_perm (fun k => lo + 2 * k)
    (fun k => lo + 2 * k + 1) (n / 2)).symm
  refine (hperm.append (List.Perm.refl _)).trans ?_
  rw [flatMap_pair_shift]
  have htail : (if n % 2 = 1 then [lo + 2 * (n / 2)] else []) =
      identDests (n % 2) (lo + 2 * (n / 2)) := by
    by_cases ho : n % 2 = 1
    · rw [if_pos ho, ho, identDests_one]
    · rw [if_neg ho, show n % 2 = 0 from by omega]
      rfl
  rw [htail, identDests_append, show 2 * (n / 2) + n % 2 = n from by omega]

/-- The right switch column writes exactly to dests. -/
theorem blksR_dests_eq (n : ℕ) (dests : List ℕ) (hlen : dests.length = n) :
    (blksR n dests).flatMap blkDests = dests := by
  rw [blksR, List.flatMap_append, blkDests_map_sw]
  have h1 : ((List.range (n / 2)).flatMap
      fun k => [dests.getD (2 * k) 0, dests.getD (2 * k + 1) 0]) =
      (List.range (2 * (n / 2))).map (fun i => dests.getD i 0) := by
    rw [range_two_mul_flatMap, List.map_flatMap]
    rfl
  rw [h1]
  have h2 : ((if n % 2 = 1 then [ColBlk.pass (dests.getD (n - 1) 0)] else
      []).flatMap blkDests) =
      (if n % 2 = 1 then [2 * (n / 2)] else []).map (fun i => dests.getD i 0) := by
    by_cases ho : n % 2 = 1
    · rw [if_pos ho, if_pos ho, show n - 1 = 2 * (n / 2) from by omega]
      rfl
    · rw [if_neg ho, if_neg ho]
      rfl
  rw [h2, ← List.map_append]
  have h3 : (List.range (2 * (n / 2)) ++ if n % 2 = 1 then [2 * (n / 2)] else [])
      = List.range n := by
    by_cases ho : n % 2 = 1
    · rw [if_pos ho, ← List.range_succ]
      congr 1
      omega
    · rw [if_neg ho]
      simp only [List.append_nil]
      congr 1
      omega
  rw [h3, ← hlen, getD_enum]

theorem three_le_num_columns (n : ℕ) (h : 3 ≤ n) :
    3 ≤ as_waksman_num_columns n := by
  rw [as_waksman_num_columns_rec n h]
  have : 1 ≤ as_waksman_num_columns ((n + 1) / 2) :=
    as_waksman_num_columns_pos _ (by omega)
  omega

theorem num_columns_le_of_lt_odd (s n : ℕ) (hodd : Odd (s + 2))
    (hlt : as_waksman_num_columns n < s + 2) : as_waksman_num_columns n ≤ s := by
  rcases Nat.lt_or_ge n 2 with h | h
  · rw [as_waksman_num_columns_le_one n (by omega)]
    omega
  · have ho := as_waksman_num_columns_odd n h
    rcases ho with ⟨a, ha⟩
    rcases hodd with ⟨b, hb⟩
    omega

theorem odd_of_odd_add_two (s : ℕ) (h : Odd (s + 2)) : Odd s := by
  rcases h with ⟨b, hb⟩
  exact ⟨b - 1, by omega⟩

theorem switch_case_eq (s n : ℕ) (h1 : ¬ as_waksman_num_columns n < s + 2)
    (h2 : as_waksman_num_columns n ≤ s + 2) :
    as_waksman_num_columns n = s + 2 := by omega

theorem switch_case_n3 (s n : ℕ) (heq : as_waksman_num_columns n = s + 2) :
    3 ≤ n := by
  by_contra h
  rcases Nat.lt_or_ge n 2 with h' | h'
  · rw [as_waksman_num_columns_le_one n (by omega)] at heq
    omega
  · have : n = 2 := by omega
    subst this
    have : as_waksman_num_columns 2 = 1 := by decide
    omega

theorem switch_case_sub (s n : ℕ) (heq : as_waksman_num_columns n = s + 2)
    (h3 : 3 ≤ n) :
    as_waksman_num_columns (n - n / 2) = s ∧
      as_waksman_num_columns (n / 2) ≤ s := by
  have hrec := as_waksman_num_columns_rec n h3
  have he : (n + 1) / 2 = n - n / 2 := by omega
  rw [he] at hrec
  constructor
  · omega
  · have := as_waksman_num_columns_monotone (show n / 2 ≤ n - n / 2 by omega)
    omega

theorem getD_zipWith_append (A B : List Col) (i : ℕ) (hA : i < A.length)
    (hB : i < B.length) :
    (List.zipWith (· ++ ·) A B).getD i [] = A.getD i [] ++ B.getD i [] := by
  rw [List.getD_eq_getElem _ _ (by rw [List.length_zipWith]; omega),
    List.getD_eq_getElem _ _ hA, List.getD_eq_getElem _ _ hB,
    List.getElem_zipWith]

/-- Shape invariant of a generated sub-network: every column decomposes into
well-formed blocks of the sub-network's width; all columns write exactly once
to each of the sub-network's rows except the last, which writes exactly once
to each of dests. -/
def colsGood (n lo : ℕ) (dests : List ℕ) (cols : List Col) : Prop :=
  ∀ i, i < cols.length → ∃ bs, colBlkWF bs ∧ cols.getD i [] = colOfBlks bs ∧
    (colOfBlks bs).length = n ∧
    (bs.flatMap blkDests).Perm
      (if i = cols.length - 1 then dests else identDests n lo)

/-- Structure of the generated topology, by induction on the allocated span:
the span is filled exactly, and every column is a well-formed block column
with the exact-once destination cover. -/
theorem buildTopo_struct (s : ℕ) : ∀ (n lo : ℕ) (dests : List ℕ),
    Odd s → as_waksman_num_columns n ≤ s → 1 ≤ n → dests.length = n →
    dests.Nodup →
    (buildTopo s n lo dests).length = s ∧
      colsGood n lo dests (buildTopo s n lo dests) := by
  induction s using Nat.strong_induction_on with
  | _ s ih =>
    rcases s with _ | s
    · intro n lo dests hodd
      exact absurd hodd (by simp)
    rcases s with _ | s
    · -- span 1: a single column, n is 1 or 2
      intro n lo dests _ hcols hn hlen hnd
      have hn2 : n ≤ 2 := by
        by_contra h
        have := three_le_num_columns n (by omega)
        omega
      rcases Nat.lt_or_ge n 2 with h2 | h2
      · -- n = 1
        have hn1 : n = 1 := by omega
        subst hn1
        rw [show buildTopo 1 1 lo dests = [passColD dests] from by
          rw [buildTopo]; rw [if_neg (by omega)]]
        refine ⟨rfl, ?_⟩
        intro i hi
        have hi0 : i = 0 := by simpa using hi
        subst hi0
        refine ⟨blksPassD dests, blksPassD_wf dests, ?_, ?_, ?_⟩
        · rw [List.getD_cons_zero, passColD_blocks]
        · show (colOfBlks (dests.map ColBlk.pass)).length = 1
          rw [colOfBlks_length_map_pass, hlen]
        · rw [blksPassD_dests]
          simp
      · -- n = 2
        have hn1 : n = 2 := by omega
        subst hn1
        rw [show buildTopo 1 2 lo dests = [switchColR 2 dests] from by
          rw [buildTopo]; rfl]
        refine ⟨rfl, ?_⟩
        intro i hi
        have hi0 : i = 0 := by simpa using hi
        subst hi0
        refine ⟨blksR 2 dests, blksR_wf 2 dests hlen hnd, ?_, ?_, ?_⟩
        · rw [List.getD_cons_zero, switchColR_blocks]
        · rw [blksR_length]
        · rw [blksR_dests_eq 2 dests hlen]
          simp
    · -- span s + 2
      intro n lo dests hodd hcols hn hlen hnd
      have hodd2 : Odd (s + 2) := by simpa [Nat.add_assoc] using hodd
      have hodd' : Odd s := odd_of_odd_add_two s hodd2
      by_cases hpad : as_waksman_num_columns n < s + 1 + 1
      · -- padding: a pass-through column on each side
        have hcols' : as_waksman_num_columns n ≤ s :=
          num_columns_le_of_lt_odd s n hodd2 (by omega)
        have hinner := ih s (by omega) n lo (identDests n lo) hodd' hcols' hn
          (identDests_length n lo) (identDests_nodup n lo)
        rw [show buildTopo (s + 1 + 1) n lo dests =
            passCol n lo ::
              (buildTopo s n lo (identDests n lo) ++ [passColD dests]) from by
          rw [buildTopo]; rw [if_pos hpad]]
        have hlen2 : (passCol n lo ::
            (buildTopo s n lo (identDests n lo) ++ [passColD dests])).length
            = s + 2 := by
          simp [hinner.1]
        refine ⟨hlen2, ?_⟩
        intro i hi
        rw [hlen2] at hi
        rw [hlen2]
        rcases i with _ | j
        · refine ⟨blksPass n lo, blksPass_wf n lo, ?_, ?_, ?_⟩
          · rw [List.getD_cons_zero, passCol_blocks]
          · show (colOfBlks ((identDests n lo).map ColBlk.pass)).length = n
            rw [colOfBlks_length_map_pass, identDests_length]
          · rw [blksPass_dests, if_neg (by omega)]
        rcases Nat.lt_or_ge j s with hj | hj
        · -- middle: a column of the inner network
          obtain ⟨bs, hwf, hcol, hblen, hperm⟩ := hinner.2 j (by omega)
          refine ⟨bs, hwf, ?_, hblen, ?_⟩
          · rw [List.getD_cons_succ, List.getD_append _ _ _ j (by omega), hcol]
          · rw [if_neg (by omega)]
            rcases Nat.decEq j ((buildTopo s n lo (identDests n lo)).length - 1)
              with he | he
            · rw [if_neg he] at hperm
              exact hperm
            · rw [if_pos he] at hperm
              exact hperm
        · -- final: the right pass-through column carrying dests
          have hj' : j = s := by omega
          subst hj'
          refine ⟨blksPassD dests, blksPassD_wf dests, ?_, ?_, ?_⟩
          · rw [List.getD_cons_succ,
              List.getD_append_right _ _ _ _ (by omega), hinner.1]
            simp [passColD_blocks]
          · show (colOfBlks (dests.map ColBlk.pass)).length = n
            rw [colOfBlks_length_map_pass, hlen]
          · rw [blksPassD_dests, if_pos (by omega)]
      · -- switch case: the span equals the network's own width
        have heq : as_waksman_num_columns n = s + 2 := by
          have := switch_case_eq s n (by omega) (by omega)
          omega
        have hn3 : 3 ≤ n := switch_case_n3 s n heq
        obtain ⟨hsub2, hsub1⟩ := switch_case_sub s n heq hn3
        have ihU := ih s (by omega) (n / 2) lo (upDests n lo) hodd'
          (by omega) (by omega) (upDests_length n lo) (upDests_nodup n lo)
        have ihL := ih s (by omega) (n - n / 2) (lo + n / 2) (loDests n lo)
          hodd' (by omega) (by omega) (loDests_length n lo) (loDests_nodup n lo)
        rw [show buildTopo (s + 1 + 1) n lo dests = switchColL n lo ::
            (List.zipWith (· ++ ·) (buildTopo s (n / 2) lo (upDests n lo))
              (buildTopo s (n - n / 2) (lo + n / 2) (loDests n lo)) ++
              [switchColR n dests]) from by rw [buildTopo]; rw [if_neg hpad]]
        have hziplen : (List.zipWith (· ++ ·)
            (buildTopo s (n / 2) lo (upDests n lo))
            (buildTopo s (n - n / 2) (lo + n / 2) (loDests n lo))).length = s := by
          rw [List.length_zipWith, ihU.1, ihL.1, min_self]
        have hlen2 : (switchColL n lo ::
            (List.zipWith (· ++ ·) (buildTopo s (n / 2) lo (upDests n lo))
              (buildTopo s (n - n / 2) (lo + n / 2) (loDests n lo)) ++
              [switchColR n dests])).length = s + 2 := by
          simp [hziplen]
        refine ⟨hlen2, ?_⟩
        intro i hi
        rw [hlen2] at hi
        rw [hlen2]
        rcases i with _ | j
        · refine ⟨blksL n lo, blksL_wf n lo, ?_, ?_, ?_⟩
          · rw [List.getD_cons_zero, switchColL_blocks]
          · rw [blksL_length]
          · rw [if_neg (by omega)]
            exact blksL_dests_perm n lo
        rcases Nat.lt_or_ge j s with hj | hj
        · -- merged middle column
          obtain ⟨bsU, hwfU, hcolU, hblenU, hpermU⟩ := ihU.2 j (by omega)
          obtain ⟨bsL, hwfL, hcolL, hblenL, hpermL⟩ := ihL.2 j (by omega)
          rw [ihU.1] at hpermU
          rw [ihL.1] at hpermL
          refine ⟨bsU ++ bsL, ?_, ?_, ?_, ?_⟩
          · intro b hb
            rcases List.mem_append.1 hb with h | h
            · exact hwfU b h
            · exact hwfL b h
          · rw [List.getD_cons_succ, List.getD_append _ _ _ j (by omega),
              getD_zipWith_append _ _ j (by omega) (by omega), hcolU, hcolL,
              colOfBlks_append]
          · rw [colOfBlks_append, List.length_append, hblenU, hblenL]
            omega
          · rw [List.flatMap_append, if_neg (by omega)]
            by_cases hje : j = s - 1
            · rw [if_pos hje] at hpermU hpermL
              exact (hpermU.append hpermL).trans (upLo_dests_perm n lo)
            · rw [if_neg hje] at hpermU hpermL
              refine (hpermU.append hpermL).trans ?_
              rw [identDests_append, show n / 2 + (n - n / 2) = n from by omega]
        · -- final column: the right switch column
          have hj' : j = s := by omega
          subst hj'
          refine ⟨blksR n dests, blksR_wf n dests hlen hnd, ?_, ?_, ?_⟩
          · rw [List.getD_cons_succ,
              List.getD_append_right _ _ _ _ (by omega), hziplen]
            simp [switchColR_blocks]
          · rw [blksR_length]
          · rw [blksR_dests_eq n dests hlen, if_pos (by omega)]

theorem mem_zipWith_append {β : Type} [Inhabited β] (A B : List (List β))
    (rc : List β) (h : rc ∈ List.zipWith (· ++ ·) A B) :
    ∃ i, i < A.length ∧ i < B.length ∧ rc = A.getD i [] ++ B.getD i [] := by
  obtain ⟨i, hi, hrc⟩ := List.getElem_of_mem h
  rw [List.length_zipWith] at hi
  refine ⟨i, by omega, by omega, ?_⟩
  rw [← hrc, List.getElem_zipWith, List.getD_eq_getElem _ _ (by omega),
    List.getD_eq_getElem _ _ (by omega)]

/-- Structure of the computed routing: one routing column per topology
column, with all canonical keys inside the sub-network's rows. -/
theorem routeBuild_struct (s : ℕ) : ∀ (n lo : ℕ) (p : List ℕ),
    (routeBuild s n lo p).length = s ∧
      ∀ rc ∈ routeBuild s n lo p, ∀ q ∈ rc, lo ≤ q.1 ∧ q.1 < lo + n := by
  induction s using Nat.strong_induction_on with
  | _ s ih =>
    rcases s with _ | s
    · intro n lo p
      exact ⟨rfl, by simp [routeBuild]⟩
    rcases s with _ | s
    · intro n lo p
      by_cases hn2 : n = 2
      · subst hn2
        rw [show routeBuild 1 2 lo p = [[(lo, p.getD 0 0 == 1)]] from by
          rw [routeBuild]; rw [if_pos rfl]]
        refine ⟨rfl, ?_⟩
        intro rc hrc q hq
        simp at hrc
        subst hrc
        simp at hq
        subst hq
        simp
      · rw [show routeBuild 1 n lo p = [[]] from by
          rw [routeBuild]; rw [if_neg hn2]]
        refine ⟨rfl, ?_⟩
        intro rc hrc q hq
        simp at hrc
        subst hrc
        simp at hq
    · intro n lo p
      by_cases hpad : as_waksman_num_columns n < s + 1 + 1
      · rw [show routeBuild (s + 1 + 1) n lo p =
            [] :: (routeBuild s n lo p ++ [[]]) from by
          rw [routeBuild]; rw [if_pos hpad]]
        have hin := ih s (by omega) n lo p
        refine ⟨by simp [hin.1], ?_⟩
        intro rc hrc q hq
        rcases List.mem_cons.1 hrc with h | h
        · subst h; simp at hq
        · rcases List.mem_append.1 h with h' | h'
          · exact hin.2 rc h' q hq
          · simp at h'
            subst h'
            simp at hq
      · rw [routeBuild]
        rw [if_neg hpad]
        have hinU := ih s (by omega) (n / 2) lo
          ((List.range (n / 2)).map
            (fun k => p.getD (iUp (levelColor n (invL n p)) k) 0 / 2))
        have hinL := ih s (by omega) (n - n / 2) (lo + n / 2)
          ((List.range (n - n / 2)).map
            (fun k => p.getD (iLo n (levelColor n (invL n p)) k) 0 / 2))
        constructor
        · simp only [List.length_cons, List.length_append,
            List.length_zipWith, hinU.1, hinL.1, min_self, List.length_cons]
          simp
        · intro rc hrc q hq
          rcases List.mem_cons.1 hrc with h | h
          · subst h
            obtain ⟨k, hk, hqe⟩ := List.mem_map.1 hq
            have hk' : k < n / 2 := List.mem_range.1 hk
            rw [← hqe]
            simp
            omega
          · rcases List.mem_append.1 h with h' | h'
            · obtain ⟨i, hiU, hiL, rfl⟩ := mem_zipWith_append _ _ rc h'
              rcases List.mem_append.1 hq with hqa | hqb
              · have hm : (routeBuild s (n / 2) lo
                    ((List.range (n / 2)).map (fun k =>
                      p.getD (iUp (levelColor n (invL n p)) k) 0 / 2))).getD i [] ∈
                    routeBuild s (n / 2) lo
                    ((List.range (n / 2)).map (fun k =>
                      p.getD (iUp (levelColor n (invL n p)) k) 0 / 2)) := by
                  rw [List.getD_eq_getElem _ _ (by omega)]
                  exact List.getElem_mem _
                have := hinU.2 _ hm q hqa
                omega
              · have hm : (routeBuild s (n - n / 2) (lo + n / 2)
                    ((List.range (n - n / 2)).map (fun k =>
                      p.getD (iLo n (levelColor n (invL n p)) k) 0 / 2))).getD i [] ∈
                    routeBuild s (n - n / 2) (lo + n / 2)
                    ((List.range (n - n / 2)).map (fun k =>
                      p.getD (iLo n (levelColor n (invL n p)) k) 0 / 2)) := by
                  rw [List.getD_eq_getElem _ _ (by omega)]
                  exact List.getElem_mem _
                have := hinL.2 _ hm q hqb
                omega
            · simp at h'
              subst h'
              obtain ⟨k, hk, hqe⟩ := List.mem_map.1 hq
              have hk' : k < n / 2 := List.mem_range.1 hk
              rw [← hqe]
              simp
              omega

theorem identDests_zero (n : ℕ) : identDests n 0 = List.range n := by
  simp [identDests]

theorem execNetGo_length (routing : List RCol) :
    ∀ (cols : List Col) (cIdx : ℕ) (cur next : List α),
      cur.length = next.length →
      (execNetGo routing cols cIdx cur next).length = cur.length := by
  intro cols
  induction cols with
  | nil => intro _ _ _ _; rfl
  | cons c rest ih =>
    intro cIdx cur next hlen
    show (execNetGo routing rest (cIdx + 1)
      (writeDeps (rowPass (bitAt routing cIdx) 0 c cur) next) cur).length = _
    rw [ih (cIdx + 1) _ cur (by rw [writeDeps_length]; omega),
      writeDeps_length]
    omega

theorem execNet_length (topo : List Col) (routing : List RCol) (dflt : α)
    (input : List α) :
    (execNet topo routing dflt input).length = input.length := by
  rw [execNet, execNetGo_length]
  simp

/-- Trace length: one bit per canonical switch, whatever the routing, the
values, and the permutation. -/
theorem execNetGoT_length (routing : List RCol) (num : ℕ) :
    ∀ (cols : List Col) (cIdx : ℕ) (cur next : List α),
      cur.length = num → next.length = num →
      (∀ c ∈ cols, ∃ bs, colBlkWF bs ∧ c = colOfBlks bs ∧
        (colOfBlks bs).length = num) →
      (execNetGoT routing cols cIdx cur next).length = numSwitches cols := by
  intro cols
  induction cols with
  | nil => intro _ _ _ _ _ _; rfl
  | cons c rest ih =>
    intro cIdx cur next hcur hnext hgood
    obtain ⟨bs, hwf, hc, hblen⟩ := hgood c (by simp)
    subst hc
    show ((rowPassT (bitAt routing cIdx) 0 (colOfBlks bs) cur).2 ++
      execNetGoT routing rest (cIdx + 1)
        (writeDeps (rowPass (bitAt routing cIdx) 0 (colOfBlks bs) cur) next)
        cur).length = _
    rw [List.length_append,
      rowPassT_trace_length (bitAt routing cIdx) bs cur hwf (by omega) 0,
      ih (cIdx + 1) _ cur (by rw [writeDeps_length]; omega) hcur
        (fun cc hcc => hgood cc (by simp [hcc]))]
    simp [numSwitches, swCnt_blocks bs hwf]

/-- With an empty routing the trace is identically false. -/
theorem execNetGoT_false (num : ℕ) :
    ∀ (cols : List Col) (cIdx : ℕ) (cur next : List α),
      ∀ b ∈ execNetGoT [] cols cIdx cur next, b = false := by
  intro cols
  induction cols with
  | nil => intro _ _ _ b hb; simp [execNetGoT] at hb
  | cons c rest ih =>
    intro cIdx cur next b hb
    have hbit : bitAt [] cIdx = (fun _ => false) := funext fun r => rfl
    rw [execNetGoT, hbit] at hb
    rcases List.mem_append.1 hb with h | h
    · exact rowPassT_trace_false 0 c cur b h
    · exact ih (cIdx + 1) _ cur b h

/-- Bijectivity of a permutation list: the executable validity check of
`integer_permutation::is_valid` holds exactly when the list is a
rearrangement of 0..N-1. -/
theorem perm_is_valid_iff (p : List ℕ) :
    perm_is_valid p = true ↔ (List.range p.length).Perm p := by
  constructor
  · intro h
    have hc : ∀ j ∈ List.range p.length, List.count j (List.range p.length) ≤
        List.count j p := by
      intro j hj
      have := (List.all_eq_true.1 h) j hj
      have hcount : p.count j = 1 := by simpa using this
      have : List.count j (List.range p.length) ≤ 1 :=
        List.nodup_iff_count_le_one.1 (List.nodup_range _) j
      omega
    have hsub : (List.range p.length).Subperm p := List.subperm_ext_iff.2 hc
    exact hsub.perm_of_length_le (by simp)
  · intro h
    rw [perm_is_valid, List.all_eq_true]
    intro j hj
    have : p.count j = List.count j (List.range p.length) :=
      (List.perm_iff_count.1 h j).symm
    rw [List.count_eq_one_of_mem (List.nodup_range _) hj] at this
    simp [this]

/-- The generated topology has exactly `as_waksman_num_columns N` columns,
and every column is a well-formed block column of width N whose destinations
cover 0..N-1 exactly once. -/
theorem generate_topology_good (N : ℕ) :
    (generate_as_waksman_topology N).length = as_waksman_num_columns N ∧
      ∀ c ∈ generate_as_waksman_topology N, goodCol N c := by
  rcases Nat.lt_or_ge N 2 with h2 | h2
  · have h0 : as_waksman_num_columns N = 0 :=
      as_waksman_num_columns_le_one N (by omega)
    rw [generate_as_waksman_topology, h0]
    exact ⟨rfl, by intro c hc; simp [buildTopo] at hc⟩
  · have hs := buildTopo_struct (as_waksman_num_columns N) N 0 (List.range N)
      (as_waksman_num_columns_odd N h2) le_rfl (by omega) (by simp)
      (List.nodup_range N)
    rw [generate_as_waksman_topology]
    refine ⟨hs.1, ?_⟩
    intro c hc
    obtain ⟨i, hi, hci⟩ := List.getElem_of_mem hc
    obtain ⟨bs, hwf, hcol, hblen, hperm⟩ := hs.2 i (by omega)
    refine ⟨bs, hwf, ?_, hblen, ?_⟩
    · rw [← hci, ← hcol, List.getD_eq_getElem _ _ hi]
    · rcases Nat.decEq i ((buildTopo (as_waksman_num_columns N) N 0
          (List.range N)).length - 1) with he | he
      · rw [if_neg he, identDests_zero] at hperm
        exact hperm
      · rw [if_pos he] at hperm
        exact hperm

/-! ## Claims C3, C4, C6, C7, C8, C9, C10 -/

/-- C3: `num_columns(N)` equals 2 * ceil(log2 N) - 1 for every N at least 2
and 0 for N = 1; in particular it returns 1, 3, 3, 5, 5, 5, 5 for
N = 2, 3, 4, 5, 6, 7, 8. -/
theorem C3_num_columns_values :
    as_waksman_num_columns 1 = 0 ∧
    (∀ n, 2 ≤ n → as_waksman_num_columns n = 2 * Nat.clog 2 n - 1) ∧
    as_waksman_num_columns 2 = 1 ∧ as_waksman_num_columns 3 = 3 ∧
    as_waksman_num_columns 4 = 3 ∧ as_waksman_num_columns 5 = 5 ∧
    as_waksman_num_columns 6 = 5 ∧ as_waksman_num_columns 7 = 5 ∧
    as_waksman_num_columns 8 = 5 := by
  refine ⟨rfl, as_waksman_num_columns_eq, ?_, ?_, ?_, ?_, ?_, ?_, ?_⟩ <;> decide

/-- Witness for C3 at N = 4. -/
theorem C3_num_columns_values_witness :
    2 ≤ 4 ∧ as_waksman_num_columns 4 = 2 * Nat.clog 2 4 - 1 :=
  ⟨by decide, C3_num_columns_values.2.1 4 (by decide)⟩

/-- C4: during the execution of `waksman_permute_vector`, in every column of
the topology every slot of the next vector is written exactly once: the
destinations of the writes performed by the row loop on any column of the
generated topology are a permutation of 0..N-1, for every control-bit
function (hence for every routing) and every current vector of length N. -/
theorem C4_each_slot_written_once {α : Type} (N : ℕ) (c : Col)
    (hc : c ∈ generate_as_waksman_topology N) (bits : ℕ → Bool)
    (v : List α) (hv : v.length = N) :
    ((rowPass bits 0 c v).map Prod.fst).Perm (List.range N) := by
  obtain ⟨bs, hwf, hcol, hblen, hperm⟩ := (generate_topology_good N).2 c hc
  subst hcol
  rw [rowPass, rowPassT_keys bits bs v hwf (by omega) 0]
  exact hperm

/-- Witness for C4: the first column of the 4-packet network. -/
theorem C4_each_slot_written_once_witness :
    ((generate_as_waksman_topology 4).getD 0 [] ∈
      generate_as_waksman_topology 4) ∧
    (([10, 11, 12, 13] : List ℕ).length = 4) ∧
    ((rowPass (fun _ => true) 0 ((generate_as_waksman_topology 4).getD 0 [])
      [10, 11, 12, 13]).map Prod.fst).Perm (List.range 4) :=
  ⟨by decide, rfl, C4_each_slot_written_once 4 _ (by decide) _ _ rfl⟩

/-- C6: with an empty `permutation_indices` the driver performs no routing
computation, still executes every column of the network against the all-zeros
routing (every control bit passed to `cond_swap` is the constant false), and
returns a vector of the input's length. -/
theorem C6_empty_permutation {α : Type} (input : List α) (dflt : α) :
    waksman_permute_vector input [] dflt =
      .ok (execNet (generate_as_waksman_topology input.length) [] dflt input) ∧
    (execNet (generate_as_waksman_topology input.length) [] dflt input).length
      = input.length ∧
    waksman_permute_trace input [] dflt =
      .ok (List.replicate
        (numSwitches (generate_as_waksman_topology input.length)) false) := by
  refine ⟨by rw [waksman_permute_vector]; simp, execNet_length _ _ _ _, ?_⟩
  rw [waksman_permute_trace]
  simp only [List.length_nil, List.isEmpty_nil, if_true]
  rw [if_neg (by simp)]
  congr 1
  rw [execNetT]
  refine List.eq_replicate_iff.2 ⟨?_, ?_⟩
  · refine execNetGoT_length [] input.length _ 0 input _ rfl (by simp) ?_
    intro c hc
    obtain ⟨bs, hwf, hcol, hblen, _⟩ :=
      (generate_topology_good input.length).2 c hc
    exact ⟨bs, hwf, hcol, hblen⟩
  · exact execNetGoT_false input.length _ 0 input _

theorem xorBytes_zero (L0 : BitType) (n : ℕ) (h : L0.length = n) :
    xorBytes L0 (List.replicate n 0) = L0 := by
  induction L0 generalizing n with
  | nil => simp [xorBytes]
  | cons a L0 ih =>
    cases n with
    | zero => simp at h
    | succ m =>
      rw [List.replicate_succ]
      show (a ^^^ 0) :: xorBytes L0 (List.replicate m 0) = a :: L0
      rw [ih m (by simpa using h)]
      simp

/-- C7: the free-XOR re-encoding: for a Bit zero-label L0 and v in 0..1,
`compute_encoding` returns L0 XOR (v times Delta); for a Word it applies this
bit by bit, bit i of the word using bit i of the value, LSB first. -/
theorem C7_free_xor_encoding :
    (∀ (L0 Delta : BitType) (v : ℕ), v ≤ 1 → L0.length = Delta.length →
      compute_encoding L0 v Delta =
        xorBytes L0 (if v = 1 then Delta else
          List.replicate Delta.length 0)) ∧
    (∀ (bits : List BitType) (v : ℕ) (Delta : BitType) (i : ℕ),
      i < bits.length →
      (compute_encoding_word bits v Delta).getD i [] =
        compute_encoding (bits.getD i []) ((v >>> i) &&& 1) Delta) := by
  constructor
  · intro L0 Delta v hv hlen
    rcases Nat.le_one_iff_eq_zero_or_eq_one.1 hv with rfl | rfl
    · rw [compute_encoding, if_pos rfl, if_neg (by omega),
        xorBytes_zero L0 Delta.length hlen]
    · rw [compute_encoding, if_neg (by omega), if_pos rfl]
  · intro bits v Delta i
    induction bits generalizing v i with
    | nil => intro h; simp at h
    | cons b rest ih =>
      intro hi
      rcases i with _ | j
      · rw [compute_encoding_word, List.getD_cons_zero, List.getD_cons_zero]
        rfl
      · rw [compute_encoding_word, List.getD_cons_succ, List.getD_cons_succ,
          ih (v >>> 1) j (by simpa using hi)]
        congr 2
        rw [← Nat.shiftRight_add]
        congr 1
        omega

/-- Witness for C7. -/
theorem C7_free_xor_encoding_witness :
    ((1 : ℕ) ≤ 1 ∧ ([1, 2] : BitType).length = ([3, 5] : BitType).length ∧
      compute_encoding [1, 2] 1 [3, 5] =
        xorBytes [1, 2] (if 1 = 1 then ([3, 5] : BitType) else
          List.replicate ([3, 5] : BitType).length 0)) ∧
    ((1 : ℕ) < ([[1], [2]] : List BitType).length ∧
      (compute_encoding_word [[1], [2]] 2 [7]).getD 1 [] =
        compute_encoding (([[1], [2]] : List BitType).getD 1 [])
          (((2 : ℕ) >>> 1) &&& 1) [7]) :=
  ⟨⟨by decide, rfl, C7_free_xor_encoding.1 [1, 2] [3, 5] 1 (by decide) rfl⟩,
    ⟨by decide, C7_free_xor_encoding.2 [[1], [2]] 2 [7] 1 (by decide)⟩⟩

/-- C8: the self-check failure path.  The driver returns the RoutingInvalid
failure (modelling the `throw std::runtime_error` at waksman.hpp line 168,
which no caller in the repository catches, so the process dies) precisely
when a routing was computed for a valid non-empty permutation and
`valid_as_waksman_routing` rejected it; in that case no permuted vector is
produced.  It is a different failure from the two recoverable `Assert`
validation failures. -/
theorem C8_routing_invalid_is_fatal {α : Type} (input : List α)
    (perm : List ℕ) (dflt : α) :
    waksman_permute_vector input perm dflt = .error .routingInvalid ↔
      (perm ≠ [] ∧ input.length = perm.length ∧ perm_is_valid perm = true ∧
        ¬ valid_as_waksman_routing perm (get_as_waksman_routing perm) = true) := by
  rw [waksman_permute_vector]
  split_ifs with h1 h2 h3 h4
  · simp only [false_iff]
    intro hr
    exact hr.1 (List.isEmpty_iff.1 h2)
  · simp only [false_iff]
    intro hr
    exact hr.2.2.2 h4
  · constructor
    · intro _
      refine ⟨fun he => h2 (by simp [he]), ?_, h3, h4⟩
      rcases h1 with h | h
      · exact h
      · exact absurd h (fun he => h2 (by simp [he]))
    · intro _
      rfl
  · constructor
    · intro h
      simp at h
    · intro hr
      exact absurd hr.2.2.1 h3
  · constructor
    · intro h
      simp at h
    · intro hr
      exact absurd (Or.inl hr.2.1) h1

/-- C9: a non-empty permutation list of the input's length that is not a
bijection on 0..N-1 fails the `Assert(permutation.is_valid())` validation
(modelled as the PermutationInvalid failure surfaced to the caller) before
any network execution: neither a permuted vector nor any cond_swap
invocation is produced. -/
theorem C9_non_bijection_rejected {α : Type} (input : List α)
    (perm : List ℕ) (dflt : α) (hne : perm ≠ [])
    (hlen : perm.length = input.length)
    (hbij : ¬ (List.range perm.length).Perm perm) :
    waksman_permute_vector input perm dflt = .error .permutationInvalid ∧
      waksman_permute_trace input perm dflt = .error .permutationInvalid := by
  have hval : ¬ perm_is_valid perm = true := fun h =>
    hbij ((perm_is_valid_iff perm).1 h)
  constructor
  · rw [waksman_permute_vector, if_neg (by simp [hlen.symm]),
      if_neg (by simpa using hne), if_pos hval]
  · rw [waksman_permute_trace, if_neg (by simp [hlen.symm]),
      if_neg (by simpa using hne), if_pos hval]

/-- Witness for C9. -/
theorem C9_non_bijection_rejected_witness :
    (([0, 0, 1] : List ℕ) ≠ [] ∧ ([0, 0, 1] : List ℕ).length =
        ([10, 11, 12] : List ℕ).length ∧
      ¬ (List.range ([0, 0, 1] : List ℕ).length).Perm [0, 0, 1]) ∧
    waksman_permute_vector [10, 11, 12] [0, 0, 1] 0 =
      .error .permutationInvalid :=
  ⟨⟨by decide, rfl, fun h => absurd ((perm_is_valid_iff [0, 0, 1]).2 h)
      (by decide)⟩,
    (C9_non_bijection_rejected [10, 11, 12] [0, 0, 1] 0 (by decide) rfl
      (fun h => absurd ((perm_is_valid_iff [0, 0, 1]).2 h) (by decide))).1⟩

/-- C10: the entry assertion of `waksman_permute_vector` requires the
permutation list to be empty or exactly of the input's length; any non-empty
permutation of a different length fails the assertion and no permuted vector
is returned. -/
theorem C10_entry_size_assert {α : Type} (input : List α) (perm : List ℕ)
    (dflt : α) (hne : perm ≠ []) (hlen : perm.length ≠ input.length) :
    waksman_permute_vector input perm dflt = .error .sizeMismatch ∧
      waksman_permute_trace input perm dflt = .error .sizeMismatch := by
  constructor
  · rw [waksman_permute_vector,
      if_pos (by simp [hne]; omega)]
  · rw [waksman_permute_trace,
      if_pos (by simp [hne]; omega)]

/-- Witness for C10. -/
theorem C10_entry_size_assert_witness :
    (([0, 1, 2] : List ℕ) ≠ [] ∧ ([0, 1, 2] : List ℕ).length ≠
        ([10, 11] : List ℕ).length) ∧
    waksman_permute_vector [10, 11] [0, 1, 2] 0 = .error .sizeMismatch :=
  ⟨⟨by decide, by decide⟩,
    (C10_entry_size_assert [10, 11] [0, 1, 2] 0 (by decide) (by decide)).1⟩

/-! ## Existence of the level 2-colouring

The constraint graph of one level is the union of two matchings (the
input-pair relation and the output-pair relation, both involutions); such a
graph is always properly 2-colourable.  The proof removes one matched pair
and reconnects the two freed endpoints. -/

theorem two_matching_coloring : ∀ (m : ℕ) (U : Finset ℕ), U.card = m →
    ∀ (a b : ℕ → ℕ),
    (∀ v ∈ U, a v ∈ U ∧ a (a v) = v) → (∀ v ∈ U, b v ∈ U ∧ b (b v) = v) →
    ∃ S : ℕ → Bool, ∀ v ∈ U,
      (a v ≠ v → S (a v) ≠ S v) ∧ (b v ≠ v → S (b v) ≠ S v) := by
  intro m
  induction m using Nat.strong_induction_on with
  | _ m ih =>
    intro U hcard a b ha hb
    by_cases hex : ∃ v ∈ U, a v ≠ v
    · obtain ⟨v0, hv0, hav0⟩ := hex
      obtain ⟨v1, hv1e⟩ : ∃ x, a v0 = x := ⟨a v0, rfl⟩
      have hv1U : v1 ∈ U := hv1e ▸ (ha v0 hv0).1
      have hav1 : a v1 = v0 := by rw [← hv1e]; exact (ha v0 hv0).2
      have hne01 : v0 ≠ v1 := fun h => hav0 (by rw [hv1e, h])
      set U' := (U.erase v0).erase v1 with hUd
      have hmemU' : ∀ w, w ∈ U' ↔ w ∈ U ∧ w ≠ v0 ∧ w ≠ v1 := by
        intro w
        simp [hUd, Finset.mem_erase]
        tauto
      have hcard' : U'.card = m - 2 := by
        rw [hUd, Finset.card_erase_of_mem
            (Finset.mem_erase.2 ⟨fun h => hne01 h.symm, hv1U⟩),
          Finset.card_erase_of_mem hv0, hcard]
        omega
      have hm2 : 2 ≤ m := by
        have h2 : ({v0, v1} : Finset ℕ) ⊆ U := by
          intro x hx
          rcases Finset.mem_insert.1 hx with h | h
          · exact h ▸ hv0
          · exact (Finset.mem_singleton.1 h) ▸ hv1U
        have := Finset.card_le_card h2
        rw [Finset.card_insert_of_not_mem (by simp [hne01]),
          Finset.card_singleton] at this
        omega
      set b' := fun w => if b w = v0 ∨ b w = v1 then
          (if b (a (b w)) = v0 ∨ b (a (b w)) = v1 then w else b (a (b w)))
        else b w with hbd
      have hbinvU : ∀ w ∈ U, b (b w) = w := fun w hw => (hb w hw).2
      have hbU : ∀ w ∈ U, b w ∈ U := fun w hw => (hb w hw).1
      have ha' : ∀ w ∈ U', a w ∈ U' ∧ a (a w) = w := by
        intro w hw
        obtain ⟨hwU, hw0, hw1⟩ := (hmemU' w).1 hw
        refine ⟨(hmemU' (a w)).2 ⟨(ha w hwU).1, ?_, ?_⟩, (ha w hwU).2⟩
        · intro h
          refine hw1 ?_
          rw [← (ha w hwU).2, h, hv1e]
        · intro h
          refine hw0 ?_
          rw [← (ha w hwU).2, h, hav1]
      have hb' : ∀ w ∈ U', b' w ∈ U' ∧ b' (b' w) = w := by
        intro w hw
        obtain ⟨hwU, hw0, hw1⟩ := (hmemU' w).1 hw
        by_cases hcase : b w = v0 ∨ b w = v1
        · have ht : b (a (b w)) ∈ U := by
            rcases hcase with h | h
            · rw [h, hv1e]; exact hbU _ hv1U
            · rw [h, hav1]; exact hbU _ hv0
          by_cases htin : b (a (b w)) = v0 ∨ b (a (b w)) = v1
          · have hbw : b' w = w := by
              rw [hbd]; simp only [if_pos hcase, if_pos htin]
            rw [hbw]
            exact ⟨hw, hbw⟩
          · have hbw : b' w = b (a (b w)) := by
              rw [hbd]; simp only [if_pos hcase, if_neg htin]
            constructor
            · rw [hbw]
              refine (hmemU' _).2 ⟨ht, ?_, ?_⟩
              · intro h; exact htin (Or.inl h)
              · intro h; exact htin (Or.inr h)
            · rw [hbw]
              have hbt : b (b (a (b w))) = a (b w) := by
                rcases hcase with h | h
                · rw [h, hv1e]
                  exact hbinvU _ hv1U
                · rw [h, hav1]
                  exact hbinvU _ hv0
              have hcase2 : b (b (a (b w))) = v0 ∨ b (b (a (b w))) = v1 := by
                rw [hbt]
                rcases hcase with h | h
                · rw [h]
                  exact Or.inr hv1e
                · rw [h, hav1]
                  exact Or.inl rfl
              rw [hbd]
              simp only [if_pos hcase2]
              have hback : b (a (b (b (a (b w))))) = w := by
                rw [hbt]
                rcases hcase with h | h
                · rw [h, hv1e, hav1, ← h]
                  exact hbinvU _ hwU
                · rw [h, hav1, hv1e, ← h]
                  exact hbinvU _ hwU
              rw [hback]
              rw [if_neg (by push_neg; exact ⟨hw0, hw1⟩)]
        · have hbw : b' w = b w := by
            rw [hbd]; simp only [if_neg hcase]
          push_neg at hcase
          constructor
          · rw [hbw]
            exact (hmemU' _).2 ⟨hbU _ hwU, hcase.1, hcase.2⟩
          · rw [hbw]
            have hb2 : b (b w) = w := hbinvU _ hwU
            have hcase2 : ¬(b (b w) = v0 ∨ b (b w) = v1) := by
              rw [hb2]; push_neg; exact ⟨hw0, hw1⟩
            rw [hbd]
            simp only [if_neg hcase2]
            exact hb2
      obtain ⟨S', hS'⟩ := ih (m - 2) (by omega) U' hcard' a b' ha' hb'
      obtain ⟨w0, hw0e⟩ : ∃ x, b v0 = x := ⟨_, rfl⟩
      obtain ⟨w1, hw1e⟩ : ∃ x, b v1 = x := ⟨_, rfl⟩
      have hw0U : w0 ∈ U := hw0e ▸ hbU _ hv0
      have hw1U : w1 ∈ U := hw1e ▸ hbU _ hv1U
      have hbw0 : b w0 = v0 := by rw [← hw0e]; exact hbinvU _ hv0
      have hbw1 : b w1 = v1 := by rw [← hw1e]; exact hbinvU _ hv1U
      have hw01 : w0 ≠ w1 := by
        intro h
        rw [h, hbw1] at hbw0
        exact hne01 hbw0.symm
      set c0 := if ¬(w0 = v0 ∨ w0 = v1) then !(S' w0)
        else if ¬(w1 = v0 ∨ w1 = v1) then S' w1 else false with hc0def
      set S := fun v => if v = v0 then c0 else if v = v1 then !c0 else S' v
        with hSdef
      have hSv0 : S v0 = c0 := by rw [hSdef]; simp
      have hSv1 : S v1 = !c0 := by
        simp only [hSdef]
        rw [if_neg (fun h => hne01 h.symm)]
        simp
      have hSother : ∀ v, v ≠ v0 → v ≠ v1 → S v = S' v := by
        intro v h0 h1
        simp only [hSdef]
        rw [if_neg h0, if_neg h1]
      have hkey : ¬(w0 = v0 ∨ w0 = v1) → ¬(w1 = v0 ∨ w1 = v1) →
          S' w1 ≠ S' w0 := by
        intro h0 h1
        push_neg at h0
        have hw0U' : w0 ∈ U' := (hmemU' w0).2 ⟨hw0U, h0.1, h0.2⟩
        have hb'w0 : b' w0 = w1 := by
          simp only [hbd]
          rw [if_pos (Or.inl hbw0), hbw0, hv1e, hw1e, if_neg h1]
        have := (hS' w0 hw0U').2
        rw [hb'w0] at this
        exact this (fun h => hw01 h.symm)
      refine ⟨S, ?_⟩
      intro v hv
      by_cases hveq0 : v = v0
      · rw [hveq0]
        constructor
        · intro _
          rw [hv1e, hSv1, hSv0]
          exact Bool.not_ne_self c0
        · intro hbv
          rw [hw0e, hSv0]
          by_cases h0 : w0 = v0 ∨ w0 = v1
          · rcases h0 with h | h
            · rw [← hw0e] at h
              exact absurd h hbv
            · rw [h, hSv1]
              exact Bool.not_ne_self c0
          · rw [hSother w0 (fun h => h0 (Or.inl h)) (fun h => h0 (Or.inr h))]
            rw [hc0def]
            rw [if_pos h0]
            exact (Bool.not_ne_self (S' w0)).symm
      by_cases hveq1 : v = v1
      · rw [hveq1]
        constructor
        · intro _
          rw [hav1, hSv0, hSv1]
          intro h
          exact Bool.not_ne_self c0 h.symm
        · intro hbv
          rw [hw1e, hSv1]
          by_cases h1 : w1 = v0 ∨ w1 = v1
          · rcases h1 with h | h
            · rw [h, hSv0]
              intro he
              exact Bool.not_ne_self c0 he.symm
            · rw [← hw1e] at h
              exact absurd h hbv
          · rw [hSother w1 (fun h => h1 (Or.inl h)) (fun h => h1 (Or.inr h))]
            by_cases h0 : w0 = v0 ∨ w0 = v1
            · rw [hc0def, if_neg (not_not_intro h0), if_pos h1]
              exact (Bool.not_ne_self (S' w1)).symm
            · have hk := hkey h0 h1
              rw [hc0def, if_pos h0]
              simp only [Bool.not_not]
              exact hk
      · -- v in U'
        have hvU' : v ∈ U' := (hmemU' v).2 ⟨hv, hveq0, hveq1⟩
        constructor
        · intro hav
          have hav6 : a v ∈ U' := (ha' v hvU').1
          obtain ⟨_, hA0, hA1⟩ := (hmemU' (a v)).1 hav6
          rw [hSother (a v) hA0 hA1, hSother v hveq0 hveq1]
          exact (hS' v hvU').1 hav
        · intro hbv
          by_cases hcase : b v = v0 ∨ b v = v1
          · rcases hcase with h | h
            · have hvw0 : v = w0 := by
                rw [← hw0e, ← h]
                exact (hbinvU v hv).symm
              have hw0notpair : ¬(w0 = v0 ∨ w0 = v1) := by
                rw [← hvw0]
                push_neg
                exact ⟨hveq0, hveq1⟩
              rw [h, hSv0, hSother v hveq0 hveq1, hc0def, if_pos hw0notpair,
                hvw0]
              exact Bool.not_ne_self (S' w0)
            · have hvw1 : v = w1 := by
                rw [← hw1e, ← h]
                exact (hbinvU v hv).symm
              have hw1notpair : ¬(w1 = v0 ∨ w1 = v1) := by
                rw [← hvw1]
                push_neg
                exact ⟨hveq0, hveq1⟩
              rw [h, hSv1, hSother v hveq0 hveq1, hvw1]
              by_cases h0 : w0 = v0 ∨ w0 = v1
              · rw [hc0def, if_neg (not_not_intro h0), if_pos hw1notpair]
                exact Bool.not_ne_self (S' w1)
              · have hk := hkey h0 hw1notpair
                rw [hc0def, if_pos h0]
                simp only [Bool.not_not]
                exact fun he => hk he.symm
          · have hb'v : b' v = b v := by
              rw [hbd]; simp only [if_neg hcase]
            push_neg at hcase
            rw [hSother (b v) hcase.1 hcase.2, hSother v hveq0 hveq1]
            have := (hS' v hvU').2
            rw [hb'v] at this
            exact this hbv
    · push_neg at hex
      by_cases hbex : ∃ v ∈ U, b v ≠ v
      · obtain ⟨v0, hv0, hbv0⟩ := hbex
        obtain ⟨v1, hv1e⟩ : ∃ x, b v0 = x := ⟨_, rfl⟩
        have hv1U : v1 ∈ U := hv1e ▸ (hb v0 hv0).1
        have hbv1 : b v1 = v0 := by rw [← hv1e]; exact (hb v0 hv0).2
        have hne01 : v0 ≠ v1 := fun h => hbv0 (by rw [hv1e, h])
        set U' := (U.erase v0).erase v1 with hUd
        have hmemU' : ∀ w, w ∈ U' ↔ w ∈ U ∧ w ≠ v0 ∧ w ≠ v1 := by
          intro w
          simp [hUd, Finset.mem_erase]
          tauto
        have hcard' : U'.card = m - 2 := by
          rw [hUd, Finset.card_erase_of_mem
              (Finset.mem_erase.2 ⟨fun h => hne01 h.symm, hv1U⟩),
            Finset.card_erase_of_mem hv0, hcard]
          omega
        have ha' : ∀ w ∈ U', a w ∈ U' ∧ a (a w) = w := by
          intro w hw
          obtain ⟨hwU, _, _⟩ := (hmemU' w).1 hw
          rw [hex w hwU]
          exact ⟨hw, hex w hwU⟩
        have hb' : ∀ w ∈ U', b w ∈ U' ∧ b (b w) = w := by
          intro w hw
          obtain ⟨hwU, hw0, hw1⟩ := (hmemU' w).1 hw
          refine ⟨(hmemU' _).2 ⟨(hb w hwU).1, ?_, ?_⟩, (hb w hwU).2⟩
          · intro h
            refine hw1 ?_
            rw [← (hb w hwU).2, h, hv1e]
          · intro h
            refine hw0 ?_
            rw [← (hb w hwU).2, h, hbv1]
        obtain ⟨S', hS'⟩ := ih (m - 2) (by
          have h2 : ({v0, v1} : Finset ℕ) ⊆ U := by
            intro x hx
            rcases Finset.mem_insert.1 hx with h | h
            · exact h ▸ hv0
            · exact (Finset.mem_singleton.1 h) ▸ hv1U
          have := Finset.card_le_card h2
          rw [Finset.card_insert_of_not_mem (by simp [hne01]),
            Finset.card_singleton] at this
          omega) U' hcard' a b ha' hb'
        refine ⟨fun v => if v = v0 then true else if v = v1 then false
          else S' v, ?_⟩
        intro v hv
        constructor
        · intro hav
          exact absurd (hex v hv) hav
        · intro hbv
          dsimp only
          by_cases hveq0 : v = v0
          · rw [hveq0, hv1e]
            simp [Ne.symm hne01]
          by_cases hveq1 : v = v1
          · rw [hveq1, hbv1]
            simp [Ne.symm hne01]
          · have hvU' : v ∈ U' := (hmemU' v).2 ⟨hv, hveq0, hveq1⟩
            have hbvU' : b v ∈ U' := (hb' v hvU').1
            obtain ⟨_, hB0, hB1⟩ := (hmemU' (b v)).1 hbvU'
            rw [if_neg hB0, if_neg hB1, if_neg hveq0, if_neg hveq1]
            exact (hS' v hvU').2 hbv
      · push_neg at hbex
        refine ⟨fun _ => true, ?_⟩
        intro v hv
        constructor
        · intro h
          exact absurd (hex v hv) h
        · intro h
          exact absurd (hbex v hv) h

/-! ## Permutation list facts -/

theorem perm_length (n : ℕ) (p : List ℕ) (hp : (List.range n).Perm p) :
    p.length = n := by
  have := hp.length_eq
  simpa using this.symm

theorem perm_mem_lt (n : ℕ) (p : List ℕ) (hp : (List.range n).Perm p) :
    ∀ x ∈ p, x < n := by
  intro x hx
  exact List.mem_range.1 (hp.mem_iff.2 hx)

theorem perm_nodup (n : ℕ) (p : List ℕ) (hp : (List.range n).Perm p) :
    p.Nodup := hp.nodup_iff.1 (List.nodup_range n)

theorem perm_range_mem (n : ℕ) (p : List ℕ) (hp : (List.range n).Perm p)
    (j : ℕ) (hj : j < n) : j ∈ p := hp.mem_iff.1 (List.mem_range.2 hj)

theorem pf_lt (n : ℕ) (p : List ℕ) (hp : (List.range n).Perm p)
    (i : ℕ) (hi : i < n) : p.getD i 0 < n := by
  have hlen := perm_length n p hp
  rw [List.getD_eq_getElem _ _ (by omega)]
  exact perm_mem_lt n p hp _ (List.getElem_mem _)

theorem sf_lt (n : ℕ) (p : List ℕ) (hp : (List.range n).Perm p)
    (j : ℕ) (hj : j < n) : p.indexOf j < n := by
  have hlen := perm_length n p hp
  have := List.indexOf_lt_length.2 (perm_range_mem n p hp j hj)
  omega

theorem pf_sf (n : ℕ) (p : List ℕ) (hp : (List.range n).Perm p)
    (j : ℕ) (hj : j < n) : p.getD (p.indexOf j) 0 = j := by
  have hlen := perm_length n p hp
  have hmem := perm_range_mem n p hp j hj
  rw [List.getD_eq_getElem _ _ (by
    have := List.indexOf_lt_length.2 hmem
    omega)]
  exact List.getElem_indexOf _

theorem sf_pf (n : ℕ) (p : List ℕ) (hp : (List.range n).Perm p)
    (i : ℕ) (hi : i < n) : p.indexOf (p.getD i 0) = i := by
  have hlen := perm_length n p hp
  have hnd := perm_nodup n p hp
  rw [List.getD_eq_getElem _ _ (by omega)]
  have hmem : p[i] ∈ p := List.getElem_mem _
  have hlt : p.indexOf p[i] < p.length := List.indexOf_lt_length.2 hmem
  have : p[p.indexOf p[i]] = p[i] := List.getElem_indexOf hlt
  exact (hnd.getElem_inj_iff).1 this

theorem invL_getD (n : ℕ) (p : List ℕ) (j : ℕ) (hj : j < n) :
    (invL n p).getD j 0 = p.indexOf j := by
  rw [invL, List.getD_eq_getElem _ _ (by simp [hj])]
  simp

theorem sf_perm_range (n : ℕ) (p : List ℕ) (hp : (List.range n).Perm p) :
    ((List.range n).map (fun j => p.indexOf j)).Perm (List.range n) := by
  have hlen : ((List.range n).map (fun j => p.indexOf j)).length = n := by simp
  have hmem : ∀ x ∈ (List.range n).map (fun j => p.indexOf j), x < n := by
    intro x hx
    obtain ⟨j, hj, rfl⟩ := List.mem_map.1 hx
    exact sf_lt n p hp j (List.mem_range.1 hj)
  have hnd : ((List.range n).map (fun j => p.indexOf j)).Nodup := by
    refine List.Nodup.map_on ?_ (List.nodup_range n)
    intro x hx y hy hxy
    have h1 := pf_sf n p hp x (List.mem_range.1 hx)
    have h2 := pf_sf n p hp y (List.mem_range.1 hy)
    rw [← h1, ← h2, hxy]
  have hsub : ((List.range n).map (fun j => p.indexOf j)).Subperm
      (List.range n) := by
    rw [List.subperm_ext_iff]
    intro x hx
    have h1 : List.count x ((List.range n).map (fun j => p.indexOf j)) ≤ 1 :=
      List.nodup_iff_count_le_one.1 hnd x
    have h2 : x ∈ List.range n := List.mem_range.2 (hmem x hx)
    have h3 : 1 ≤ List.count x (List.range n) := List.count_pos_iff.2 h2
    have h4 : 1 ≤ List.count x ((List.range n).map (fun j => p.indexOf j)) :=
      List.count_pos_iff.2 hx
    omega
  exact (hsub.perm_of_length_le (by simp)).symm.symm

theorem countP_pair_blocks (S : ℕ → Bool) (f g : ℕ → ℕ) (m : ℕ)
    (h : ∀ k < m, S (f k) ≠ S (g k)) :
    ((List.range m).flatMap (fun k => [f k, g k])).countP S = m := by
  induction m with
  | zero => rfl
  | succ m ih =>
    rw [List.range_succ, List.flatMap_append, List.countP_append,
      ih (fun k hk => h k (by omega))]
    have hm := h m (by omega)
    simp only [List.flatMap_cons, List.flatMap_nil, List.append_nil]
    cases hfm : S (f m) <;> cases hgm : S (g m) <;>
      simp [List.countP_cons, hfm, hgm] at hm ⊢

/-- The parity pin: any assignment satisfying the two families of split
constraints gives the hardwired last input row and the source of the last
output row the same side.  Counted two ways: the lower side has exactly one
element of every input pair plus possibly the last row, and exactly one
element of every output pair plus possibly the source of the last output. -/
theorem pin_parity (n : ℕ) (p : List ℕ) (hp : (List.range n).Perm p)
    (hodd : n % 2 = 1) (S : ℕ → Bool)
    (hin : ∀ k < n / 2, S (2 * k) ≠ S (2 * k + 1))
    (hout : ∀ k < n / 2, S (p.indexOf (2 * k)) ≠ S (p.indexOf (2 * k + 1))) :
    S (n - 1) = S (p.indexOf (n - 1)) := by
  have hsplit : List.range n =
      ((List.range (n / 2)).flatMap (fun k => [2 * k, 2 * k + 1])) ++
        [n - 1] := by
    rw [← range_two_mul_flatMap, show n - 1 = 2 * (n / 2) from by omega,
      ← List.range_succ]
    congr 1
    omega
  have wayA : (List.range n).countP S =
      n / 2 + (if S (n - 1) then 1 else 0) := by
    rw [hsplit, List.countP_append, countP_pair_blocks S _ _ _ hin]
    cases hS : S (n - 1) <;> simp [List.countP_cons, hS]
  have wayB : (List.range n).countP S =
      n / 2 + (if S (p.indexOf (n - 1)) then 1 else 0) := by
    have hperm := (sf_perm_range n p hp).symm
    rw [hperm.countP_eq S, hsplit, List.map_append, List.countP_append,
      List.map_flatMap]
    have h1 : ((List.range (n / 2)).flatMap
        (fun k => List.map (fun j => p.indexOf j) [2 * k, 2 * k + 1])).countP S
        = n / 2 := by
      have := countP_pair_blocks S (fun k => p.indexOf (2 * k))
        (fun k => p.indexOf (2 * k + 1)) (n / 2) hout
      simpa using this
    rw [h1]
    cases hS : S (p.indexOf (n - 1)) <;> simp [List.countP_cons, hS]
  have : (if S (n - 1) then 1 else 0) =
      (if S (p.indexOf (n - 1)) then 1 else 0) := by omega
  cases h1 : S (n - 1) <;> cases h2 : S (p.indexOf (n - 1)) <;>
    simp [h1, h2] at this ⊢

theorem pr_lt (m x : ℕ) (h : x < 2 * m) :
    (if x % 2 = 0 then x + 1 else x - 1) < 2 * m := by
  split_ifs <;> omega

theorem pr_pr (x : ℕ) :
    (if (if x % 2 = 0 then x + 1 else x - 1) % 2 = 0 then
      (if x % 2 = 0 then x + 1 else x - 1) + 1
    else (if x % 2 = 0 then x + 1 else x - 1) - 1) = x := by
  by_cases h : x % 2 = 0
  · rw [if_pos h, if_neg (by omega)]
    omega
  · rw [if_neg h, if_pos (by omega)]
    omega

/-- Each level of the routing recursion admits an assignment satisfying its
2-colouring constraints. -/
theorem level_coloring_exists (n : ℕ) (p : List ℕ)
    (hp : (List.range n).Perm p) :
    ∃ S : ℕ → Bool,
      (∀ k < n / 2, S (2 * k) ≠ S (2 * k + 1)) ∧
      (∀ k < n / 2, S (p.indexOf (2 * k)) ≠ S (p.indexOf (2 * k + 1))) ∧
      (n % 2 = 1 → S (n - 1) = true ∧ S (p.indexOf (n - 1)) = true) := by
  have hxnor : ∀ x y c : Bool, ((x == c) ≠ (y == c)) ↔ x ≠ y := by decide
  obtain ⟨pr, hprdef⟩ : ∃ x, x = fun i : ℕ =>
      if i % 2 = 0 then i + 1 else i - 1 := ⟨_, rfl⟩
  have hpr_lt : ∀ x, x < 2 * (n / 2) → pr x < 2 * (n / 2) := by
    intro x hx
    rw [hprdef]
    exact pr_lt (n / 2) x hx
  have hpr_pr : ∀ x, pr (pr x) = x := by
    intro x
    rw [hprdef]
    exact pr_pr x
  have hpr_even : ∀ k, pr (2 * k) = 2 * k + 1 := by
    intro k
    rw [hprdef]
    simp only
    rw [if_pos (by omega)]
  obtain ⟨a, ha⟩ : ∃ x, x = fun i =>
      if i < 2 * (n / 2) then pr i else i := ⟨_, rfl⟩
  obtain ⟨b, hbdef⟩ : ∃ x, x = fun i =>
      if p.getD i 0 < 2 * (n / 2) then p.indexOf (pr (p.getD i 0)) else i :=
    ⟨_, rfl⟩
  have hprn : ∀ x, x < 2 * (n / 2) → pr x < n := by
    intro x hx
    have := hpr_lt x hx
    omega
  have hainv : ∀ v ∈ Finset.range n, a v ∈ Finset.range n ∧ a (a v) = v := by
    intro v hv
    have hvn : v < n := Finset.mem_range.1 hv
    rw [ha]
    simp only
    by_cases h1 : v < 2 * (n / 2)
    · rw [if_pos h1, if_pos (hpr_lt v h1), hpr_pr]
      exact ⟨Finset.mem_range.2 (hprn v h1), rfl⟩
    · rw [if_neg h1, if_neg h1]
      exact ⟨hv, rfl⟩
  have hbinv : ∀ v ∈ Finset.range n, b v ∈ Finset.range n ∧ b (b v) = v := by
    intro v hv
    have hvn : v < n := Finset.mem_range.1 hv
    rw [hbdef]
    simp only
    by_cases h1 : p.getD v 0 < 2 * (n / 2)
    · rw [if_pos h1]
      have hprlt : pr (p.getD v 0) < n := hprn _ h1
      have hg : p.getD (p.indexOf (pr (p.getD v 0))) 0 = pr (p.getD v 0) :=
        pf_sf n p hp _ hprlt
      rw [hg, if_pos (hpr_lt _ h1), hpr_pr, sf_pf n p hp v hvn]
      exact ⟨Finset.mem_range.2 (sf_lt n p hp _ hprlt), rfl⟩
    · rw [if_neg h1, if_neg h1]
      exact ⟨hv, rfl⟩
  obtain ⟨S0, hS0⟩ := two_matching_coloring (Finset.range n).card
    (Finset.range n) rfl a b hainv hbinv
  obtain ⟨S, hSdef⟩ : ∃ x, x = fun i : ℕ => S0 i == S0 (n - 1) := ⟨_, rfl⟩
  have hSconst : ∀ i j, (S0 i ≠ S0 j) → S i ≠ S j := by
    intro i j h
    rw [hSdef]
    simp only
    exact (hxnor _ _ _).2 h
  have hin : ∀ k < n / 2, S (2 * k) ≠ S (2 * k + 1) := by
    intro k hk
    have h2k : 2 * k ∈ Finset.range n := Finset.mem_range.2 (by omega)
    have hak : a (2 * k) = 2 * k + 1 := by
      rw [ha]
      simp only
      rw [if_pos (by omega), hpr_even]
    have := (hS0 (2 * k) h2k).1
    rw [hak] at this
    exact fun he => hSconst _ _ (this (by omega)) he.symm
  have hout : ∀ k < n / 2,
      S (p.indexOf (2 * k)) ≠ S (p.indexOf (2 * k + 1)) := by
    intro k hk
    have h2k : 2 * k < n := by omega
    have hv : p.indexOf (2 * k) ∈ Finset.range n :=
      Finset.mem_range.2 (sf_lt n p hp _ h2k)
    have hbk : b (p.indexOf (2 * k)) = p.indexOf (2 * k + 1) := by
      rw [hbdef]
      simp only
      rw [pf_sf n p hp _ h2k, if_pos (by omega), hpr_even]
    have hne : b (p.indexOf (2 * k)) ≠ p.indexOf (2 * k) := by
      rw [hbk]
      intro he
      have h1 := pf_sf n p hp (2 * k + 1) (by omega)
      have h2 := pf_sf n p hp (2 * k) h2k
      rw [he, h2] at h1
      omega
    have := (hS0 _ hv).2 hne
    rw [hbk] at this
    exact fun he => hSconst _ _ this he.symm
  refine ⟨S, hin, hout, ?_⟩
  intro hodd
  have hS1 : S (n - 1) = true := by
    rw [hSdef]
    simp
  refine ⟨hS1, ?_⟩
  have := pin_parity n p hp hodd S hin hout
  rw [← this, hS1]

theorem mem_allBoolLists (l : List Bool) : l ∈ allBoolLists l.length := by
  induction l with
  | nil => simp [allBoolLists]
  | cons x l ih =>
    rw [List.length_cons, allBoolLists]
    rw [List.mem_flatMap]
    refine ⟨l, ih, ?_⟩
    cases x <;> simp

theorem length_of_mem_allBoolLists (n : ℕ) (l : List Bool)
    (h : l ∈ allBoolLists n) : l.length = n := by
  induction n generalizing l with
  | zero => simp [allBoolLists] at h; simp [h]
  | succ n ih =>
    rw [allBoolLists, List.mem_flatMap] at h
    obtain ⟨t, ht, hmem⟩ := h
    simp only [List.mem_cons, List.mem_singleton] at hmem
    rcases hmem with h | h | h
    · rw [h, List.length_cons, ih t ht]
    · rw [h, List.length_cons, ih t ht]
    · simp at h

theorem levelOK_iff (n : ℕ) (sig : List ℕ) (S : List Bool) :
    levelOK n sig S = true ↔
      ((∀ k < n / 2, S.getD (2 * k) false ≠ S.getD (2 * k + 1) false) ∧
        (∀ k < n / 2, S.getD (sig.getD (2 * k) 0) false ≠
          S.getD (sig.getD (2 * k + 1) 0) false) ∧
        (n % 2 = 1 → S.getD (n - 1) false = true ∧
          S.getD (sig.getD (n - 1) 0) false = true)) := by
  rw [levelOK]
  simp only [Bool.and_eq_true, List.all_eq_true, List.mem_range, bne_iff_ne]
  constructor
  · intro ⟨⟨h1, h2⟩, h3⟩
    refine ⟨fun k hk => h1 k hk, fun k hk => h2 k hk, ?_⟩
    intro hodd
    rw [if_pos hodd] at h3
    simpa using h3
  · intro ⟨h1, h2, h3⟩
    refine ⟨⟨fun k hk => h1 k hk, fun k hk => h2 k hk⟩, ?_⟩
    by_cases hodd : n % 2 = 1
    · rw [if_pos hodd]
      simpa using h3 hodd
    · rw [if_neg hodd]

/-- The searched level assignment satisfies the level constraints. -/
theorem levelColor_spec (n : ℕ) (p : List ℕ) (hp : (List.range n).Perm p) :
    (levelColor n (invL n p)).length = n ∧
      levelOK n (invL n p) (levelColor n (invL n p)) = true := by
  obtain ⟨S, hin, hout, hpin⟩ := level_coloring_exists n p hp
  have hex : ∃ SL, SL ∈ allBoolLists n ∧ levelOK n (invL n p) SL = true := by
    refine ⟨(List.range n).map S, ?_, ?_⟩
    · have hmm := mem_allBoolLists ((List.range n).map S)
      simpa using hmm
    · rw [levelOK_iff]
      have hgetD : ∀ i, i < n → ((List.range n).map S).getD i false = S i := by
        intro i hi
        rw [List.getD_eq_getElem _ _ (by simp [hi])]
        simp
      refine ⟨?_, ?_, ?_⟩
      · intro k hk
        rw [hgetD _ (by omega), hgetD _ (by omega)]
        exact hin k hk
      · intro k hk
        rw [invL_getD n p _ (by omega), invL_getD n p _ (by omega),
          hgetD _ (sf_lt n p hp _ (by omega)),
          hgetD _ (sf_lt n p hp _ (by omega))]
        exact hout k hk
      · intro hodd
        have hn1 : n - 1 < n := by omega
        rw [invL_getD n p _ hn1, hgetD _ hn1,
          hgetD _ (sf_lt n p hp _ hn1)]
        exact hpin hodd
  obtain ⟨SL, hmem, hOK⟩ := hex
  have hfind : ((allBoolLists n).find? (levelOK n (invL n p))).isSome := by
    rw [List.find?_isSome]
    exact ⟨SL, hmem, hOK⟩
  obtain ⟨Sc, hSc⟩ := Option.isSome_iff_exists.1 hfind
  have hScOK : levelOK n (invL n p) Sc = true := List.find?_some hSc
  have hScmem : Sc ∈ allBoolLists n := List.mem_of_find?_eq_some hSc
  have : levelColor n (invL n p) = Sc := by
    rw [levelColor, hSc]
    rfl
  rw [this]
  exact ⟨length_of_mem_allBoolLists n Sc hScmem, hScOK⟩

theorem perm_range_of (l : List ℕ) (n : ℕ) (hlen : l.length = n)
    (hnd : l.Nodup) (hmem : ∀ x ∈ l, x < n) : (List.range n).Perm l := by
  have hsub : l.Subperm (List.range n) := by
    rw [List.subperm_ext_iff]
    intro x hx
    have h1 : List.count x l ≤ 1 := List.nodup_iff_count_le_one.1 hnd x
    have h4 : 1 ≤ List.count x l := List.count_pos_iff.2 hx
    have h3 : 1 ≤ List.count x (List.range n) :=
      List.count_pos_iff.2 (List.mem_range.2 (hmem x hx))
    omega
  exact (hsub.perm_of_length_le (by simp [hlen])).symm

/-- First-match lookup in a keyed map list with locally injective keys. -/
theorem find?_key_map {β : Type} (g : ℕ → ℕ × β) (l : List ℕ) (k0 : ℕ)
    (hk0 : k0 ∈ l) (hinj : ∀ k ∈ l, (g k).1 = (g k0).1 → k = k0) :
    (l.map g).find? (fun q => q.1 == (g k0).1) = some (g k0) := by
  induction l with
  | nil => simp at hk0
  | cons h t ih =>
    rw [List.map_cons]
    by_cases he : (g h).1 = (g k0).1
    · have : h = k0 := hinj h (by simp) he
      subst this
      rw [List.find?_cons_of_pos _ (by simpa using he)]
    · rw [List.find?_cons_of_neg _ (by simpa using he)]
      apply ih
      · rcases List.mem_cons.1 hk0 with hc | hc
        · exact absurd (hc ▸ rfl) he
        · exact hc
      · intro k hk hke
        exact hinj k (by simp [hk]) hke

theorem bitOf_pairs (f : ℕ → Bool) (lo m k0 : ℕ) (hk : k0 < m) :
    bitOf ((List.range m).map (fun k => (lo + 2 * k, f k))) (lo + 2 * k0)
      = f k0 := by
  rw [bitOf]
  have := find?_key_map (fun k => (lo + 2 * k, f k)) (List.range m) k0
    (List.mem_range.2 hk) (by intro k _ hke; simp at hke; omega)
  simp only at this
  rw [this]
  rfl

/-- Deposits of a column of pass-through rows. -/
theorem rowPass_pass_deposits (bits : ℕ → Bool) (l : List ℕ) (v : List α) :
    ∀ r, v.length = l.length →
      (rowPassT bits r (colOfBlks (l.map ColBlk.pass)) v).1 = l.zip v := by
  induction l generalizing v with
  | nil =>
    intro r hv
    have : v = [] := List.length_eq_zero.1 (by simpa using hv)
    subst this
    simp [colOfBlks, rowPassT_nil]
  | cons d l ih =>
    intro r hv
    match v, hv with
    | x :: v, hv =>
      rw [List.map_cons]
      have hlen : v.length = (colOfBlks (l.map ColBlk.pass)).length := by
        rw [colOfBlks_length_map_pass]
        simpa using hv
      rw [show (rowPassT bits r (colOfBlks (ColBlk.pass d :: l.map ColBlk.pass))
          (x :: v)).1 = (d, x) :: (rowPassT bits (r + 1)
            (colOfBlks (l.map ColBlk.pass)) v).1 from by rw [rowPassT_pass]]
      rw [ih v (r + 1) (by simpa using hv)]
      rfl


/-- Deposits of a column of uniform switch blocks reading consecutive pairs
of the current vector. -/
theorem rowPass_sw_deposits (bits : ℕ → Bool) (d0 : α) :
    ∀ (m : ℕ) (F G : ℕ → ℕ) (r0 : ℕ) (v : List α), 2 * m ≤ v.length →
      (∀ k < m, F k ≠ G k) →
      (rowPassT bits r0
        (colOfBlks ((List.range m).map (fun k => ColBlk.sw (F k) (G k)))) v).1 =
      (List.range m).flatMap (fun k =>
        [(F k, if bits (r0 + 2 * k) then v.getD (2 * k + 1) d0
          else v.getD (2 * k) d0),
         (G k, if bits (r0 + 2 * k) then v.getD (2 * k) d0
          else v.getD (2 * k + 1) d0)]) := by
  intro m
  induction m with
  | zero =>
    intro F G r0 v _ _
    simp [colOfBlks, rowPassT_nil]
  | succ m ih =>
    intro F G r0 v hv hwf
    match v, hv with
    | x :: y :: v, hv =>
      rw [List.range_succ_eq_map, List.map_cons, List.map_map, colOfBlks_cons,
        List.flatMap_cons, List.flatMap_map]
      show (rowPassT bits r0 (colOfBlks (ColBlk.sw (F 0) (G 0) ::
        (List.range m).map (fun k => ColBlk.sw (F (k + 1)) (G (k + 1)))))
          (x :: y :: v)).1 = _
      rw [rowPassT_sw bits r0 (F 0) (G 0) (hwf 0 (by omega)) _ x y v]
      simp only
      have hvlen : 2 * m ≤ v.length := by
        simp at hv
        omega
      rw [ih (fun k => F (k + 1)) (fun k => G (k + 1)) (r0 + 2) v hvlen
        (fun k hk => hwf (k + 1) (by omega))]
      simp only [List.cons_append, List.nil_append]
      congr 1
      congr 1
      apply List.flatMap_congr
      intro k hk
      dsimp only
      have h1 : r0 + 2 + 2 * k = r0 + 2 * Nat.succ k := by omega
      have h3 : (x :: y :: v).getD (2 * Nat.succ k) d0 = v.getD (2 * k) d0 := by
        have he : 2 * Nat.succ k = 2 * k + 1 + 1 := by omega
        rw [he]
        rfl
      have h4 : (x :: y :: v).getD (2 * Nat.succ k + 1) d0 =
          v.getD (2 * k + 1) d0 := by
        have he : 2 * Nat.succ k + 1 = 2 * k + 1 + 1 + 1 := by omega
        rw [he]
        rfl
      rw [h4, h3, h1]

theorem getD_map_range {β : Type v} (f : ℕ → β) (m k : ℕ) (d : β) (hk : k < m) :
    ((List.range m).map f).getD k d = f k := by
  rw [List.getD_eq_getElem _ _ (by simp [hk])]
  simp

theorem identDests_getD (n lo j : ℕ) (hj : j < n) :
    (identDests n lo).getD j 0 = lo + j := by
  rw [identDests, getD_map_range _ _ _ _ hj]

theorem upDests_getD (n lo m : ℕ) (hm : m < n / 2) :
    (upDests n lo).getD m 0 = lo + 2 * m := by
  rw [upDests, getD_map_range _ _ _ _ hm]

theorem loDests_getD (n lo k : ℕ) (hk : k < n - n / 2) :
    (loDests n lo).getD k 0 =
      if 2 * k + 1 < n then lo + 2 * k + 1 else lo + 2 * k := by
  rw [loDests, getD_map_range _ _ _ _ hk]

/-- Looking up the j-th key of a zipped association list with nodup keys. -/
theorem depLookup_zip (l : List ℕ) (v : List α) (d0 : α) (hnd : l.Nodup)
    (hv : v.length = l.length) (j : ℕ) (hj : j < l.length) :
    depLookup (l.zip v) (l.getD j 0) = some (v.getD j d0) := by
  have hkeys : (l.zip v).map Prod.fst = l := by
    rw [List.map_fst_zip]
    omega
  have hjv : j < v.length := by omega
  have hmem : (l.getD j 0, v.getD j d0) ∈ l.zip v := by
    rw [List.getD_eq_getElem _ _ hj, List.getD_eq_getElem _ _ hjv]
    have hjz : j < (l.zip v).length := by
      rw [List.length_zip]
      omega
    have : (l.zip v)[j] = (l[j], v[j]) := List.getElem_zip
    rw [← this]
    exact List.getElem_mem _
  exact depLookup_eq_some_of_mem _ _ _ hmem (by rw [hkeys]; exact hnd)

/-- Materialising the writes of an identity pass column recovers the vector. -/
theorem matLoc_zip_ident (n lo : ℕ) (dflt : α) (v : List α)
    (hv : v.length = n) :
    matLoc n lo dflt ((identDests n lo).zip v) = v := by
  apply List.ext_getElem
  · rw [matLoc_length, hv]
  · intro j h1 h2
    rw [matLoc_length] at h1
    rw [← List.getD_eq_getElem _ dflt, ← List.getD_eq_getElem _ dflt,
      matLoc_getD _ _ _ _ _ h1]
    have hkey : lo + j = (identDests n lo).getD j 0 :=
      (identDests_getD n lo j h1).symm
    rw [hkey, depLookup_zip _ _ dflt (identDests_nodup n lo)
      (by rw [identDests_length]; omega) j (by rw [identDests_length]; omega)]
    rfl

theorem depLookup_append_right_none (ds es : List (ℕ × α)) (j : ℕ)
    (h : depLookup es j = none) :
    depLookup (ds ++ es) j = depLookup ds j := by
  rw [depLookup_append, h]
  cases depLookup ds j <;> rfl

theorem depLookup_append_left_none (ds es : List (ℕ × α)) (j : ℕ)
    (h : depLookup ds j = none) :
    depLookup (ds ++ es) j = depLookup es j := by
  rw [depLookup_append, h]
  rfl

/-- The row loop only reads control bits at the rows the column occupies. -/
theorem rowPassT_bits_congr (bits1 bits2 : ℕ → Bool) :
    ∀ (r : ℕ) (c : Col) (v : List α),
      (∀ u, r ≤ u → u < r + c.length → bits1 u = bits2 u) →
      rowPassT bits1 r c v = rowPassT bits2 r c v := by
  intro r c v
  induction r, c, v using rowPassT.induct bits1 with
  | case1 x xs =>
    intro _
    rw [rowPassT.eq_def, rowPassT.eq_def]
  | case2 x hd tl =>
    intro _
    rw [rowPassT.eq_def, rowPassT.eq_def]
  | case3 r d1 d2 rest x xs hcond ih =>
    intro h
    have hrec := ih (fun u h1 h2 => h u (by omega) (by
      simp only [List.length_cons] at h2 ⊢
      omega))
    conv_lhs => rw [rowPassT.eq_def]
    conv_rhs => rw [rowPassT.eq_def]
    simp only [hcond, if_pos, hrec]
  | case4 r d1 d2 x hd rest2 y xs2 hcond ih =>
    intro h
    have hc : ((hd :: rest2).isEmpty || d1 == d2) = false := by simpa using hcond
    have hrec := ih (fun u h1 h2 => h u (by omega) (by
      simp only [List.length_cons] at h2 ⊢
      omega))
    have hb : bits1 r = bits2 r := h r le_rfl (by simp)
    conv_lhs => rw [rowPassT.eq_def]
    conv_rhs => rw [rowPassT.eq_def]
    simp only [hc, Bool.false_eq_true, if_false, hrec, hb]
  | case5 r d1 d2 x hd tl hcond =>
    intro _
    have hc : ((hd :: tl).isEmpty || d1 == d2) = false := by simpa using hcond
    conv_lhs => rw [rowPassT.eq_def]
    conv_rhs => rw [rowPassT.eq_def]
    simp only [hc, Bool.false_eq_true, if_false]
  | case6 r d1 d2 x xs hcond => simp at hcond

/-- Peeling the final column off a sub-network execution. -/
theorem subExecD_append_last (lo n : ℕ) (dflt : α) :
    ∀ (X : List Col) (c : Col) (RX : List RCol) (rc : RCol) (v : List α),
      X ≠ [] → RX.length = X.length →
      subExecD lo n dflt (X ++ [c]) (RX ++ [rc]) v =
        rowPass (bitOf rc) lo c
          (matLoc n lo dflt (subExecD lo n dflt X RX v)) := by
  intro X
  induction X with
  | nil => intro c RX rc v h; exact absurd rfl h
  | cons x X ih =>
    intro c RX rc v _ hlen
    match RX, hlen with
    | rx :: RX, hlen =>
      cases X with
      | nil =>
        match RX, hlen with
        | [], _ =>
          show subExecD lo n dflt (x :: [c]) (rx :: [rc]) v = _
          rw [subExecD, subExecD]
          rfl
      | cons x2 X2 =>
        show subExecD lo n dflt (x :: ((x2 :: X2) ++ [c]))
            ((rx :: RX) ++ [rc]) v = _
        rw [show (x2 :: X2) ++ [c] = x2 :: (X2 ++ [c]) from rfl]
        rw [subExecD]
        rw [show ((rx :: RX) ++ [rc]).tail = RX ++ [rc] from rfl,
          show ((rx :: RX) ++ [rc]).headD [] = rx from rfl]
        rw [show x2 :: (X2 ++ [c]) = (x2 :: X2) ++ [c] from rfl]
        rw [ih c RX rc _ (by simp) (by simpa using hlen)]
        rw [subExecD]
        rfl

theorem bitOf_eq_depLookup (rcol : RCol) (r : ℕ) :
    bitOf rcol r = (depLookup rcol r).getD false := rfl

/-- Materialising writes that split between the two halves of the row range
splits into the two local materialisations. -/
theorem matLoc_split (n1 n2 lo : ℕ) (dflt : α) (dU dL : List (ℕ × α))
    (hU : ∀ q ∈ dU, lo ≤ q.1 ∧ q.1 < lo + n1)
    (hL : ∀ q ∈ dL, lo + n1 ≤ q.1) :
    matLoc (n1 + n2) lo dflt (dU ++ dL) =
      matLoc n1 lo dflt dU ++ matLoc n2 (lo + n1) dflt dL := by
  apply List.ext_getElem
  · simp [matLoc_length]
  · intro j h1 h2
    rw [matLoc_length] at h1
    rw [← List.getD_eq_getElem _ dflt, ← List.getD_eq_getElem _ dflt,
      matLoc_getD _ _ _ _ _ h1]
    by_cases hj : j < n1
    · rw [depLookup_append_right_none _ _ _ (depLookup_eq_none _ _ (by
        intro hmem
        obtain ⟨q, hq, hqe⟩ := List.mem_map.1 hmem
        have := hL q hq
        omega)),
        List.getD_append _ _ _ _ (by rw [matLoc_length]; omega),
        matLoc_getD _ _ _ _ _ hj]
    · rw [depLookup_append_left_none _ _ _ (depLookup_eq_none _ _ (by
        intro hmem
        obtain ⟨q, hq, hqe⟩ := List.mem_map.1 hmem
        have := hU q hq
        omega)),
        List.getD_append_right _ _ _ _ (by rw [matLoc_length]; omega)]
      rw [matLoc_length, matLoc_getD _ _ _ _ _ (by omega),
        show lo + j = lo + n1 + (j - n1) from by omega]

theorem colsGood_tail (n lo : ℕ) (D : List ℕ) (c : Col) (cs : List Col)
    (h : colsGood n lo D (c :: cs)) (hne : cs ≠ []) : colsGood n lo D cs := by
  have hpos : 0 < cs.length := List.length_pos.2 hne
  intro i hi
  obtain ⟨bs, hwf, hcol, hlen, hperm⟩ := h (i + 1) (by simp; omega)
  refine ⟨bs, hwf, by simpa using hcol, hlen, ?_⟩
  by_cases he : i = cs.length - 1
  · rw [if_pos he]
    rw [if_pos (by simp; omega)] at hperm
    exact hperm
  · rw [if_neg he]
    rw [if_neg (by simp; omega)] at hperm
    exact hperm

theorem subExecD_one (lo n : ℕ) (dflt : α) (c : Col) (rts : List RCol)
    (v : List α) :
    subExecD lo n dflt [c] rts v = rowPass (bitOf (rts.headD [])) lo c v := by
  rw [subExecD]

theorem subExecD_cons_ne (lo n : ℕ) (dflt : α) (c : Col) (cs : List Col)
    (rts : List RCol) (v : List α) (h : cs ≠ []) :
    subExecD lo n dflt (c :: cs) rts v =
      subExecD lo n dflt cs rts.tail
        (matLoc n lo dflt (rowPass (bitOf (rts.headD [])) lo c v)) := by
  cases cs with
  | nil => exact absurd rfl h
  | cons c2 rest => rw [subExecD]

/-- Executing the merged middle columns of a switch level equals executing
the two sub-networks side by side on the two halves of the vector. -/
theorem subExecD_merge (n1 n2 lo : ℕ) (dflt : α) (DU DL : List ℕ) :
    ∀ (CU CL : List Col) (RU RL : List RCol) (tail : List Col)
      (rtail : List RCol) (w : List α),
      CU.length = CL.length → RU.length = CU.length → RL.length = CL.length →
      CU ≠ [] → tail ≠ [] →
      colsGood n1 lo DU CU → colsGood n2 (lo + n1) DL CL →
      (∀ rc ∈ RU, ∀ q ∈ rc, lo ≤ q.1 ∧ q.1 < lo + n1) →
      (∀ rc ∈ RL, ∀ q ∈ rc, lo + n1 ≤ q.1) →
      w.length = n1 + n2 →
      subExecD lo (n1 + n2) dflt (List.zipWith (· ++ ·) CU CL ++ tail)
          (List.zipWith (· ++ ·) RU RL ++ rtail) w =
        subExecD lo (n1 + n2) dflt tail rtail (matLoc (n1 + n2) lo dflt
          (subExecD lo n1 dflt CU RU (w.take n1) ++
            subExecD (lo + n1) n2 dflt CL RL (w.drop n1))) := by
  intro CU
  induction CU with
  | nil => intro CL RU RL tail rtail w _ _ _ h; exact absurd rfl h
  | cons cU CU ih =>
    intro CL RU RL tail rtail w hCL hRU hRL _ htail hgU hgL hbU hbL hw
    match CL, hCL, RU, hRU, RL, hRL with
    | cL :: CL, hCL, rU :: RU, hRU, rL :: RL, hRL =>
      obtain ⟨bsU, hwfU, hcU, hlenU, hpermU⟩ := hgU 0 (by simp)
      obtain ⟨bsL, hwfL, hcL2, hlenL, hpermL⟩ := hgL 0 (by simp)
      simp only [List.getD_cons_zero] at hcU hcL2
      have htake : (w.take n1).length = n1 := by
        rw [List.length_take]
        omega
      have hdrop : (w.drop n1).length = n2 := by
        rw [List.length_drop]
        omega
      -- the merged first column's writes, split at the half boundary
      have hsplit : ∀ bits : ℕ → Bool,
          rowPass bits lo (cU ++ cL) w =
            rowPass bits lo cU (w.take n1) ++
              rowPass bits (lo + n1) cL (w.drop n1) := by
        intro bits
        conv_lhs => rw [show w = w.take n1 ++ w.drop n1 from
          (List.take_append_drop n1 w).symm]
        rw [rowPass, rowPass, rowPass, hcU, hcL2, ← colOfBlks_append,
          rowPassT_blocks_append bits bsU bsL _ _ hwfU (by
            rw [List.length_take]
            omega), htake]
      -- control bits of the merged column restrict to the halves
      have hbitsU : rowPassT (bitOf (rU ++ rL)) lo (colOfBlks bsU)
          (w.take n1) = rowPassT (bitOf rU) lo (colOfBlks bsU) (w.take n1) := by
        apply rowPassT_bits_congr
        intro u hu1 hu2
        rw [hlenU] at hu2
        rw [bitOf_eq_depLookup, bitOf_eq_depLookup,
          depLookup_append_right_none _ _ _ (depLookup_eq_none _ _ (by
            intro hmem
            obtain ⟨q, hq, hqe⟩ := List.mem_map.1 hmem
            have := hbL rL (by simp) q hq
            omega))]
      have hbitsL : rowPassT (bitOf (rU ++ rL)) (lo + n1) (colOfBlks bsL)
          (w.drop n1) = rowPassT (bitOf rL) (lo + n1) (colOfBlks bsL)
            (w.drop n1) := by
        apply rowPassT_bits_congr
        intro u hu1 hu2
        rw [bitOf_eq_depLookup, bitOf_eq_depLookup,
          depLookup_append_left_none _ _ _ (depLookup_eq_none _ _ (by
            intro hmem
            obtain ⟨q, hq, hqe⟩ := List.mem_map.1 hmem
            have := hbU rU (by simp) q hq
            omega))]
      have hfirst : rowPass (bitOf (rU ++ rL)) lo (cU ++ cL) w =
          rowPass (bitOf rU) lo cU (w.take n1) ++
            rowPass (bitOf rL) (lo + n1) cL (w.drop n1) := by
        rw [hsplit (bitOf (rU ++ rL))]
        congr 1
        · rw [rowPass, rowPass, hcU, hbitsU]
        · rw [rowPass, rowPass, hcL2, hbitsL]
      cases CU with
      | nil =>
        match CL, hCL, RU, hRU, RL, hRL with
        | [], _, [], _, [], _ =>
          show subExecD lo (n1 + n2) dflt ((cU ++ cL) :: tail)
              ((rU ++ rL) :: rtail) w = _
          rw [subExecD_cons_ne _ _ _ _ _ _ _ htail]
          rw [show ((rU ++ rL) :: rtail).headD [] = rU ++ rL from rfl,
            show ((rU ++ rL) :: rtail).tail = rtail from rfl, hfirst,
            subExecD_one, subExecD_one]
          rfl
      | cons cU2 CU2 =>
        match CL, hCL, RU, hRU, RL, hRL with
        | cL2 :: CL2, hCL, rU2 :: RU2, hRU, rL2 :: RL2, hRL =>
          have hne : List.zipWith (· ++ ·) ((cU2 :: CU2))
              ((cL2 :: CL2)) ++ tail ≠ [] := by simp
          show subExecD lo (n1 + n2) dflt ((cU ++ cL) ::
              (List.zipWith (· ++ ·) (cU2 :: CU2) (cL2 :: CL2) ++ tail))
              ((rU ++ rL) ::
                (List.zipWith (· ++ ·) (rU2 :: RU2) (rL2 :: RL2) ++ rtail)) w = _
          rw [subExecD_cons_ne _ _ _ _ _ _ _ hne]
          rw [show ∀ a : RCol, ∀ l : List RCol, (a :: l).headD [] = a from
            fun a l => rfl,
            show ∀ a : RCol, ∀ l : List RCol, (a :: l).tail = l from
            fun a l => rfl, hfirst]
          -- the first column is not the last: its writes stay in the halves
          have hpermU' : (bsU.flatMap blkDests).Perm (identDests n1 lo) := by
            rw [if_neg (by simp)] at hpermU
            exact hpermU
          have hpermL' : (bsL.flatMap blkDests).Perm
              (identDests n2 (lo + n1)) := by
            rw [if_neg (by simp)] at hpermL
            exact hpermL
          have hkeysU : ∀ q ∈ rowPass (bitOf rU) lo cU (w.take n1),
              lo ≤ q.1 ∧ q.1 < lo + n1 := by
            intro q hq
            have hk : q.1 ∈ (rowPass (bitOf rU) lo cU (w.take n1)).map
                Prod.fst := List.mem_map.2 ⟨q, hq, rfl⟩
            rw [rowPass, hcU, rowPassT_keys _ _ _ hwfU (by omega)] at hk
            have := hpermU'.mem_iff.1 hk
            obtain ⟨k, hkr, hke⟩ := List.mem_map.1 this
            have := List.mem_range.1 hkr
            omega
          have hkeysL : ∀ q ∈ rowPass (bitOf rL) (lo + n1) cL (w.drop n1),
              lo + n1 ≤ q.1 := by
            intro q hq
            have hk : q.1 ∈ (rowPass (bitOf rL) (lo + n1) cL
                (w.drop n1)).map Prod.fst := List.mem_map.2 ⟨q, hq, rfl⟩
            rw [rowPass, hcL2, rowPassT_keys _ _ _ hwfL (by omega)] at hk
            have := hpermL'.mem_iff.1 hk
            obtain ⟨k, hkr, hke⟩ := List.mem_map.1 this
            omega
          rw [matLoc_split n1 n2 lo dflt _ _ hkeysU hkeysL]
          have hmatU : (matLoc n1 lo dflt (rowPass (bitOf rU) lo cU
              (w.take n1))).length = n1 := matLoc_length _ _ _ _
          rw [ih (cL2 :: CL2) (rU2 :: RU2) (rL2 :: RL2) tail rtail _
            (by simpa using hCL) (by simpa using hRU) (by simpa using hRL)
            (by simp) htail
            (colsGood_tail _ _ _ _ _ hgU (by simp))
            (colsGood_tail _ _ _ _ _ hgL (by simp))
            (fun rc hrc => hbU rc (by simp [hrc]))
            (fun rc hrc => hbL rc (by simp [hrc]))
            (by rw [List.length_append, matLoc_length, matLoc_length])]
          rw [List.take_left' hmatU, List.drop_left' hmatU]
          rw [subExecD_cons_ne _ _ _ cU (cU2 :: CU2) _ _ (by simp),
            subExecD_cons_ne _ _ _ cL (cL2 :: CL2) _ _ (by simp)]
          rfl

theorem getD_take_eq (v : List α) (m i : ℕ) (d : α) (hi : i < m) :
    (v.take m).getD i d = v.getD i d := by
  rcases Nat.lt_or_ge i v.length with h | h
  · rw [List.getD_eq_getElem _ _ (by rw [List.length_take]; omega),
      List.getD_eq_getElem _ _ h]
    simp
  · rw [List.getD_eq_default _ _ (by rw [List.length_take]; omega),
      List.getD_eq_default _ _ h]

theorem getD_drop_eq (v : List α) (m i : ℕ) (d : α) :
    (v.drop m).getD i d = v.getD (m + i) d := by
  rcases Nat.lt_or_ge (m + i) v.length with h | h
  · rw [List.getD_eq_getElem _ _ (by rw [List.length_drop]; omega),
      List.getD_eq_getElem _ _ h]
    simp
  · rw [List.getD_eq_default _ _ (by rw [List.length_drop]; omega),
      List.getD_eq_default _ _ h]

theorem depLookup_append_left_some (ds es : List (ℕ × α)) (j : ℕ) (x : α)
    (h : depLookup ds j = some x) : depLookup (ds ++ es) j = some x := by
  rw [depLookup_append, h]
  rfl

/-- The keys written by a sub-network execution are the final column's
destinations. -/
theorem subExecD_keys (lo n : ℕ) (dflt : α) (D : List ℕ) :
    ∀ (cols : List Col), cols ≠ [] → colsGood n lo D cols →
      ∀ (rts : List RCol) (v : List α), v.length = n →
        ((subExecD lo n dflt cols rts v).map Prod.fst).Perm D := by
  intro cols
  induction cols with
  | nil => intro h; exact absurd rfl h
  | cons c cs ih =>
    intro _ hgood rts v hv
    cases cs with
    | nil =>
      obtain ⟨bs, hwf, hcol, hlen, hperm⟩ := hgood 0 (by simp)
      simp only [List.getD_cons_zero] at hcol
      rw [if_pos (by simp)] at hperm
      rw [subExecD_one, rowPass, hcol,
        rowPassT_keys _ _ _ hwf (by omega)]
      exact hperm
    | cons c2 cs2 =>
      rw [subExecD_cons_ne _ _ _ _ _ _ _ (by simp)]
      exact ih (by simp) (colsGood_tail _ _ _ _ _ hgood (by simp)) _ _
        (matLoc_length _ _ _ _)

/-- Unfolding the padding level of the topology. -/
theorem buildTopo_pad (s n lo : ℕ) (dests : List ℕ)
    (h : as_waksman_num_columns n < s + 2) :
    buildTopo (s + 2) n lo dests =
      passCol n lo :: (buildTopo s n lo (identDests n lo) ++
        [passColD dests]) := by
  rw [buildTopo, if_pos h]

/-- Unfolding the switch level of the topology. -/
theorem buildTopo_switch (s n lo : ℕ) (dests : List ℕ)
    (h : ¬ as_waksman_num_columns n < s + 2) :
    buildTopo (s + 2) n lo dests =
      switchColL n lo ::
        (List.zipWith (· ++ ·) (buildTopo s (n / 2) lo (upDests n lo))
            (buildTopo s (n - n / 2) (lo + n / 2) (loDests n lo)) ++
          [switchColR n dests]) := by
  rw [buildTopo, if_neg h]

/-- Unfolding the padding level of the routing. -/
theorem routeBuild_pad (s n lo : ℕ) (p : List ℕ)
    (h : as_waksman_num_columns n < s + 2) :
    routeBuild (s + 2) n lo p = [] :: (routeBuild s n lo p ++ [[]]) := by
  rw [routeBuild, if_pos h]

/-- Unfolding the switch level of the routing. -/
theorem routeBuild_switch (s n lo : ℕ) (p : List ℕ)
    (h : ¬ as_waksman_num_columns n < s + 2) :
    routeBuild (s + 2) n lo p =
      ((List.range (n / 2)).map (fun k =>
        (lo + 2 * k, (levelColor n (invL n p)).getD (2 * k) false))) ::
      (List.zipWith (· ++ ·)
        (routeBuild s (n / 2) lo ((List.range (n / 2)).map
          (fun k => p.getD (iUp (levelColor n (invL n p)) k) 0 / 2)))
        (routeBuild s (n - n / 2) (lo + n / 2) ((List.range (n - n / 2)).map
          (fun k => p.getD (iLo n (levelColor n (invL n p)) k) 0 / 2))) ++
        [(List.range (n / 2)).map (fun m =>
          (lo + 2 * m,
            (levelColor n (invL n p)).getD ((invL n p).getD (2 * m) 0)
              false))]) := by
  rw [routeBuild, if_neg h]

/-- The chosen level colouring, read back through the inverse permutation. -/
theorem levelFacts (n : ℕ) (p : List ℕ) (hp : (List.range n).Perm p) :
    (∀ k < n / 2, (levelColor n (invL n p)).getD (2 * k) false ≠
      (levelColor n (invL n p)).getD (2 * k + 1) false) ∧
    (∀ k < n / 2, (levelColor n (invL n p)).getD (p.indexOf (2 * k)) false ≠
      (levelColor n (invL n p)).getD (p.indexOf (2 * k + 1)) false) ∧
    (n % 2 = 1 → (levelColor n (invL n p)).getD (n - 1) false = true ∧
      (levelColor n (invL n p)).getD (p.indexOf (n - 1)) false = true) := by
  obtain ⟨hlen, hOK⟩ := levelColor_spec n p hp
  rw [levelOK_iff] at hOK
  obtain ⟨h1, h2, h3⟩ := hOK
  refine ⟨h1, ?_, ?_⟩
  · intro k hk
    have := h2 k hk
    rwa [invL_getD n p _ (by omega), invL_getD n p _ (by omega)] at this
  · intro hodd
    have := h3 hodd
    rwa [invL_getD n p _ (by omega)] at this

theorem iUp_lt (n : ℕ) (S : List Bool) (k : ℕ) (hk : k < n / 2) :
    iUp S k < n := by
  rw [iUp]
  split_ifs <;> omega

theorem iLo_lt (n : ℕ) (S : List Bool) (k : ℕ) (hk : k < n - n / 2) :
    iLo n S k < n := by
  rw [iLo]
  split_ifs <;> omega

theorem iUp_ne (S : List Bool) (x y : ℕ) (hne : x ≠ y) : iUp S x ≠ iUp S y := by
  rw [iUp, iUp]
  split_ifs <;> omega

theorem iLo_ne (n : ℕ) (S : List Bool) (x y : ℕ) (hne : x ≠ y) :
    iLo n S x ≠ iLo n S y := by
  rw [iLo, iLo]
  split_ifs <;> omega

/-- The row sent up by pair k has colour false. -/
theorem S_iUp (n : ℕ) (S : List Bool) (k : ℕ) (hk : k < n / 2)
    (hin : ∀ k < n / 2, S.getD (2 * k) false ≠ S.getD (2 * k + 1) false) :
    S.getD (iUp S k) false = false := by
  cases hb : S.getD (2 * k) false
  · rw [iUp, hb, if_neg (by simp)]
    exact hb
  · simp only [iUp, hb, if_true]
    cases hv : S.getD (2 * k + 1) false
    · rfl
    · exact absurd (hb.trans hv.symm) (hin k hk)

/-- The row sent down by pair k has colour true. -/
theorem S_iLo (n : ℕ) (S : List Bool) (k : ℕ) (hk : k < n - n / 2)
    (hin : ∀ k < n / 2, S.getD (2 * k) false ≠ S.getD (2 * k + 1) false)
    (hpinS : n % 2 = 1 → S.getD (n - 1) false = true) :
    S.getD (iLo n S k) false = true := by
  by_cases hlt : 2 * k + 1 < n
  · have hk2 : k < n / 2 := by omega
    cases hb : S.getD (2 * k) false
    · simp only [iLo, if_pos hlt, hb, Bool.false_eq_true, if_false]
      cases hv : S.getD (2 * k + 1) false
      · exact absurd (hb.trans hv.symm) (hin k hk2)
      · rfl
    · rw [iLo, if_pos hlt, hb, if_pos rfl]
      exact hb
  · have ho : n % 2 = 1 := by omega
    have h2k : 2 * k = n - 1 := by omega
    simp only [iLo, if_neg hlt]
    rw [h2k]
    exact hpinS ho

/-- A row with colour false is the up-row of its pair. -/
theorem iUp_inv (n : ℕ) (S : List Bool) (i : ℕ) (hi : i < n)
    (hS : S.getD i false = false)
    (hin : ∀ k < n / 2, S.getD (2 * k) false ≠ S.getD (2 * k + 1) false)
    (hpinS : n % 2 = 1 → S.getD (n - 1) false = true) :
    i / 2 < n / 2 ∧ iUp S (i / 2) = i := by
  by_cases hpar : i % 2 = 0
  · have h2 : 2 * (i / 2) = i := by omega
    constructor
    · by_contra hcon
      have ho : n % 2 = 1 := by omega
      have hieq : i = n - 1 := by omega
      have := hpinS ho
      rw [← hieq, hS] at this
      exact absurd this (by simp)
    · rw [iUp, h2, hS]
      simp
  · have h2 : 2 * (i / 2) + 1 = i := by omega
    have hk : i / 2 < n / 2 := by omega
    refine ⟨hk, ?_⟩
    have hb : S.getD (2 * (i / 2)) false = true := by
      cases hv : S.getD (2 * (i / 2)) false
      · exact absurd (hv.trans (h2 ▸ hS).symm) (hin (i / 2) hk)
      · rfl
    rw [iUp, hb, if_pos rfl, h2]

/-- A row with colour true is the down-row of its pair. -/
theorem iLo_inv (n : ℕ) (S : List Bool) (i : ℕ) (hi : i < n)
    (hS : S.getD i false = true)
    (hin : ∀ k < n / 2, S.getD (2 * k) false ≠ S.getD (2 * k + 1) false) :
    i / 2 < n - n / 2 ∧ iLo n S (i / 2) = i := by
  by_cases hpar : i % 2 = 0
  · have h2 : 2 * (i / 2) = i := by omega
    have hk : i / 2 < n - n / 2 := by omega
    refine ⟨hk, ?_⟩
    by_cases hlt : 2 * (i / 2) + 1 < n
    · rw [iLo, if_pos hlt, h2, hS]
      simp
    · rw [iLo, if_neg hlt, h2]
  · have h2 : 2 * (i / 2) + 1 = i := by omega
    have hlt : 2 * (i / 2) + 1 < n := by omega
    have hk : i / 2 < n - n / 2 := by omega
    refine ⟨hk, ?_⟩
    have hb : S.getD (2 * (i / 2)) false = false := by
      cases hv : S.getD (2 * (i / 2)) false
      · rfl
      · exact absurd (hv.trans (h2 ▸ hS).symm) (hin (i / 2) (by omega))
    rw [iLo, if_pos hlt, hb]
    simp [h2]

/-- The sub-permutation handed to the upper sub-network is a permutation. -/
theorem pU_perm (n : ℕ) (p : List ℕ) (S : List Bool)
    (hp : (List.range n).Perm p)
    (hin : ∀ k < n / 2, S.getD (2 * k) false ≠ S.getD (2 * k + 1) false)
    (hout : ∀ k < n / 2, S.getD (p.indexOf (2 * k)) false ≠
      S.getD (p.indexOf (2 * k + 1)) false)
    (hpinO : n % 2 = 1 → S.getD (p.indexOf (n - 1)) false = true) :
    (List.range (n / 2)).Perm
      ((List.range (n / 2)).map (fun k => p.getD (iUp S k) 0 / 2)) := by
  have hbound : ∀ k, k < n / 2 → p.getD (iUp S k) 0 / 2 < n / 2 := by
    intro k hk
    have hiu := iUp_lt n S k hk
    have ha := pf_lt n p hp _ hiu
    by_contra hcon
    have ho : n % 2 = 1 := by omega
    have heq : p.getD (iUp S k) 0 = n - 1 := by omega
    have hidx : p.indexOf (n - 1) = iUp S k := by
      rw [← heq, sf_pf n p hp _ hiu]
    have h1 := hpinO ho
    rw [hidx, S_iUp n S k hk hin] at h1
    exact absurd h1 (by simp)
  apply perm_range_of
  · simp
  · refine List.Nodup.map_on ?_ (List.nodup_range _)
    intro x hx y hy hxy
    rw [List.mem_range] at hx hy
    by_contra hne
    have hrne : iUp S x ≠ iUp S y := iUp_ne S x y hne
    have hax := pf_lt n p hp _ (iUp_lt n S x hx)
    have hay := pf_lt n p hp _ (iUp_lt n S y hy)
    have hane : p.getD (iUp S x) 0 ≠ p.getD (iUp S y) 0 := by
      intro he
      have h1 := sf_pf n p hp _ (iUp_lt n S x hx)
      have h2 := sf_pf n p hp _ (iUp_lt n S y hy)
      rw [he, h2] at h1
      exact hrne h1.symm
    have hm : p.getD (iUp S x) 0 / 2 < n / 2 := hbound x hx
    have hSx : S.getD (p.indexOf (p.getD (iUp S x) 0)) false = false := by
      rw [sf_pf n p hp _ (iUp_lt n S x hx)]
      exact S_iUp n S x hx hin
    have hSy : S.getD (p.indexOf (p.getD (iUp S y) 0)) false = false := by
      rw [sf_pf n p hp _ (iUp_lt n S y hy)]
      exact S_iUp n S y hy hin
    obtain ⟨m, hm1, hcases⟩ : ∃ m, m < n / 2 ∧
        ((p.getD (iUp S x) 0 = 2 * m ∧ p.getD (iUp S y) 0 = 2 * m + 1) ∨
          (p.getD (iUp S x) 0 = 2 * m + 1 ∧ p.getD (iUp S y) 0 = 2 * m)) :=
      ⟨p.getD (iUp S x) 0 / 2, hm, by omega⟩
    have hko := hout m hm1
    rcases hcases with ⟨he1, he2⟩ | ⟨he1, he2⟩
    · rw [← he2, ← he1, hSx, hSy] at hko
      exact hko rfl
    · rw [← he1, ← he2, hSy, hSx] at hko
      exact hko rfl
  · intro x hxm
    obtain ⟨k, hkr, rfl⟩ := List.mem_map.1 hxm
    exact hbound k (List.mem_range.1 hkr)

/-- The sub-permutation handed to the lower sub-network is a permutation. -/
theorem pL_perm (n : ℕ) (p : List ℕ) (S : List Bool)
    (hp : (List.range n).Perm p)
    (hin : ∀ k < n / 2, S.getD (2 * k) false ≠ S.getD (2 * k + 1) false)
    (hout : ∀ k < n / 2, S.getD (p.indexOf (2 * k)) false ≠
      S.getD (p.indexOf (2 * k + 1)) false)
    (hpinS : n % 2 = 1 → S.getD (n - 1) false = true) :
    (List.range (n - n / 2)).Perm
      ((List.range (n - n / 2)).map (fun k => p.getD (iLo n S k) 0 / 2)) := by
  apply perm_range_of
  · simp
  · refine List.Nodup.map_on ?_ (List.nodup_range _)
    intro x hx y hy hxy
    rw [List.mem_range] at hx hy
    by_contra hne
    have hrne : iLo n S x ≠ iLo n S y := iLo_ne n S x y hne
    have hax := pf_lt n p hp _ (iLo_lt n S x hx)
    have hay := pf_lt n p hp _ (iLo_lt n S y hy)
    have hane : p.getD (iLo n S x) 0 ≠ p.getD (iLo n S y) 0 := by
      intro he
      have h1 := sf_pf n p hp _ (iLo_lt n S x hx)
      have h2 := sf_pf n p hp _ (iLo_lt n S y hy)
      rw [he, h2] at h1
      exact hrne h1.symm
    have hm : p.getD (iLo n S x) 0 / 2 < n / 2 := by omega
    have hSx : S.getD (p.indexOf (p.getD (iLo n S x) 0)) false = true := by
      rw [sf_pf n p hp _ (iLo_lt n S x hx)]
      exact S_iLo n S x hx hin hpinS
    have hSy : S.getD (p.indexOf (p.getD (iLo n S y) 0)) false = true := by
      rw [sf_pf n p hp _ (iLo_lt n S y hy)]
      exact S_iLo n S y hy hin hpinS
    obtain ⟨m, hm1, hcases⟩ : ∃ m, m < n / 2 ∧
        ((p.getD (iLo n S x) 0 = 2 * m ∧ p.getD (iLo n S y) 0 = 2 * m + 1) ∨
          (p.getD (iLo n S x) 0 = 2 * m + 1 ∧ p.getD (iLo n S y) 0 = 2 * m)) :=
      ⟨p.getD (iLo n S x) 0 / 2, hm, by omega⟩
    have hko := hout m hm1
    rcases hcases with ⟨he1, he2⟩ | ⟨he1, he2⟩
    · rw [← he2, ← he1, hSx, hSy] at hko
      exact hko rfl
    · rw [← he1, ← he2, hSy, hSx] at hko
      exact hko rfl
  · intro x hxm
    obtain ⟨k, hkr, rfl⟩ := List.mem_map.1 hxm
    have := pf_lt n p hp _ (iLo_lt n S k (List.mem_range.1 hkr))
    omega

/-- The writes of the left switch column under the level colouring: row k of
the upper half receives the up-row of pair k, row k of the lower half the
down-row. -/
theorem switchColL_deposits (n lo : ℕ) (dflt : α) (S : List Bool) (v : List α)
    (h2 : 2 ≤ n) (hv : v.length = n) :
    rowPass (bitOf ((List.range (n / 2)).map
        (fun k => (lo + 2 * k, S.getD (2 * k) false)))) lo
      (switchColL n lo) v =
      ((List.range (n / 2)).flatMap (fun k =>
        [(lo + k, v.getD (iUp S k) dflt),
         (lo + n / 2 + k, v.getD (iLo n S k) dflt)])) ++
      (if n % 2 = 1 then [(lo + n - 1, v.getD (n - 1) dflt)] else []) := by
  have hn1 : 1 ≤ n / 2 := by omega
  have htk : (v.take (2 * (n / 2))).length = 2 * (n / 2) := by
    rw [List.length_take]
    omega
  have hwfA : colBlkWF ((List.range (n / 2)).map
      (fun k => ColBlk.sw (lo + k) (lo + n / 2 + k))) := by
    intro b hb
    obtain ⟨k, hk, rfl⟩ := List.mem_map.1 hb
    show lo + k ≠ lo + n / 2 + k
    omega
  have hclen : (colOfBlks ((List.range (n / 2)).map
      (fun k => ColBlk.sw (lo + k) (lo + n / 2 + k)))).length = 2 * (n / 2) := by
    rw [colOfBlks_map_sw, length_flatMap_pairs]
  rw [rowPass, switchColL_blocks, blksL]
  conv_lhs => rw [show v = v.take (2 * (n / 2)) ++ v.drop (2 * (n / 2)) from
    (List.take_append_drop _ v).symm]
  rw [rowPassT_blocks_append _ _ _ _ _ hwfA (by rw [htk, hclen]) lo]
  simp only
  rw [htk]
  congr 1
  · rw [rowPass_sw_deposits _ dflt (n / 2) (fun k => lo + k)
      (fun k => lo + n / 2 + k) lo (v.take (2 * (n / 2))) htk.ge
      (fun k hk => show lo + k ≠ lo + n / 2 + k by omega)]
    apply List.flatMap_congr
    intro k hk
    rw [List.mem_range] at hk
    rw [bitOf_pairs (fun k => S.getD (2 * k) false) lo (n / 2) k hk,
      getD_take_eq _ _ _ _ (by omega), getD_take_eq _ _ _ _ (by omega),
      iUp, iLo, if_pos (show 2 * k + 1 < n from by omega)]
    cases hb : S.getD (2 * k) false <;> simp
  · by_cases ho : n % 2 = 1
    · rw [if_pos ho, if_pos ho]
      have hdlen : (v.drop (2 * (n / 2))).length = 1 := by
        rw [List.length_drop]
        omega
      rcases hvd : v.drop (2 * (n / 2)) with _ | ⟨x, t⟩
      · rw [hvd] at hdlen
        simp at hdlen
      · rw [hvd] at hdlen
        rcases t with _ | ⟨y, t2⟩
        · have hx : x = v.getD (n - 1) dflt := by
            have h0 : (v.drop (2 * (n / 2))).getD 0 dflt =
                v.getD (2 * (n / 2) + 0) dflt := getD_drop_eq v _ 0 dflt
            rw [hvd] at h0
            rw [show n - 1 = 2 * (n / 2) + 0 from by omega, ← h0]
            rfl
          show (rowPassT _ (lo + 2 * (n / 2))
            (colOfBlks [ColBlk.pass (lo + n - 1)]) [x]).1 = _
          rw [show (colOfBlks [ColBlk.pass (lo + n - 1)]) =
            [(lo + n - 1, lo + n - 1)] from rfl]
          rw [rowPassT.eq_def]
          simp [hx]
          rw [rowPassT_nil]
        · simp at hdlen
    · rw [if_neg ho, if_neg ho]
      have hdlen : v.drop (2 * (n / 2)) = [] := by
        rw [List.drop_eq_nil_iff_le]
        omega
      rw [hdlen]
      show (rowPassT _ (lo + 2 * (n / 2)) (colOfBlks []) []).1 = []
      rw [show colOfBlks [] = [] from rfl, rowPassT_nil]

/-- The writes of the right switch column: switch m forwards its two inputs
to dests[2m] and dests[2m+1], swapped when its control bit is set. -/
theorem switchColR_deposits (n lo : ℕ) (dflt : α) (dests : List ℕ) (rb : RCol)
    (SB : ℕ → Bool) (W : List α) (h2 : 2 ≤ n) (hW : W.length = n)
    (hdl : dests.length = n) (hdn : dests.Nodup)
    (hrb : ∀ m < n / 2, bitOf rb (lo + 2 * m) = SB m) :
    rowPass (bitOf rb) lo (switchColR n dests) W =
      ((List.range (n / 2)).flatMap (fun m =>
        [(dests.getD (2 * m) 0,
          if SB m then W.getD (2 * m + 1) dflt else W.getD (2 * m) dflt),
         (dests.getD (2 * m + 1) 0,
          if SB m then W.getD (2 * m) dflt else W.getD (2 * m + 1) dflt)])) ++
      (if n % 2 = 1 then [(dests.getD (n - 1) 0, W.getD (n - 1) dflt)]
       else []) := by
  have hn1 : 1 ≤ n / 2 := by omega
  have htk : (W.take (2 * (n / 2))).length = 2 * (n / 2) := by
    rw [List.length_take]
    omega
  have hwfA : colBlkWF ((List.range (n / 2)).map
      (fun m => ColBlk.sw (dests.getD (2 * m) 0) (dests.getD (2 * m + 1) 0))) := by
    intro b hb
    obtain ⟨m, hm, rfl⟩ := List.mem_map.1 hb
    exact blksR_wf n dests hdl hdn _ (by
      rw [blksR]
      exact List.mem_append_left _ (List.mem_map.2 ⟨m, hm, rfl⟩))
  have hclen : (colOfBlks ((List.range (n / 2)).map
      (fun m => ColBlk.sw (dests.getD (2 * m) 0)
        (dests.getD (2 * m + 1) 0)))).length = 2 * (n / 2) := by
    rw [colOfBlks_map_sw, length_flatMap_pairs]
  rw [rowPass, switchColR_blocks, blksR]
  conv_lhs => rw [show W = W.take (2 * (n / 2)) ++ W.drop (2 * (n / 2)) from
    (List.take_append_drop _ W).symm]
  rw [rowPassT_blocks_append _ _ _ _ _ hwfA (by rw [htk, hclen]) lo]
  simp only
  rw [htk]
  congr 1
  · rw [rowPass_sw_deposits _ dflt (n / 2) (fun m => dests.getD (2 * m) 0)
      (fun m => dests.getD (2 * m + 1) 0) lo (W.take (2 * (n / 2))) htk.ge
      (fun m hm => show dests.getD (2 * m) 0 ≠ dests.getD (2 * m + 1) 0 from by
        have h1 : 2 * m < dests.length := by omega
        have h2 : 2 * m + 1 < dests.length := by omega
        rw [List.getD_eq_getElem _ _ h1, List.getD_eq_getElem _ _ h2]
        intro he
        have := (hdn.getElem_inj_iff).1 he
        omega)]
    apply List.flatMap_congr
    intro m hm
    rw [List.mem_range] at hm
    rw [hrb m hm, getD_take_eq _ _ _ _ (by omega),
      getD_take_eq _ _ _ _ (by omega)]
  · by_cases ho : n % 2 = 1
    · rw [if_pos ho, if_pos ho]
      have hdlen : (W.drop (2 * (n / 2))).length = 1 := by
        rw [List.length_drop]
        omega
      rcases hvd : W.drop (2 * (n / 2)) with _ | ⟨x, t⟩
      · rw [hvd] at hdlen
        simp at hdlen
      · rw [hvd] at hdlen
        rcases t with _ | ⟨y, t2⟩
        · have hx : x = W.getD (n - 1) dflt := by
            have h0 : (W.drop (2 * (n / 2))).getD 0 dflt =
                W.getD (2 * (n / 2) + 0) dflt := getD_drop_eq W _ 0 dflt
            rw [hvd] at h0
            rw [show n - 1 = 2 * (n / 2) + 0 from by omega, ← h0]
            rfl
          show (rowPassT _ (lo + 2 * (n / 2))
            (colOfBlks [ColBlk.pass (dests.getD (n - 1) 0)]) [x]).1 = _
          rw [show (colOfBlks [ColBlk.pass (dests.getD (n - 1) 0)]) =
            [(dests.getD (n - 1) 0, dests.getD (n - 1) 0)] from rfl]
          rw [rowPassT.eq_def]
          simp [hx]
          rw [rowPassT_nil]
        · simp at hdlen
    · rw [if_neg ho, if_neg ho]
      have hdlen : W.drop (2 * (n / 2)) = [] := by
        rw [List.drop_eq_nil_iff]
        omega
      rw [hdlen]
      show (rowPassT _ (lo + 2 * (n / 2)) (colOfBlks []) []).1 = []
      rw [show colOfBlks [] = [] from rfl, rowPassT_nil]

/-- The vector after materialising the left switch column: the upper half
holds the up-rows, the lower half the down-rows. -/
theorem left_col_w1 (n lo : ℕ) (dflt : α) (S : List Bool) (v : List α)
    (h2 : 2 ≤ n) (hv : v.length = n) :
    ∀ j, j < n →
      (matLoc n lo dflt (rowPass (bitOf ((List.range (n / 2)).map
        (fun k => (lo + 2 * k, S.getD (2 * k) false)))) lo
        (switchColL n lo) v)).getD j dflt =
      (if j < n / 2 then v.getD (iUp S j) dflt
       else v.getD (iLo n S (j - n / 2)) dflt) := by
  intro j hj
  have hkeys : (rowPass (bitOf ((List.range (n / 2)).map
      (fun k => (lo + 2 * k, S.getD (2 * k) false)))) lo
        (switchColL n lo) v).map Prod.fst = (blksL n lo).flatMap blkDests := by
    rw [rowPass, switchColL_blocks]
    exact rowPassT_keys _ _ _ (blksL_wf n lo) (by rw [blksL_length]; omega) lo
  have hnd : ((rowPass (bitOf ((List.range (n / 2)).map
      (fun k => (lo + 2 * k, S.getD (2 * k) false)))) lo
        (switchColL n lo) v).map Prod.fst).Nodup := by
    rw [hkeys]
    exact (blksL_dests_perm n lo).nodup_iff.2 (identDests_nodup n lo)
  rw [matLoc_getD _ _ _ _ _ hj]
  by_cases hup : j < n / 2
  · rw [if_pos hup,
      depLookup_eq_some_of_mem _ _ (v.getD (iUp S j) dflt) (by
        rw [switchColL_deposits n lo dflt S v h2 hv]
        refine List.mem_append_left _ (List.mem_flatMap.2 ⟨j,
          List.mem_range.2 hup, ?_⟩)
        simp) hnd]
    rfl
  · rw [if_neg hup]
    have hkey : lo + j = lo + n / 2 + (j - n / 2) := by omega
    rw [hkey, depLookup_eq_some_of_mem _ _ (v.getD (iLo n S (j - n / 2)) dflt)
      (by
        rw [switchColL_deposits n lo dflt S v h2 hv]
        by_cases hk : j - n / 2 < n / 2
        · refine List.mem_append_left _ (List.mem_flatMap.2 ⟨j - n / 2,
            List.mem_range.2 hk, ?_⟩)
          simp
        · have ho : n % 2 = 1 := by omega
          have hjn : j = n - 1 := by omega
          refine List.mem_append_right _ ?_
          rw [if_pos ho]
          have hilo : iLo n S (j - n / 2) = n - 1 := by
            rw [iLo, if_neg (by omega)]
            omega
          rw [hilo, show lo + n / 2 + (j - n / 2) = lo + n - 1 from by omega]
          simp) hnd]
    rfl

/-- Looking up the right switch column's writes at each destination. -/
theorem right_col_lookup (n lo : ℕ) (dflt : α) (dests : List ℕ) (rb : RCol)
    (SB : ℕ → Bool) (W : List α) (h2 : 2 ≤ n) (hW : W.length = n)
    (hdl : dests.length = n) (hdn : dests.Nodup)
    (hrb : ∀ m < n / 2, bitOf rb (lo + 2 * m) = SB m) :
    (∀ m, m < n / 2 →
      depLookup (rowPass (bitOf rb) lo (switchColR n dests) W)
        (dests.getD (2 * m) 0) =
        some (if SB m then W.getD (2 * m + 1) dflt else W.getD (2 * m) dflt)) ∧
    (∀ m, m < n / 2 →
      depLookup (rowPass (bitOf rb) lo (switchColR n dests) W)
        (dests.getD (2 * m + 1) 0) =
        some (if SB m then W.getD (2 * m) dflt else W.getD (2 * m + 1) dflt)) ∧
    (n % 2 = 1 →
      depLookup (rowPass (bitOf rb) lo (switchColR n dests) W)
        (dests.getD (n - 1) 0) = some (W.getD (n - 1) dflt)) := by
  have hkeys : (rowPass (bitOf rb) lo (switchColR n dests) W).map Prod.fst =
      dests := by
    rw [rowPass, switchColR_blocks,
      rowPassT_keys _ _ _ (blksR_wf n dests hdl hdn)
        (by rw [blksR_length]; omega) lo]
    exact blksR_dests_eq n dests hdl
  have hnd : ((rowPass (bitOf rb) lo (switchColR n dests) W).map
      Prod.fst).Nodup := by
    rw [hkeys]
    exact hdn
  refine ⟨?_, ?_, ?_⟩
  · intro m hm
    exact depLookup_eq_some_of_mem _ _ _ (by
      rw [switchColR_deposits n lo dflt dests rb SB W h2 hW hdl hdn hrb]
      refine List.mem_append_left _ (List.mem_flatMap.2 ⟨m,
        List.mem_range.2 hm, ?_⟩)
      simp) hnd
  · intro m hm
    exact depLookup_eq_some_of_mem _ _ _ (by
      rw [switchColR_deposits n lo dflt dests rb SB W h2 hW hdl hdn hrb]
      refine List.mem_append_left _ (List.mem_flatMap.2 ⟨m,
        List.mem_range.2 hm, ?_⟩)
      simp) hnd
  · intro ho
    exact depLookup_eq_some_of_mem _ _ _ (by
      rw [switchColR_deposits n lo dflt dests rb SB W h2 hW hdl hdn hrb]
      refine List.mem_append_right _ ?_
      rw [if_pos ho]
      simp) hnd

/-- The base of the network induction: a one-column sub-network (one or two
rows) deposits each packet at the destination its sub-permutation demands. -/
theorem subExec_base (lo : ℕ) (dflt : α) (n : ℕ) (p dests : List ℕ)
    (v : List α) (hcols : as_waksman_num_columns n ≤ 1)
    (hp : (List.range n).Perm p) (hdl : dests.length = n) (hdn : dests.Nodup)
    (hv : v.length = n) :
    ∀ i, i < n →
      depLookup (subExecD lo n dflt (buildTopo 1 n lo dests)
        (routeBuild 1 n lo p) v) (dests.getD (p.getD i 0) 0) =
        some (v.getD i dflt) := by
  intro i hi
  have hn2 : n ≤ 2 := by
    by_contra h
    have := three_le_num_columns n (by omega)
    omega
  rcases Nat.lt_or_ge n 2 with h1 | h1
  · -- n = 1
    have hn1 : n = 1 := by omega
    subst hn1
    have hi0 : i = 0 := by omega
    subst hi0
    have hpval : p = [0] := by
      have : (List.range 1).Perm p := hp
      rw [show List.range 1 = [0] from rfl] at this
      exact (List.singleton_perm.1 this).symm
    rw [show buildTopo 1 1 lo dests = [passColD dests] from by
      rw [buildTopo]; rw [if_neg (by omega)],
      show routeBuild 1 1 lo p = [[]] from by
      rw [routeBuild]; rw [if_neg (by omega)],
      subExecD_one]
    rw [show passColD dests = colOfBlks (blksPassD dests) from
      passColD_blocks dests, blksPassD, rowPass,
      rowPass_pass_deposits _ _ _ lo (by omega), hpval]
    exact depLookup_zip dests v dflt hdn (by omega) 0 (by omega)
  · -- n = 2
    have hn1 : n = 2 := by omega
    subst hn1
    have hne01 : dests.getD 0 0 ≠ dests.getD 1 0 := by
      rw [List.getD_eq_getElem _ _ (by omega),
        List.getD_eq_getElem _ _ (by omega)]
      intro he
      have := (hdn.getElem_inj_iff).1 he
      omega
    have hp0 : p.getD 0 0 < 2 := pf_lt 2 p hp 0 (by omega)
    have hp1 : p.getD 1 0 < 2 := pf_lt 2 p hp 1 (by omega)
    have hpne : p.getD 0 0 ≠ p.getD 1 0 := by
      intro he
      have e0 := sf_pf 2 p hp 0 (by omega)
      have e1 := sf_pf 2 p hp 1 (by omega)
      rw [he, e1] at e0
      exact absurd e0 (by omega)
    rw [show buildTopo 1 2 lo dests =
      [[(dests.getD 0 0, dests.getD 1 0),
        (dests.getD 1 0, dests.getD 0 0)]] from by
      rw [buildTopo]; rw [if_pos rfl],
      show routeBuild 1 2 lo p = [[(lo, p.getD 0 0 == 1)]] from by
      rw [routeBuild]; rw [if_pos rfl],
      subExecD_one]
    have hbit : bitOf [(lo, p.getD 0 0 == 1)] lo = (p.getD 0 0 == 1) := by
      simp [bitOf]
    match v, hv with
    | [x, y], _ =>
      rw [show [(dests.getD 0 0, dests.getD 1 0),
          (dests.getD 1 0, dests.getD 0 0)] =
          colOfBlks [ColBlk.sw (dests.getD 0 0) (dests.getD 1 0)] from rfl,
        rowPass,
        rowPassT_sw _ _ _ _ hne01 [] x y [],
        show ((lo : ℕ) : ℕ) = lo from rfl]
      simp only [hbit]
      rcases Nat.lt_or_ge (p.getD 0 0) 1 with hc | hc
      · have hpa : p.getD 0 0 = 0 := by omega
        have hpb : p.getD 1 0 = 1 := by omega
        rw [hpa, show ((0 : ℕ) == 1) = false from rfl]
        rcases Nat.lt_or_ge i 1 with hci | hci
        · have : i = 0 := by omega
          subst this
          rw [hpa, depLookup_cons, if_pos rfl]
          simp [bitOf]
        · have : i = 1 := by omega
          subst this
          rw [hpb, depLookup_cons, if_neg hne01, depLookup_cons, if_pos rfl]
          simp [bitOf]
      · have hpa : p.getD 0 0 = 1 := by omega
        have hpb : p.getD 1 0 = 0 := by omega
        rw [hpa, show ((1 : ℕ) == 1) = true from rfl]
        rcases Nat.lt_or_ge i 1 with hci | hci
        · have : i = 0 := by omega
          subst this
          rw [hpa, depLookup_cons, if_neg hne01, depLookup_cons, if_pos rfl]
          simp [bitOf]
        · have : i = 1 := by omega
          subst this
          rw [hpb, depLookup_cons, if_pos rfl]
          simp [bitOf]

theorem subExecD_cons_cons (lo n : ℕ) (dflt : α) (c : Col) (cs : List Col)
    (rc : RCol) (rts : List RCol) (v : List α) (h : cs ≠ []) :
    subExecD lo n dflt (c :: cs) (rc :: rts) v =
      subExecD lo n dflt cs rts
        (matLoc n lo dflt (rowPass (bitOf rc) lo c v)) := by
  rw [subExecD_cons_ne _ _ _ _ _ _ _ h]
  rfl

/-- The level invariant of the AS-Waksman construction: over any span, the
generated sub-network with the computed routing deposits the packet of row i
at the destination slot assigned to its sub-permutation image. -/
theorem subExec_correct (dflt : α) :
    ∀ (s n lo : ℕ) (p dests : List ℕ) (v : List α),
      Odd s → as_waksman_num_columns n ≤ s →
      (List.range n).Perm p → dests.length = n → dests.Nodup →
      v.length = n →
      ∀ i, i < n →
        depLookup (subExecD lo n dflt (buildTopo s n lo dests)
          (routeBuild s n lo p) v) (dests.getD (p.getD i 0) 0) =
          some (v.getD i dflt) := by
  intro s
  induction s using Nat.strong_induction_on with
  | _ s ih =>
    rcases s with _ | s
    · intro n lo p dests v hodd
      exact absurd hodd (by simp)
    rcases s with _ | s
    · intro n lo p dests v _ hcols hp hdl hdn hv
      exact subExec_base lo dflt n p dests v hcols hp hdl hdn hv
    intro n lo p dests v hodd hcols hp hdl hdn hv i hi
    have hodd' : Odd s := odd_of_odd_add_two s hodd
    have hs1 : 1 ≤ s := by
      rcases hodd' with ⟨b, hb⟩
      omega
    by_cases hpad : as_waksman_num_columns n < s + 2
    · -- padding level: a pass column on each side of a smaller network
      have hcols' : as_waksman_num_columns n ≤ s :=
        num_columns_le_of_lt_odd s n hodd hpad
      have hbt := buildTopo_struct s n lo (identDests n lo) hodd' hcols'
        (by omega) (identDests_length n lo) (identDests_nodup n lo)
      have hrt := routeBuild_struct s n lo p
      have hsne : buildTopo s n lo (identDests n lo) ≠ [] := by
        intro hX
        have := hbt.1
        rw [hX] at this
        simp at this
        omega
      rw [buildTopo_pad s n lo dests hpad, routeBuild_pad s n lo p hpad,
        subExecD_cons_cons _ _ _ _ _ _ _ _ (by simp)]
      have hfirst : matLoc n lo dflt
          (rowPass (bitOf []) lo (passCol n lo) v) = v := by
        rw [show passCol n lo = colOfBlks (blksPass n lo) from
          passCol_blocks n lo, blksPass, rowPass,
          rowPass_pass_deposits _ _ _ lo (by rw [identDests_length]; omega)]
        exact matLoc_zip_ident n lo dflt v hv
      rw [hfirst,
        subExecD_append_last lo n dflt _ (passColD dests) _ [] v hsne
          (hrt.1.trans hbt.1.symm)]
      have hIH := ih s (by omega) n lo p (identDests n lo) v hodd' hcols' hp
        (identDests_length n lo) (identDests_nodup n lo) hv
      have hji : p.getD i 0 < n := pf_lt n p hp i hi
      have hmat : (matLoc n lo dflt (subExecD lo n dflt
          (buildTopo s n lo (identDests n lo)) (routeBuild s n lo p)
          v)).getD (p.getD i 0) dflt = v.getD i dflt := by
        rw [matLoc_getD _ _ _ _ _ hji]
        have hIHi := hIH i hi
        rw [identDests_getD n lo _ hji] at hIHi
        rw [hIHi]
        rfl
      rw [show passColD dests = colOfBlks (blksPassD dests) from
        passColD_blocks dests, blksPassD, rowPass,
        rowPass_pass_deposits _ _ _ lo (by rw [matLoc_length]; omega),
        depLookup_zip dests _ dflt hdn (by rw [matLoc_length]; omega)
          (p.getD i 0) (by omega), hmat]
    · -- switch level
      have heq : as_waksman_num_columns n = s + 2 := switch_case_eq s n hpad hcols
      have hn3 : 3 ≤ n := switch_case_n3 s n heq
      obtain ⟨hsub1, hsub2⟩ := switch_case_sub s n heq hn3
      obtain ⟨hin, hout, hpin⟩ := levelFacts n p hp
      obtain ⟨S, hSdef⟩ : ∃ S, levelColor n (invL n p) = S := ⟨_, rfl⟩
      rw [hSdef] at hin hout hpin
      have hpinS : n % 2 = 1 → S.getD (n - 1) false = true :=
        fun ho => (hpin ho).1
      have hpinO : n % 2 = 1 → S.getD (p.indexOf (n - 1)) false = true :=
        fun ho => (hpin ho).2
      rw [buildTopo_switch s n lo dests hpad, routeBuild_switch s n lo p hpad,
        hSdef, subExecD_cons_cons _ _ _ _ _ _ _ _ (by simp)]
      obtain ⟨w1, hw1def⟩ : ∃ w, matLoc n lo dflt (rowPass (bitOf
          ((List.range (n / 2)).map
            (fun k => (lo + 2 * k, S.getD (2 * k) false))))
          lo (switchColL n lo) v) = w := ⟨_, rfl⟩
      rw [hw1def]
      have hw1len : w1.length = n := by rw [← hw1def, matLoc_length]
      have hw1 : ∀ j, j < n → w1.getD j dflt =
          (if j < n / 2 then v.getD (iUp S j) dflt
           else v.getD (iLo n S (j - n / 2)) dflt) := by
        intro j hj
        rw [← hw1def]
        exact left_col_w1 n lo dflt S v (by omega) hv j hj
      have hbtU := buildTopo_struct s (n / 2) lo (upDests n lo) hodd' hsub2
        (by omega) (upDests_length n lo) (upDests_nodup n lo)
      have hbtL := buildTopo_struct s (n - n / 2) (lo + n / 2) (loDests n lo)
        hodd' (le_of_eq hsub1) (by omega) (loDests_length n lo)
        (loDests_nodup n lo)
      have hrtU := routeBuild_struct s (n / 2) lo
        ((List.range (n / 2)).map (fun k => p.getD (iUp S k) 0 / 2))
      have hrtL := routeBuild_struct s (n - n / 2) (lo + n / 2)
        ((List.range (n - n / 2)).map (fun k => p.getD (iLo n S k) 0 / 2))
      have hTUne : buildTopo s (n / 2) lo (upDests n lo) ≠ [] := by
        intro hX
        have := hbtU.1
        rw [hX] at this
        simp at this
        omega
      have hnn : n / 2 + (n - n / 2) = n := by omega
      have hmerge := subExecD_merge (n / 2) (n - n / 2) lo dflt
        (upDests n lo) (loDests n lo)
        (buildTopo s (n / 2) lo (upDests n lo))
        (buildTopo s (n - n / 2) (lo + n / 2) (loDests n lo))
        (routeBuild s (n / 2) lo ((List.range (n / 2)).map
          (fun k => p.getD (iUp S k) 0 / 2)))
        (routeBuild s (n - n / 2) (lo + n / 2) ((List.range (n - n / 2)).map
          (fun k => p.getD (iLo n S k) 0 / 2)))
        [switchColR n dests]
        [(List.range (n / 2)).map (fun m =>
          (lo + 2 * m, S.getD ((invL n p).getD (2 * m) 0) false))]
        w1
        (hbtU.1.trans hbtL.1.symm) (hrtU.1.trans hbtU.1.symm)
        (hrtL.1.trans hbtL.1.symm) hTUne (by simp)
        hbtU.2 hbtL.2
        (fun rc hrc q hq => hrtU.2 rc hrc q hq)
        (fun rc hrc q hq => (hrtL.2 rc hrc q hq).1)
        (by rw [hw1len]; omega)
      rw [hnn] at hmerge
      rw [hmerge, subExecD_one]
      simp only [List.headD_cons]
      obtain ⟨DU, hDUdef⟩ : ∃ d, subExecD lo (n / 2) dflt
          (buildTopo s (n / 2) lo (upDests n lo))
          (routeBuild s (n / 2) lo ((List.range (n / 2)).map
            (fun k => p.getD (iUp S k) 0 / 2))) (w1.take (n / 2)) = d :=
        ⟨_, rfl⟩
      obtain ⟨DL, hDLdef⟩ : ∃ d, subExecD (lo + n / 2) (n - n / 2) dflt
          (buildTopo s (n - n / 2) (lo + n / 2) (loDests n lo))
          (routeBuild s (n - n / 2) (lo + n / 2) ((List.range (n - n / 2)).map
            (fun k => p.getD (iLo n S k) 0 / 2))) (w1.drop (n / 2)) = d :=
        ⟨_, rfl⟩
      rw [hDUdef, hDLdef]
      obtain ⟨W, hWdef⟩ : ∃ w, matLoc n lo dflt (DU ++ DL) = w := ⟨_, rfl⟩
      rw [hWdef]
      have hpU := pU_perm n p S hp hin hout hpinO
      have hpL := pL_perm n p S hp hin hout hpinS
      have hIHU := ih s (by omega) (n / 2) lo
        ((List.range (n / 2)).map (fun k => p.getD (iUp S k) 0 / 2))
        (upDests n lo) (w1.take (n / 2)) hodd' hsub2 hpU
        (upDests_length n lo) (upDests_nodup n lo)
        (by rw [List.length_take]; omega)
      have hIHL := ih s (by omega) (n - n / 2) (lo + n / 2)
        ((List.range (n - n / 2)).map (fun k => p.getD (iLo n S k) 0 / 2))
        (loDests n lo) (w1.drop (n / 2)) hodd' (le_of_eq hsub1) hpL
        (loDests_length n lo) (loDests_nodup n lo)
        (by rw [List.length_drop]; omega)
      rw [hDUdef] at hIHU
      rw [hDLdef] at hIHL
      have hDUkeys : (DU.map Prod.fst).Perm (upDests n lo) := by
        rw [← hDUdef]
        exact subExecD_keys lo (n / 2) dflt (upDests n lo) _ hTUne hbtU.2 _ _
          (by rw [List.length_take]; omega)
      have hWlen : W.length = n := by rw [← hWdef, matLoc_length]
      have hWval : ∀ x, x < n → W.getD x dflt =
          (depLookup (DU ++ DL) (lo + x)).getD dflt := by
        intro x hx
        rw [← hWdef, matLoc_getD _ _ _ _ _ hx]
      have hrb : ∀ m, m < n / 2 → bitOf ((List.range (n / 2)).map (fun m =>
          (lo + 2 * m, S.getD ((invL n p).getD (2 * m) 0) false)))
          (lo + 2 * m) = S.getD ((invL n p).getD (2 * m) 0) false :=
        fun m hm => bitOf_pairs
          (fun m => S.getD ((invL n p).getD (2 * m) 0) false) lo (n / 2) m hm
      obtain ⟨hRC1, hRC2, hRC3⟩ := right_col_lookup n lo dflt dests
        ((List.range (n / 2)).map (fun m =>
          (lo + 2 * m, S.getD ((invL n p).getD (2 * m) 0) false)))
        (fun m => S.getD ((invL n p).getD (2 * m) 0) false) W
        (by omega) hWlen hdl hdn hrb
      have hji : p.getD i 0 < n := pf_lt n p hp i hi
      have hidx : p.indexOf (p.getD i 0) = i := sf_pf n p hp i hi
      have hUPv : S.getD i false = false →
          depLookup (DU ++ DL) (lo + 2 * (p.getD i 0 / 2)) =
            some (v.getD i dflt) := by
        intro hSi
        obtain ⟨hk2, hk3⟩ := iUp_inv n S i hi hSi hin hpinS
        have hpUv : ((List.range (n / 2)).map
            (fun k => p.getD (iUp S k) 0 / 2)).getD (i / 2) 0 =
            p.getD i 0 / 2 := by
          rw [getD_map_range _ _ _ _ hk2, hk3]
        have hmem : p.getD i 0 / 2 ∈ (List.range (n / 2)).map
            (fun k => p.getD (iUp S k) 0 / 2) := by
          rw [← hpUv, List.getD_eq_getElem _ _ (by simp; omega)]
          exact List.getElem_mem _
        have hmlt : p.getD i 0 / 2 < n / 2 := perm_mem_lt _ _ hpU _ hmem
        have h1 := hIHU (i / 2) hk2
        rw [hpUv, upDests_getD n lo _ hmlt] at h1
        rw [depLookup_append_left_some _ _ _ _ h1,
          getD_take_eq _ _ _ _ hk2, hw1 (i / 2) (by omega), if_pos hk2, hk3]
      have hDNv : S.getD i false = true →
          depLookup DL ((loDests n lo).getD (p.getD i 0 / 2) 0) =
            some (v.getD i dflt) := by
        intro hSi
        obtain ⟨hk2, hk3⟩ := iLo_inv n S i hi hSi hin
        have hpLv : ((List.range (n - n / 2)).map
            (fun k => p.getD (iLo n S k) 0 / 2)).getD (i / 2) 0 =
            p.getD i 0 / 2 := by
          rw [getD_map_range _ _ _ _ hk2, hk3]
        have h1 := hIHL (i / 2) hk2
        rw [hpLv] at h1
        rw [h1, getD_drop_eq, hw1 (n / 2 + i / 2) (by omega),
          if_neg (by omega),
          show n / 2 + i / 2 - n / 2 = i / 2 from by omega, hk3]
      have hDUnone : ∀ x, (∀ k, k < n / 2 → lo + 2 * k ≠ x) →
          depLookup DU x = none := by
        intro x hx
        apply depLookup_eq_none
        intro hmem
        have h2 := hDUkeys.mem_iff.1 hmem
        rw [upDests] at h2
        obtain ⟨k, hkr, hke⟩ := List.mem_map.1 h2
        exact hx k (List.mem_range.1 hkr) hke
      by_cases hcase : p.getD i 0 < 2 * (n / 2)
      · by_cases hpar : p.getD i 0 % 2 = 0
        · obtain ⟨m, hm, hjm⟩ : ∃ m, m < n / 2 ∧ p.getD i 0 = 2 * m :=
            ⟨p.getD i 0 / 2, by omega, by omega⟩
          rw [hjm, hRC1 m hm]
          have hSB : S.getD ((invL n p).getD (2 * m) 0) false =
              S.getD i false := by
            rw [invL_getD n p _ (by omega), ← hjm, hidx]
          cases hSi : S.getD i false
          · rw [hSB, hSi, if_neg (by simp), hWval (2 * m) (by omega),
              show 2 * m = 2 * (p.getD i 0 / 2) from by omega, hUPv hSi]
            rfl
          · rw [hSB, hSi, if_pos rfl, hWval (2 * m + 1) (by omega)]
            have hnone := hDUnone (lo + (2 * m + 1)) (fun k hk hke => by omega)
            rw [depLookup_append_left_none _ _ _ hnone]
            have hDN := hDNv hSi
            have hkeyEq : (loDests n lo).getD (p.getD i 0 / 2) 0 =
                lo + 2 * m + 1 := by
              rw [show p.getD i 0 / 2 = m from by omega,
                loDests_getD n lo m (by omega), if_pos (by omega)]
            rw [hkeyEq] at hDN
            rw [show lo + (2 * m + 1) = lo + 2 * m + 1 from by omega, hDN]
            rfl
        · obtain ⟨m, hm, hjm⟩ : ∃ m, m < n / 2 ∧ p.getD i 0 = 2 * m + 1 :=
            ⟨p.getD i 0 / 2, by omega, by omega⟩
          rw [hjm, hRC2 m hm]
          have hSB2 : S.getD ((invL n p).getD (2 * m) 0) false ≠
              S.getD i false := by
            rw [invL_getD n p _ (by omega)]
            have h3 := hout m hm
            rw [show (2 * m + 1 : ℕ) = p.getD i 0 from hjm.symm, hidx] at h3
            exact h3
          cases hSi : S.getD i false
          · have hSBt : S.getD ((invL n p).getD (2 * m) 0) false = true := by
              cases hv2 : S.getD ((invL n p).getD (2 * m) 0) false
              · exact absurd (hv2.trans hSi.symm) hSB2
              · rfl
            rw [hSBt, if_pos rfl, hWval (2 * m) (by omega),
              show 2 * m = 2 * (p.getD i 0 / 2) from by omega, hUPv hSi]
            rfl
          · have hSBf : S.getD ((invL n p).getD (2 * m) 0) false = false := by
              cases hv2 : S.getD ((invL n p).getD (2 * m) 0) false
              · rfl
              · exact absurd (hv2.trans hSi.symm) hSB2
            rw [hSBf, if_neg (by simp), hWval (2 * m + 1) (by omega)]
            have hnone := hDUnone (lo + (2 * m + 1)) (fun k hk hke => by omega)
            rw [depLookup_append_left_none _ _ _ hnone]
            have hDN := hDNv hSi
            have hkeyEq : (loDests n lo).getD (p.getD i 0 / 2) 0 =
                lo + 2 * m + 1 := by
              rw [show p.getD i 0 / 2 = m from by omega,
                loDests_getD n lo m (by omega), if_pos (by omega)]
            rw [hkeyEq] at hDN
            rw [show lo + (2 * m + 1) = lo + 2 * m + 1 from by omega, hDN]
            rfl
      · have ho : n % 2 = 1 := by omega
        have hjm : p.getD i 0 = n - 1 := by omega
        rw [hjm, hRC3 ho]
        have hSi : S.getD i false = true := by
          have h3 := hpinO ho
          rw [← hjm, hidx] at h3
          exact h3
        rw [hWval (n - 1) (by omega)]
        have hnone := hDUnone (lo + (n - 1)) (fun k hk hke => by omega)
        rw [depLookup_append_left_none _ _ _ hnone]
        have hDN := hDNv hSi
        have hkeyEq : (loDests n lo).getD (p.getD i 0 / 2) 0 =
            lo + (n - 1) := by
          rw [hjm, loDests_getD n lo _ (by omega), if_neg (by omega)]
          omega
        rw [hkeyEq] at hDN
        rw [hDN]
        rfl

/-- Pointwise correctness of the routed network: the packet of input row i
arrives at output row p[i]. -/
theorem execNet_routed (N : ℕ) (p : List ℕ) (dflt : α) (input : List α)
    (h2 : 2 ≤ N) (hp : (List.range N).Perm p) (hlen : input.length = N) :
    ∀ i, i < N →
      (execNet (generate_as_waksman_topology N) (get_as_waksman_routing p)
        dflt input).getD (p.getD i 0) dflt = input.getD i dflt := by
  intro i hi
  have hgood := generate_topology_good N
  have hpos : 1 ≤ as_waksman_num_columns N := as_waksman_num_columns_pos N h2
  have htne : generate_as_waksman_topology N ≠ [] := by
    intro hX
    have := hgood.1
    rw [hX] at this
    simp at this
    omega
  rw [execNet, execNetGo_eq_subExecD N dflt _ _ 0 input _ hlen
    (by rw [List.length_replicate, hlen]) (fun c hc => hgood.2 c hc) htne,
    List.drop_zero, get_as_waksman_routing, perm_length N p hp,
    generate_as_waksman_topology]
  have hsc := subExec_correct dflt (as_waksman_num_columns N) N 0 p
    (List.range N) input (as_waksman_num_columns_odd N h2) le_rfl hp
    (by simp) (List.nodup_range N) hlen i hi
  rw [show (List.range N).getD (p.getD i 0) 0 = p.getD i 0 from by
    rw [List.getD_eq_getElem _ _ (by
      rw [List.length_range]
      exact pf_lt N p hp i hi)]
    simp] at hsc
  rw [matLoc_getD _ _ _ _ _ (pf_lt N p hp i hi), Nat.zero_add, hsc]
  rfl

/-- Full-vector correctness of the routed network: the output is the input
reindexed by the inverse permutation. -/
theorem execNet_eq_inv (N : ℕ) (p : List ℕ) (dflt : α) (input : List α)
    (h2 : 2 ≤ N) (hp : (List.range N).Perm p) (hlen : input.length = N) :
    execNet (generate_as_waksman_topology N) (get_as_waksman_routing p)
      dflt input = (invL N p).map (fun r => input.getD r dflt) := by
  apply List.ext_getElem
  · rw [execNet_length, hlen]
    simp [invL]
  · intro j hj1 hj2
    rw [execNet_length, hlen] at hj1
    rw [← List.getD_eq_getElem _ dflt, ← List.getD_eq_getElem _ dflt]
    have hRHS : ((invL N p).map (fun r => input.getD r dflt)).getD j dflt =
        input.getD (p.indexOf j) dflt := by
      rw [invL, List.map_map, getD_map_range _ _ _ _ hj1]
      rfl
    rw [hRHS]
    have hik := execNet_routed N p dflt input h2 hp hlen (p.indexOf j)
      (sf_lt N p hp j hj1)
    rw [pf_sf N p hp j hj1] at hik
    exact hik

/-- Reading the inverse-reindexed vector at slot p[i] recovers input[i]. -/
theorem inv_map_getD (N : ℕ) (p : List ℕ) (input : List α) (dflt : α)
    (hp : (List.range N).Perm p) (i : ℕ) (hi : i < N) :
    ((invL N p).map (fun r => input.getD r dflt)).getD (p.getD i 0) dflt =
      input.getD i dflt := by
  rw [invL, List.map_map, getD_map_range _ _ _ _ (pf_lt N p hp i hi)]
  show input.getD (p.indexOf (p.getD i 0)) dflt = input.getD i dflt
  rw [sf_pf N p hp i hi]

/-- The solver's routing always passes the driver's self-check. -/
theorem routing_selfcheck (p : List ℕ) (h1 : 1 ≤ p.length)
    (hval : perm_is_valid p = true) :
    valid_as_waksman_routing p (get_as_waksman_routing p) = true := by
  have hp : (List.range p.length).Perm p := (perm_is_valid_iff p).1 hval
  rcases Nat.lt_or_ge p.length 2 with hN | hN
  · have h1' : p.length = 1 := by omega
    have hpeq : p = [0] := by
      have hx : (List.range 1).Perm p := h1' ▸ hp
      rw [show List.range 1 = [0] from rfl] at hx
      exact (List.singleton_perm.1 hx).symm
    subst hpeq
    decide
  · rw [valid_as_waksman_routing,
      execNet_eq_inv p.length p 0 (List.range p.length) hN hp (by simp)]
    have hmapid : (invL p.length p).map
        (fun r => (List.range p.length).getD r 0) = invL p.length p := by
      conv_rhs => rw [← List.map_id (invL p.length p)]
      apply List.map_congr_left
      intro r hr
      rw [invL] at hr
      obtain ⟨j, hj, rfl⟩ := List.mem_map.1 hr
      have hlt := sf_lt p.length p hp j (List.mem_range.1 hj)
      rw [List.getD_eq_getElem _ _ (by simpa using hlt)]
      simp
    rw [hmapid]
    simp

/-- With a valid non-empty permutation the driver reaches the network
execution. -/
theorem driver_ok (input : List α) (p : List ℕ) (dflt : α)
    (hlen : p.length = input.length) (hne : p ≠ [])
    (hval : perm_is_valid p = true) :
    waksman_permute_vector input p dflt =
      .ok (execNet (generate_as_waksman_topology input.length)
        (get_as_waksman_routing p) dflt input) := by
  rw [waksman_permute_vector,
    if_neg (not_not_intro (Or.inl hlen.symm)),
    if_neg (by simp [hne]),
    if_neg (not_not_intro hval),
    if_neg (not_not_intro (routing_selfcheck p
      (Nat.one_le_iff_ne_zero.2 (by simp [hne])) hval))]

/-- The same for the control-bit trace. -/
theorem trace_driver_ok (input : List α) (p : List ℕ) (dflt : α)
    (hlen : p.length = input.length) (hne : p ≠ [])
    (hval : perm_is_valid p = true) :
    waksman_permute_trace input p dflt =
      .ok (execNetT (generate_as_waksman_topology input.length)
        (get_as_waksman_routing p) dflt input) := by
  rw [waksman_permute_trace,
    if_neg (not_not_intro (Or.inl hlen.symm)),
    if_neg (by simp [hne]),
    if_neg (not_not_intro hval),
    if_neg (not_not_intro (routing_selfcheck p
      (Nat.one_le_iff_ne_zero.2 (by simp [hne])) hval))]

/-- The trace of a run over the generated topology has one bit per canonical
switch, independently of the routing and the values. -/
theorem execNetT_len (N : ℕ) (routing : List RCol) (dflt : α)
    (input : List α) (hlen : input.length = N) :
    (execNetT (generate_as_waksman_topology N) routing dflt input).length =
      numSwitches (generate_as_waksman_topology N) := by
  rw [execNetT]
  refine execNetGoT_length routing N _ 0 input _ hlen (by simp [hlen]) ?_
  intro c hc
  obtain ⟨bs, hwf, hcol, hblen, _⟩ := (generate_topology_good N).2 c hc
  exact ⟨bs, hwf, hcol, hblen⟩

/-- C1: for every input vector of length N and every permutation_indices
that is a bijection on 0..N-1, `waksman_permute_vector` (with the plaintext
conditional swap) succeeds and returns the length-N vector whose p[i]-th
entry equals input[i], i.e. the vector
[input[p⁻¹(0)], ..., input[p⁻¹(N-1)]]. -/
theorem C1_driver_permutes {α : Type} (input : List α) (p : List ℕ)
    (dflt : α) (hlen : p.length = input.length) (hne : p ≠ [])
    (hval : perm_is_valid p = true) :
    waksman_permute_vector input p dflt =
      .ok ((invL input.length p).map (fun r => input.getD r dflt)) ∧
    ((invL input.length p).map (fun r => input.getD r dflt)).length =
      input.length ∧
    ∀ i, i < input.length →
      ((invL input.length p).map (fun r => input.getD r dflt)).getD
        (p.getD i 0) dflt = input.getD i dflt := by
  have hp : (List.range input.length).Perm p := by
    have h := (perm_is_valid_iff p).1 hval
    rw [hlen] at h
    exact h
  refine ⟨?_, by simp [invL],
    fun i hi => inv_map_getD input.length p input dflt hp i hi⟩
  rw [driver_ok input p dflt hlen hne hval]
  congr 1
  rcases Nat.lt_or_ge input.length 2 with hN | hN
  · have hpos : 1 ≤ p.length := Nat.one_le_iff_ne_zero.2 (by simp [hne])
    have h1 : input.length = 1 := by omega
    match input, h1 with
    | [x], _ =>
      have hpeq : p = [0] := by
        have hx : (List.range 1).Perm p := hp
        rw [show List.range 1 = [0] from rfl] at hx
        exact (List.singleton_perm.1 hx).symm
      subst hpeq
      rfl
  · exact execNet_eq_inv input.length p dflt input hN hp rfl

/-- Witness for C1 at the spec's scenario S1: N = 4, permutation [1,3,0,2],
input [10,11,12,13] yields [12,10,13,11]. -/
theorem C1_driver_permutes_witness :
    ([1, 3, 0, 2] : List ℕ).length = ([10, 11, 12, 13] : List ℕ).length ∧
    ([1, 3, 0, 2] : List ℕ) ≠ [] ∧
    perm_is_valid [1, 3, 0, 2] = true ∧
    waksman_permute_vector ([10, 11, 12, 13] : List ℕ) [1, 3, 0, 2] 0 =
      .ok [12, 10, 13, 11] := by
  refine ⟨by decide, by decide, by decide, ?_⟩
  rw [(C1_driver_permutes [10, 11, 12, 13] [1, 3, 0, 2] 0 (by decide)
    (by decide) (by decide)).1]
  rfl

/-- C2: for every N in [1, 64] and every bijection p on 0..N-1, the
self-check `valid_as_waksman_routing p (get_as_waksman_routing p)` returns
true: simulating the network on the identity vector over the computed
routing realises exactly the permutation p (the simulated vector is p's
inverse, the realised permutation is p).  The bound 64 is the spec's; the
result holds for every N at least 1. -/
theorem C2_routing_validates (p : List ℕ) (h1 : 1 ≤ p.length)
    (h64 : p.length ≤ 64) (hval : perm_is_valid p = true) :
    valid_as_waksman_routing p (get_as_waksman_routing p) = true :=
  routing_selfcheck p h1 hval

/-- Witness for C2 at N = 4, permutation [1,3,0,2] (the spec's S1). -/
theorem C2_routing_validates_witness :
    1 ≤ ([1, 3, 0, 2] : List ℕ).length ∧ ([1, 3, 0, 2] : List ℕ).length ≤ 64 ∧
    perm_is_valid [1, 3, 0, 2] = true ∧
    valid_as_waksman_routing [1, 3, 0, 2]
      (get_as_waksman_routing [1, 3, 0, 2]) = true :=
  ⟨by decide, by decide, by decide,
    C2_routing_validates [1, 3, 0, 2] (by decide) (by decide) (by decide)⟩

/-- C5: for a fixed N the driver always runs `as_waksman_num_columns N`
columns, and for any two bijections (and any two inputs of length N) the
trace of `cond_swap` invocations has the same length, equal to the number of
canonical switch positions of the topology, independent of the permutations'
content. -/
theorem C5_constant_switch_count {α : Type} (N : ℕ) (v1 v2 : List α)
    (p1 p2 : List ℕ) (dflt : α) (hv1 : v1.length = N) (hv2 : v2.length = N)
    (hp1 : p1.length = N) (hp2 : p2.length = N) (hN : 1 ≤ N)
    (hval1 : perm_is_valid p1 = true) (hval2 : perm_is_valid p2 = true) :
    (generate_as_waksman_topology N).length = as_waksman_num_columns N ∧
    ∃ t1 t2, waksman_permute_trace v1 p1 dflt = .ok t1 ∧
      waksman_permute_trace v2 p2 dflt = .ok t2 ∧
      t1.length = numSwitches (generate_as_waksman_topology N) ∧
      t2.length = numSwitches (generate_as_waksman_topology N) := by
  have hne1 : p1 ≠ [] := by
    intro h
    rw [h] at hp1
    simp at hp1
    omega
  have hne2 : p2 ≠ [] := by
    intro h
    rw [h] at hp2
    simp at hp2
    omega
  refine ⟨(generate_topology_good N).1,
    execNetT (generate_as_waksman_topology N) (get_as_waksman_routing p1)
      dflt v1,
    execNetT (generate_as_waksman_topology N) (get_as_waksman_routing p2)
      dflt v2, ?_, ?_, execNetT_len N _ dflt v1 hv1,
    execNetT_len N _ dflt v2 hv2⟩
  · have h := trace_driver_ok v1 p1 dflt (by omega) hne1 hval1
    rw [hv1] at h
    exact h
  · have h := trace_driver_ok v2 p2 dflt (by omega) hne2 hval2
    rw [hv2] at h
    exact h

/-- Witness for C5 at N = 4 with permutations [1,3,0,2] and [0,1,2,3]. -/
theorem C5_constant_switch_count_witness :
    ([10, 11, 12, 13] : List ℕ).length = 4 ∧
    ([5, 6, 7, 8] : List ℕ).length = 4 ∧
    ([1, 3, 0, 2] : List ℕ).length = 4 ∧
    ([0, 1, 2, 3] : List ℕ).length = 4 ∧ 1 ≤ 4 ∧
    perm_is_valid [1, 3, 0, 2] = true ∧ perm_is_valid [0, 1, 2, 3] = true ∧
    ((generate_as_waksman_topology 4).length = as_waksman_num_columns 4 ∧
      ∃ t1 t2, waksman_permute_trace ([10, 11, 12, 13] : List ℕ)
          [1, 3, 0, 2] 0 = .ok t1 ∧
        waksman_permute_trace ([5, 6, 7, 8] : List ℕ) [0, 1, 2, 3] 0 =
          .ok t2 ∧
        t1.length = numSwitches (generate_as_waksman_topology 4) ∧
        t2.length = numSwitches (generate_as_waksman_topology 4)) :=
  ⟨by decide, by decide, by decide, by decide, by decide, by decide,
    by decide,
    C5_constant_switch_count 4 [10, 11, 12, 13] [5, 6, 7, 8] [1, 3, 0, 2]
      [0, 1, 2, 3] 0 (by decide) (by decide) (by decide) (by decide)
      (by decide) (by decide) (by decide)⟩
